import Mathlib


/-!
Hyrise: the optimizer core (predicate reordering, cost estimation, greedy join ordering), JIT
expressions, the generator of calibration predicates and the chunk pruning statistics.

A shallow embedding of
* `src/lib/optimizer/strategy/predicate_reordering_rule.cpp`
  (`PredicateReorderingRule::apply_to`, `PredicateReorderingRule::_reorder_predicates`),
* `src/lib/cost_estimation/abstract_cost_estimator.hpp`
  (`AbstractCostEstimator::estimate_plan_cost`, `guarantee_bottom_up_construction`),
* `src/lib/optimizer/join_ordering/greedy_operator_ordering.hpp`
  (`GreedyOperatorOrdering::operator()`),
* `src/lib/operators/jit_operator/operators/jit_expression.cpp`
  (`JitExpression::compute`, `compute_binary`, `JitExpression::_compute_result_type`),
* `src/cost_model_calibration_lib/query/calibration_query_generator_predicates.cpp`
  (`generate_predicates`, `generate_between_predicate_value`, `_generate_between`,
  `_generate_table_scan_predicate_value`),
* `src/lib/statistics/generate_pruning_statistics.cpp`
  (`create_pruning_filter_for_segment`, `generate_chunk_pruning_statistics`).

The logical query plan is an arena of nodes addressed by natural numbers (the node identity);
every C++ statement that mutates the plan becomes a function from plan states to plan states.
-/

namespace opossum

/-! ## Plan DAG -/

/-- Modelled from the spec: the enum `LQPNodeType` is declared outside the available sources.
The spec (data model) lists "a kind tag drawn from a fixed set (filter-predicate,
visibility/snapshot-filter, join, cross-product, leaf/source, ...)"; `Predicate` and `Validate`
are the two tags the rule tests for. -/
inductive LQPNodeType where
  | Predicate
  | Validate
  | Join
  | Cross
  | Projection
  | StoredTable
  | Root
  deriving DecidableEq, Repr

/-- Modelled from the spec: the two named input slots of a plan node (`LQPInputSide`). -/
inductive LQPInputSide where
  | Left
  | Right
  deriving DecidableEq, Repr

/-- Modelled from the spec: a plan node has a kind tag, 0-2 named inputs (left/right) and an
ordered list of (consumer, input-slot) back-references. `outputs()` is the list of first
components and `get_input_sides()` the list of second components of `outputs`. -/
structure LQPNode where
  type : LQPNodeType
  left_input : Option Nat
  right_input : Option Nat
  outputs : List (Nat × LQPInputSide)
  deriving Repr

/-- The plan: an arena mapping a node identity to the node stored under it. -/
abbrev LQP := Nat → LQPNode

/-- Estimated output row count of a node. The C++ type is a floating point number; the estimates
are finite (spec, error handling) and are only ever compared, so they are embedded in the
rationals, where comparison of finite values is the same. -/
abbrev Cardinality := ℚ

/-- Read access to an input slot: `node->input(side)`. -/
def input (s : LQP) (node : Nat) : LQPInputSide → Option Nat
  | .Left => (s node).left_input
  | .Right => (s node).right_input

/-- Removes the first back-reference `output` from the consumer list of `node`. -/
def remove_output_pointer (s : LQP) (node : Nat) (output : Nat × LQPInputSide) : LQP :=
  fun n => if n = node then { s n with outputs := (s n).outputs.erase output } else s n

/-- Appends the back-reference `output` to the consumer list of `node`. -/
def add_output_pointer (s : LQP) (node : Nat) (output : Nat × LQPInputSide) : LQP :=
  fun n => if n = node then { s n with outputs := (s n).outputs ++ [output] } else s n

/-- Overwrites one input slot of `node`, leaving every consumer list alone. -/
def set_slot (s : LQP) (node : Nat) (side : LQPInputSide) (inp : Option Nat) : LQP :=
  fun n =>
    if n = node then
      match side with
      | .Left => { s n with left_input := inp }
      | .Right => { s n with right_input := inp }
    else s n

/-- Modelled from the spec: `AbstractLQPNode::set_input` is outside the available sources. The
plan construction API offers "write access: set an input slot", and "detach/re-link operations
must update all consumer-side references": the node is untied from the consumer list of its
previous input, the slot is overwritten and the node is appended to the consumer list of the
new input. Setting a slot to the value it already has changes nothing. -/
def set_input (s : LQP) (node : Nat) (side : LQPInputSide) (inp : Option Nat) : LQP :=
  let current := input s node side
  if current = inp then s
  else
    let s1 := match current with
      | some c => remove_output_pointer s c (node, side)
      | none => s
    let s2 := set_slot s1 node side inp
    match inp with
    | some i => add_output_pointer s2 i (node, side)
    | none => s2

/-- Modelled from the spec: `lqp_remove_node` is outside the available sources. The plan
construction API offers "detach a node from all consumers" ("Untie predicates from LQP, so we
can freely retie them" at the call site): the node gives up its left input, and every consumer
that referenced the node references the node's former left input instead, in the same slot. -/
def lqp_remove_node (s : LQP) (node : Nat) : LQP :=
  let outputs := (s node).outputs
  let left_input := (s node).left_input
  let s1 := set_input s node .Left none
  outputs.foldl (fun st o => set_input st o.1 o.2 left_input) s1

/-! ## `PredicateReorderingRule::_reorder_predicates` -/

/-- The comparator handed to `std::sort` (line 86): `left.second > right.second`. -/
def cardinality_greater (left right : Nat × Cardinality) : Bool :=
  decide (left.2 > right.2)

/-- The library routine `std::sort(first, last, comp)`, seen as a function from the vector
before the call to the vector after it. -/
abbrev StdSort := ((Nat × Cardinality) → (Nat × Cardinality) → Bool) →
  List (Nat × Cardinality) → List (Nat × Cardinality)

/-- What the C++ standard promises of `std::sort` for the comparator of line 86: the range is
rearranged (a permutation) and afterwards no later element compares before an earlier one.
Nothing is promised about the relative order of elements that compare equivalent. -/
def StdSortContract (sort : StdSort) : Prop :=
  ∀ l, List.Perm (sort cardinality_greater l) l ∧
    List.Pairwise (fun a b => cardinality_greater b a = false) (sort cardinality_greater l)

/-- Lines 74-77: every predicate is put directly on top of `inp` and estimated there with the
cardinality estimator `est`, which may inspect the whole plan. -/
def estimate_predicates (est : LQP → Nat → Cardinality) (inp : Option Nat) :
    LQP → List Nat → LQP × List (Nat × Cardinality)
  | s, [] => (s, [])
  | s, predicate :: rest =>
    let s1 := set_input s predicate .Left inp
    let r := estimate_predicates est inp s1 rest
    (r.1, (predicate, est s1 predicate) :: r.2)

/-- Lines 95-97: every node takes its successor in the vector as left input. -/
def link_predicates : LQP → List Nat → LQP
  | s, a :: b :: rest => link_predicates (set_input s a .Left (some b)) (b :: rest)
  | s, _ => s

/-- Lines 91-93: every recorded consumer gets `top` in its recorded slot. -/
def retie_outputs (s : LQP) (outputs : List (Nat × LQPInputSide)) (top : Nat) : LQP :=
  outputs.foldl (fun st o => set_input st o.1 o.2 (some top)) s

/-- `PredicateReorderingRule::_reorder_predicates` (lines 56-98). `predicates` is the chain from
its top (`front()`) to its bottom (`back()`). `front()`/`back()` of an empty vector have no
defined result, which is `none` here. -/
def _reorder_predicates (sort : StdSort) (est : LQP → Nat → Cardinality) (s : LQP)
    (predicates : List Nat) : Option LQP :=
  match predicates.getLast?, predicates.head? with
  | some back, some front =>
    let inp := (s back).left_input
    let outputs := (s front).outputs
    let r := estimate_predicates est inp s predicates
    let s2 := predicates.foldl lqp_remove_node r.1
    let nodes_and_cardinalities := sort cardinality_greater r.2
    match nodes_and_cardinalities.getLast?, nodes_and_cardinalities.head? with
    | some lowest, some highest =>
      let s3 := set_input s2 lowest.1 .Left inp
      let s4 := retie_outputs s3 outputs highest.1
      some (link_predicates s4 (nodes_and_cardinalities.map Prod.fst))
    | _, _ => none
  | _, _ => none

/-- A conforming `std::sort`: straight insertion, which shifts an element to the left only past
elements it strictly compares before. -/
def insert_sorted (comp : (Nat × Cardinality) → (Nat × Cardinality) → Bool)
    (x : Nat × Cardinality) : List (Nat × Cardinality) → List (Nat × Cardinality)
  | [] => [x]
  | y :: ys => if comp x y then x :: y :: ys else y :: insert_sorted comp x ys

/-- Insertion sort: the elements are inserted one after the other into the sorted prefix. -/
def insertion_sort : StdSort :=
  fun comp l => l.foldl (fun acc x => insert_sorted comp x acc) []

/-! ## `PredicateReorderingRule::apply_to` -/

/-- The test of lines 26 and 31: the node is a `Predicate` or a `Validate` node. -/
def is_predicate_or_validate (t : LQPNodeType) : Bool :=
  decide (t = LQPNodeType.Predicate) || decide (t = LQPNodeType.Validate)

/-- Lines 30-39, the loop that gathers adjacent predicate nodes. `fuel` bounds the number of
iterations; `current_node` is `none` when the previous node had no left input, in which case
`current_node->type` has no defined result. -/
def gather_predicate_nodes (s : LQP) : Nat → Option Nat → List Nat → Option (List Nat)
  | 0, _, _ => none
  | _ + 1, none, _ => none
  | fuel + 1, some current_node, predicate_nodes =>
    if is_predicate_or_validate (s current_node).type then
      if (s current_node).outputs.length > 1 then some predicate_nodes
      else
        gather_predicate_nodes s fuel (s current_node).left_input
          (predicate_nodes ++ [current_node])
    else some predicate_nodes

/-- Modelled from the spec: `AbstractRule::_apply_to_inputs` is outside the available sources.
"Before the rule descends into the node's inputs": the rule is applied to the left input and
then to the right input, whichever of them exist. -/
def _apply_to_inputs (rule : LQP → Nat → Option LQP) (s : LQP) (node : Nat) : Option LQP :=
  let after_left := match (s node).left_input with
    | some l => rule s l
    | none => some s
  after_left.bind fun s1 =>
    match (s1 node).right_input with
    | some r => rule s1 r
    | none => some s1

/-- Lines 26-51 without the recursive call of line 49: the rewrite `apply_to` performs at
`node` itself. The result is the plan after the rewrite and, when a chain was reordered, the
chain's original input on which line 49 continues. -/
def rewrite_at (sort : StdSort) (est : LQP → Nat → Cardinality) (fuel : Nat) (s : LQP)
    (node : Nat) : Option (LQP × Option (Option Nat)) :=
  if is_predicate_or_validate (s node).type then
    match gather_predicate_nodes s fuel (some node) [] with
    | none => none
    | some predicate_nodes =>
      if predicate_nodes.length > 1 then
        match predicate_nodes.getLast? with
        | none => none
        | some back =>
          let inp := (s back).left_input
          (_reorder_predicates sort est s predicate_nodes).map fun s1 => (s1, some inp)
      else some (s, none)
  else some (s, none)

/-- `PredicateReorderingRule::apply_to` (lines 23-54). `fuel` bounds the depth of the recursion
and the length of the gathering loop. Line 49 called on a chain without input dereferences a
null pointer, which is `none` here. -/
def apply_to (sort : StdSort) (est : LQP → Nat → Cardinality) : Nat → LQP → Nat → Option LQP
  | 0, _, _ => none
  | fuel + 1, s, node =>
    match rewrite_at sort est (fuel + 1) s node with
    | none => none
    | some (s1, none) => _apply_to_inputs (fun st n => apply_to sort est fuel st n) s1 node
    | some (_, some none) => none
    | some (s1, some (some inp)) =>
      (apply_to sort est fuel s1 inp).bind fun s2 =>
        _apply_to_inputs (fun st n => apply_to sort est fuel st n) s2 node

/-! ## Row semantics of a filter chain -/

/-- The rows a plan segment delivers at `node` when `inp` delivers `rows` and every node
between them is a filter that keeps the rows satisfying its predicate `pred node`. -/
def chain_output {Row : Type} (pred : Nat → Row → Bool) (s : LQP) (inp : Nat) (rows : List Row) :
    Nat → Nat → Option (List Row)
  | 0, node => if node = inp then some rows else none
  | fuel + 1, node =>
    if node = inp then some rows
    else
      match (s node).left_input with
      | none => none
      | some l => (chain_output pred s inp rows fuel l).map fun below => below.filter (pred node)

/-! ## Well-formed plans -/

/-- The back-references of the plan are consistent: no consumer list repeats an entry, and a
consumer list holds (consumer, slot) exactly when that slot of the consumer references the
node. -/
def BackRefsConsistent (s : LQP) : Prop :=
  ∀ n, (s n).outputs.Nodup ∧ ∀ c side, (c, side) ∈ (s n).outputs ↔ input s c side = some n

/-- A node that is not part of any plan: no inputs, no consumers. -/
def empty_node : LQPNode := ⟨LQPNodeType.StoredTable, none, none, []⟩

/-- The plan whose node `n` is the `n`-th entry of `l`. -/
def plan_of_list (l : List LQPNode) : LQP := fun n => l.getD n empty_node

/-- Executable check of `BackRefsConsistent` for a plan given as a list of nodes. -/
def check_back_refs (l : List LQPNode) : Bool :=
  (List.range l.length).all fun n =>
    decide ((l.getD n empty_node).outputs.Nodup) &&
    ((l.getD n empty_node).outputs.all fun o =>
      decide (input (plan_of_list l) o.1 o.2 = some n)) &&
    ([LQPInputSide.Left, LQPInputSide.Right].all fun side =>
      match input (plan_of_list l) n side with
      | none => true
      | some m => decide (m < l.length) && decide ((n, side) ∈ (l.getD m empty_node).outputs))

/-- The node that follows `n` in the list `l`, if any. -/
def successor : List Nat → Nat → Option Nat
  | a :: b :: rest, n => if n = a then some b else successor (b :: rest) n
  | _, _ => none

/-- The original input of a chain: the left input of its bottom member (line 59). -/
def chain_input (s : LQP) (predicates : List Nat) : Option Nat :=
  match predicates.getLast? with
  | some back => (s back).left_input
  | none => none

/-- The consumers of a chain: the consumer list of its top member (lines 60-61). -/
def chain_outputs (s : LQP) (predicates : List Nat) : List (Nat × LQPInputSide) :=
  match predicates.head? with
  | some front => (s front).outputs
  | none => []

/-- The vector `nodes_and_cardinalities` as it stands after the loop of lines 74-77, before it
is sorted. -/
def estimated (est : LQP → Nat → Cardinality) (s : LQP) (predicates : List Nat) :
    List (Nat × Cardinality) :=
  (estimate_predicates est (chain_input s predicates) s predicates).2

/-- The list `predicates` is a chain of the plan `s`, top member first, of the kind `apply_to`
gathers: every member has the next member as left input, every member below the top has at
most one consumer, and the plan has no cycle through the chain (the members are distinct,
the input below the chain is not a member, no consumer of the top is a member). -/
structure IsChain (s : LQP) (predicates : List Nat) : Prop where
  links : ∀ a ∈ predicates, ∀ b ∈ predicates,
    successor predicates a = some b → (s a).left_input = some b
  single_consumer : ∀ p ∈ predicates.tail, (s p).outputs.length ≤ 1
  nodup : predicates.Nodup
  input_outside : ∀ p ∈ predicates, chain_input s predicates ≠ some p
  outputs_outside : ∀ o ∈ chain_outputs s predicates, o.1 ∉ predicates

/-- The members of the chain in the order of the sorted vector `nodes_and_cardinalities`
(line 85), the new top first. -/
def reordered (sort : StdSort) (est : LQP → Nat → Cardinality) (s : LQP)
    (predicates : List Nat) : List Nat :=
  (sort cardinality_greater (estimated est s predicates)).map Prod.fst

/-- The list `chain` is the path that starts at `start` and follows left inputs, and `stop` is
the node the path arrives at after its last member. -/
def IsLeftPath (s : LQP) : Nat → List Nat → Nat → Prop
  | start, [], stop => start = stop
  | start, p :: rest, stop =>
    p = start ∧ ∃ n, (s p).left_input = some n ∧ IsLeftPath s n rest stop

/-- The node ends the gathering loop of lines 31-39: it is not a `Predicate`/`Validate` node
(loop condition) or it has more than one consumer (`break`). -/
def stops_gathering (s : LQP) (n : Nat) : Prop :=
  is_predicate_or_validate (s n).type = false ∨ 1 < (s n).outputs.length

instance (s : LQP) (n : Nat) : Decidable (stops_gathering s n) :=
  inferInstanceAs (Decidable (_ ∨ _))

/-- The list `spine` is a linear piece of the plan, top node first: every node has the next
one as left input (the last one has none), no node has a right input, the nodes below the top
are referenced from the spine only, and the top has at most one consumer, which is not on the
spine. The back-references of the whole plan are consistent. -/
structure IsSpine (s : LQP) (spine : List Nat) : Prop where
  wf : BackRefsConsistent s
  nodup : spine.Nodup
  left : ∀ x ∈ spine, (s x).left_input = successor spine x
  right : ∀ x ∈ spine, (s x).right_input = none
  inner : ∀ x ∈ spine.tail, ∀ o ∈ (s x).outputs, o.1 ∈ spine
  top : ∀ x ∈ spine.head?, (s x).outputs.length ≤ 1 ∧ ∀ o ∈ (s x).outputs, o.1 ∉ spine

/-- A segment of a spine: a run of filter nodes and the node right below the run. -/
abbrev Segment := List Nat × Nat

/-- The nodes of a list of segments, top first. -/
def flatten_segments : List Segment → List Nat
  | [] => []
  | (run, stop) :: rest => run ++ stop :: flatten_segments rest

/-- The run of a segment consists of Predicate/Validate nodes, the node below it is of another
kind. -/
def segment_kinds (s : LQP) (seg : Segment) : Prop :=
  (∀ p ∈ seg.1, is_predicate_or_validate (s p).type = true) ∧
    is_predicate_or_validate (s seg.2).type = false

/-- The run `after` is a rearrangement of the run `before` on top of the same node, and from
its top to its bottom the cardinalities `card p (some stop)`, the estimates of the members when
attached to the node below the run, never increase. -/
def segment_sorted (card : Nat → Option Nat → Cardinality) (before after : Segment) : Prop :=
  after.2 = before.2 ∧ List.Perm after.1 before.1 ∧
    List.Pairwise (fun a b => card b (some before.2) ≤ card a (some before.2)) after.1

/-! ## `AbstractCostEstimator` -/

/-- Estimated resource consumption of a subplan, a finite number embedded in the rationals. -/
abbrev Cost := ℚ

/-- Modelled from the spec: `CostEstimationCache` is declared outside the available sources. The
cost cache is a "mapping from plan-node identity to Cost" that exists only once it is enabled
(`cost_by_lqp` is an optional map); the map is an association list searched from the front. -/
structure CostEstimationCache where
  cost_by_lqp : Option (List (Nat × Cost))

/-- The mutable part of an `AbstractCostEstimator`: its `cost_estimation_cache`, and the number
of calls of `estimate_node_cost` made so far (the counting estimator stub of the spec's cache
correctness property). -/
structure CostEstimator where
  cost_estimation_cache : CostEstimationCache
  node_cost_calls : Nat

/-- Modelled from the spec: `guarantee_bottom_up_construction` is defined outside the available
sources. It is the "caller promise" that "enables the usage of a <lqp-ptr> -> <cost> cache":
afterwards the cost cache is enabled, and empty. -/
def guarantee_bottom_up_construction (e : CostEstimator) : CostEstimator :=
  { e with cost_estimation_cache := ⟨some []⟩ }

/-- Modelled from the spec: the traversal inside `estimate_plan_cost`, which is defined outside
the available sources. It "traverses the DAG reachable from `root` exactly once per distinct node
identity (a visited-set is mandatory), summing `estimate_node_cost` over every visited node".
`queue` holds the nodes still to look at (`none` for an absent input), `visited` the nodes
already costed, `cost` the running sum and `calls` the number of `estimate_node_cost` calls.
`fuel` bounds the number of loop iterations. -/
def sum_node_costs (node_cost : LQP → Nat → Cost) (s : LQP) :
    Nat → List (Option Nat) → List Nat → Cost → Nat → Option (Cost × Nat)
  | _, [], _, cost, calls => some (cost, calls)
  | 0, _ :: _, _, _, _ => none
  | fuel + 1, none :: queue, visited, cost, calls =>
    sum_node_costs node_cost s fuel queue visited cost calls
  | fuel + 1, some n :: queue, visited, cost, calls =>
    if n ∈ visited then sum_node_costs node_cost s fuel queue visited cost calls
    else
      sum_node_costs node_cost s fuel (queue ++ [(s n).left_input, (s n).right_input])
        (n :: visited) (cost + node_cost s n) (calls + 1)

/-- Modelled from the spec: `AbstractCostEstimator::estimate_plan_cost` is defined outside the
available sources. "If the Cost Cache is enabled, looks up/stores the whole-subplan result keyed
by `root` identity, skipping traversal on a hit"; otherwise it sums `estimate_node_cost` over the
plan. `node_cost` is the pure virtual `estimate_node_cost`. The result is the cost and the
estimator state after the call. -/
def estimate_plan_cost (node_cost : LQP → Nat → Cost) (s : LQP) (fuel : Nat) (e : CostEstimator)
    (lqp : Nat) : Option (Cost × CostEstimator) :=
  match e.cost_estimation_cache.cost_by_lqp with
  | some cache =>
    match cache.lookup lqp with
    | some cost => some (cost, e)
    | none =>
      (sum_node_costs node_cost s fuel [some lqp] [] 0 e.node_cost_calls).map fun r =>
        (r.1, { cost_estimation_cache := ⟨some ((lqp, r.1) :: cache)⟩, node_cost_calls := r.2 })
  | none =>
    (sum_node_costs node_cost s fuel [some lqp] [] 0 e.node_cost_calls).map fun r =>
      (r.1, { e with node_cost_calls := r.2 })

/-- The first `size` node identities are closed under taking inputs: every input of a node
below `size` is below `size`. -/
def inputs_below (s : LQP) (size : Nat) : Bool :=
  (List.range size).all fun n =>
    (s n).left_input.all (fun m => decide (m < size)) &&
      (s n).right_input.all (fun m => decide (m < size))

/-! ## Example plans -/

/-- A plan with a chain of three filters: the root 0 consumes the chain 1 (Predicate),
2 (Predicate), 3 (Validate), which sits on the stored table 4. -/
def example_plan : LQP :=
  plan_of_list [
    ⟨LQPNodeType.Root, some 1, none, []⟩,
    ⟨LQPNodeType.Predicate, some 2, none, [(0, LQPInputSide.Left)]⟩,
    ⟨LQPNodeType.Predicate, some 3, none, [(1, LQPInputSide.Left)]⟩,
    ⟨LQPNodeType.Validate, some 4, none, [(2, LQPInputSide.Left)]⟩,
    ⟨LQPNodeType.StoredTable, none, none, [(3, LQPInputSide.Left)]⟩]

/-- An estimator for `example_plan`: 50 rows for node 1, 10 for node 2, 90 for node 3. -/
def example_est : LQP → Nat → Cardinality :=
  fun _ n => match n with
    | 1 => 50
    | 2 => 10
    | 3 => 90
    | _ => 0

/-- A row of the example table: an age and an activity flag. -/
structure PersonRow where
  age : Nat
  active : Bool
  deriving DecidableEq, Repr

/-- A table of 100 rows: the first 40 rows have age 20, the others age 50; every tenth row is
inactive. So `age < 30` selects 40 rows and `active = true` selects 90 rows. -/
def person_table : List PersonRow :=
  (List.range 100).map fun i => ⟨if i < 40 then 20 else 50, decide (i % 10 ≠ 0)⟩

/-- The plan of the row-set example: the root 0 consumes the chain 1 (`age < 30`),
2 (`active = true`), which sits on the stored table 3. -/
def person_plan : LQP :=
  plan_of_list [
    ⟨LQPNodeType.Root, some 1, none, []⟩,
    ⟨LQPNodeType.Predicate, some 2, none, [(0, LQPInputSide.Left)]⟩,
    ⟨LQPNodeType.Predicate, some 3, none, [(1, LQPInputSide.Left)]⟩,
    ⟨LQPNodeType.StoredTable, none, none, [(2, LQPInputSide.Left)]⟩]

/-- The row predicates of the filters of `person_plan`. -/
def person_pred : Nat → PersonRow → Bool :=
  fun n r => match n with
    | 1 => decide (r.age < 30)
    | 2 => r.active
    | _ => true

/-- The estimates of the row-set example: 40 rows for `age < 30`, 90 for `active = true`. -/
def person_est : LQP → Nat → Cardinality :=
  fun _ n => match n with
    | 1 => 40
    | 2 => 90
    | _ => 100

/-- A plan whose root is itself a filter: the chain 0 (Predicate), 1 (Predicate) sits on the
stored table 2, and nothing consumes node 0. -/
def root_filter_plan : LQP :=
  plan_of_list [
    ⟨LQPNodeType.Predicate, some 1, none, []⟩,
    ⟨LQPNodeType.Predicate, some 2, none, [(0, LQPInputSide.Left)]⟩,
    ⟨LQPNodeType.StoredTable, none, none, [(1, LQPInputSide.Left)]⟩]

/-- Another conforming `std::sort`: insertion sort run over the reversed vector. Elements that
compare equivalent come out in the reverse of their original order. -/
def reversed_insertion_sort : StdSort :=
  fun comp l => insertion_sort comp l.reverse

/-- An estimator under which all members of a chain tie: 5 rows for every node. -/
def tied_est : LQP → Nat → Cardinality :=
  fun _ _ => 5

/-- An estimator for `example_plan` under which the chain 1, 2, 3 is already in non-increasing
order, with a tie: 90 rows for node 1, 50 for every other node. -/
def sorted_tied_est : LQP → Nat → Cardinality :=
  fun _ n => match n with
    | 1 => 90
    | _ => 50

/-- An estimator for `example_plan` under which the chain 1, 2, 3 is already in strictly
decreasing order: 90 rows for node 1, 50 for node 2, 10 for every other node. -/
def sorted_est : LQP → Nat → Cardinality :=
  fun _ n => match n with
    | 1 => 90
    | 2 => 50
    | _ => 10

/-- A node cost function for the examples: node `n` costs `n + 1`. -/
def example_node_cost : LQP → Nat → Cost :=
  fun _ n => n + 1

/-- A plan with two filter chains: the root 0 consumes the chain 1, 2 (Predicate), which sits on
the projection 3, which consumes the chain 4 (Predicate), 5 (Validate), which sits on the stored
table 6. -/
def two_chain_plan : LQP :=
  plan_of_list [
    ⟨LQPNodeType.Root, some 1, none, []⟩,
    ⟨LQPNodeType.Predicate, some 2, none, [(0, LQPInputSide.Left)]⟩,
    ⟨LQPNodeType.Predicate, some 3, none, [(1, LQPInputSide.Left)]⟩,
    ⟨LQPNodeType.Projection, some 4, none, [(2, LQPInputSide.Left)]⟩,
    ⟨LQPNodeType.Predicate, some 5, none, [(3, LQPInputSide.Left)]⟩,
    ⟨LQPNodeType.Validate, some 6, none, [(4, LQPInputSide.Left)]⟩,
    ⟨LQPNodeType.StoredTable, none, none, [(5, LQPInputSide.Left)]⟩]

/-- Cardinalities for `two_chain_plan`, by node and by the input the node is attached to: on
top of the projection (node 3) node 1 keeps 6 rows and node 2 keeps 12, on top of the table
(node 6) node 4 keeps 5 rows and node 5 keeps 70. -/
def two_chain_card : Nat → Option Nat → Cardinality :=
  fun p inp =>
    match inp, p with
    | some 3, 1 => 6
    | some 3, 2 => 12
    | some 6, 4 => 5
    | some 6, 5 => 70
    | _, _ => 100

/-- The estimator that answers `two_chain_card` for a node and its current left input. -/
def two_chain_est : LQP → Nat → Cardinality :=
  fun st p => two_chain_card p (st p).left_input

end opossum


namespace opossum

/-! ## The plan reachable from a root -/

/-- The DAG reachable from `root`: `root` itself and every input of a reachable node. -/
inductive Reachable (s : LQP) (root : Nat) : Nat → Prop where
  | root : Reachable s root root
  | step {n m : Nat} (side : LQPInputSide) :
    Reachable s root n → input s n side = some m → Reachable s root m

/-- A plan with a shared subplan: the join 0 consumes the filters 1 and 2, and both filters
consume the stored table 3. -/
def shared_plan : LQP :=
  plan_of_list [
    ⟨LQPNodeType.Join, some 1, some 2, []⟩,
    ⟨LQPNodeType.Predicate, some 3, none, [(0, LQPInputSide.Left)]⟩,
    ⟨LQPNodeType.Predicate, some 3, none, [(0, LQPInputSide.Right)]⟩,
    ⟨LQPNodeType.StoredTable, none, none, [(1, LQPInputSide.Left), (2, LQPInputSide.Left)]⟩]

end opossum


namespace opossum

/-! ## Join graph and greedy operator ordering -/

/-- Modelled from the spec: `JoinGraphVertexSet` is declared outside the available sources. A
vertex set is "represented as a fixed-width bitset"; it is embedded as the finite set of the
positions of its set bits, vertex `i` of the join graph being bit `i`. -/
abbrev JoinGraphVertexSet := Finset Nat

/-- Modelled from the spec: the "vertex-set bit pattern" that breaks ties, the value of the
bitset as a number, which is the sum of `2 ^ i` over its members. -/
def bit_pattern (vertex_set : JoinGraphVertexSet) : Nat :=
  ∑ i in vertex_set, 2 ^ i

/-- Modelled from the spec: `JoinGraphEdge` is declared outside the available sources. An edge is
"a predicate set annotated with the minimal vertex set required to evaluate it"; a predicate is
named by a number. -/
structure JoinGraphEdge where
  vertex_set : JoinGraphVertexSet
  predicates : List Nat
  deriving DecidableEq

/-- Modelled from the spec: `JoinGraph` is declared outside the available sources. It holds "an
externally produced vertex list (plan-node roots) and edge list (vertex set + predicates)";
vertex `i` is the plan-node root at position `i` of `vertices`. -/
structure JoinGraph where
  vertices : List Nat
  edges : List JoinGraphEdge

/-- Modelled from the spec: the "join tree" that the ordering builds. A leaf is the plan-node
root of a vertex, an internal node is a candidate join node "join(cluster_a.plan,
cluster_b.plan, edge.predicates)" or a cross join. -/
inductive JoinPlan where
  | vertex (node : Nat)
  | join (left right : JoinPlan) (predicates : List Nat)
  | cross (left right : JoinPlan)
  deriving DecidableEq

/-- The vertex subplans at the leaves of a join tree, from left to right. -/
def JoinPlan.leaves : JoinPlan → List Nat
  | .vertex node => [node]
  | .join left right _ => left.leaves ++ right.leaves
  | .cross left right => left.leaves ++ right.leaves

/-- The number of internal nodes of a join tree that are joins on the predicates of an edge. -/
def JoinPlan.join_count : JoinPlan → Nat
  | .vertex _ => 0
  | .join left right _ => left.join_count + right.join_count + 1
  | .cross left right => left.join_count + right.join_count

/-- The number of internal nodes of a join tree that are cross joins. -/
def JoinPlan.cross_count : JoinPlan → Nat
  | .vertex _ => 0
  | .join left right _ => left.cross_count + right.cross_count
  | .cross left right => left.cross_count + right.cross_count + 1

/-- Modelled from the spec: "a cluster is a vertex set paired with the plan-node root currently
representing the joined result of exactly that set". -/
structure Cluster where
  vertex_set : JoinGraphVertexSet
  plan : JoinPlan
  deriving DecidableEq

/-- Modelled from the spec: "clusters start as the |V| singletons". -/
def initial_clusters (join_graph : JoinGraph) : List Cluster :=
  join_graph.vertices.enum.map fun iv => ⟨{iv.1}, JoinPlan.vertex iv.2⟩

/-- Modelled from the spec: an edge "spans" a cluster when its vertex set has a vertex in the
cluster. -/
def spans (edge : JoinGraphEdge) (cluster : Cluster) : Bool :=
  decide (¬ Disjoint edge.vertex_set cluster.vertex_set)

/-- Modelled from the spec: the two clusters of a candidate, `cluster_a` and `cluster_b`, in a
fixed order: the one with the lower bit pattern first. -/
def ordered_pair (a b : Cluster) : Cluster × Cluster :=
  if bit_pattern a.vertex_set ≤ bit_pattern b.vertex_set then (a, b) else (b, a)

/-- Modelled from the spec: a candidate of one merge step, for an "edge whose vertex set spans
exactly two distinct current clusters": the edge (by its position in the edge list), the two
clusters and the predicates of the edge. -/
structure JoinCandidate where
  edge_index : Nat
  left : Cluster
  right : Cluster
  predicates : List Nat
  deriving DecidableEq

/-- The candidate join node `join(cluster_a.plan, cluster_b.plan, edge.predicates)`. -/
def JoinCandidate.plan (c : JoinCandidate) : JoinPlan :=
  JoinPlan.join c.left.plan c.right.plan c.predicates

/-- The combined vertex set of a candidate: the union of the two clusters. -/
def JoinCandidate.vertex_set (c : JoinCandidate) : JoinGraphVertexSet :=
  c.left.vertex_set ∪ c.right.vertex_set

/-- Modelled from the spec: step 2a of the greedy ordering, for one edge. "For every edge whose
vertex set spans exactly two distinct current clusters, build a candidate join node". -/
def build_candidate (clusters : List Cluster) (edge_index : Nat) (edge : JoinGraphEdge) :
    Option JoinCandidate :=
  match clusters.filter (spans edge) with
  | [a, b] => some ⟨edge_index, (ordered_pair a b).1, (ordered_pair a b).2, edge.predicates⟩
  | _ => none

/-- Modelled from the spec: step 2a of the greedy ordering, the candidates of all edges in the
order of the edge list. -/
def candidates (edges : List JoinGraphEdge) (clusters : List Cluster) : List JoinCandidate :=
  edges.enum.filterMap fun ie => build_candidate clusters ie.1 ie.2

/-- Modelled from the spec: the order in which candidates are preferred, steps 2b and 2c. The
lower cost wins; "ties broken by a fixed, explicit deterministic rule (e.g., lowest combined
vertex-set bit pattern)", and among candidates for the same two clusters the edge that comes
first in the edge list. `cost` is the Cost Estimator applied to a plan. -/
def candidate_less (cost : JoinPlan → Cost) (c d : JoinCandidate) : Bool :=
  decide (cost c.plan < cost d.plan) ||
    (decide (cost c.plan = cost d.plan) &&
      (decide (bit_pattern c.vertex_set < bit_pattern d.vertex_set) ||
        (decide (bit_pattern c.vertex_set = bit_pattern d.vertex_set) &&
          decide (c.edge_index < d.edge_index))))

/-- Modelled from the spec: the order of clusters for the cross-join fallback, "the two
lowest-cost remaining clusters", ties broken by the lower bit pattern. -/
def cluster_less (cost : JoinPlan → Cost) (a b : Cluster) : Bool :=
  decide (cost a.plan < cost b.plan) ||
    (decide (cost a.plan = cost b.plan) &&
      decide (bit_pattern a.vertex_set < bit_pattern b.vertex_set))

/-- Modelled from the spec: "select the minimum", the least element of a list for `less`; of
several least elements the first. -/
def select_min {α : Type} (less : α → α → Bool) : List α → Option α
  | [] => none
  | a :: l =>
    match select_min less l with
    | none => some a
    | some b => if less b a then some b else some a

/-- Modelled from the spec: the fallback policy of step 3, "connect the two lowest-cost remaining
clusters via a cross join". The result is the lowest and the second lowest cluster. -/
def cross_fallback (cost : JoinPlan → Cost) (clusters : List Cluster) :
    Option (Cluster × Cluster) :=
  match select_min (cluster_less cost) clusters with
  | none => none
  | some a =>
    match select_min (cluster_less cost) (clusters.erase a) with
    | none => none
    | some b => some (a, b)

/-- Modelled from the spec: one merge step of the greedy ordering (steps 2a to 2d and the
fallback of step 3). The minimum-cost candidate is selected, or, when no edge spans exactly two
clusters, the two lowest-cost clusters are connected by a cross join; the result is the new
cluster, "keyed by the union vertex set, with the winning candidate as its plan", and the
clusters that remain after "the two merged clusters" are removed. -/
def greedy_step (cost : JoinPlan → Cost) (edges : List JoinGraphEdge) (clusters : List Cluster) :
    Option (Cluster × List Cluster) :=
  match select_min (candidate_less cost) (candidates edges clusters) with
  | some c => some (⟨c.vertex_set, c.plan⟩, (clusters.erase c.left).erase c.right)
  | none =>
    match cross_fallback cost clusters with
    | some (a, b) =>
      some (⟨a.vertex_set ∪ b.vertex_set, JoinPlan.cross a.plan b.plan⟩,
        (clusters.erase a).erase b)
    | none => none

/-- Modelled from the spec: the loop of the greedy ordering, "while more than one cluster
remains". `iteration_order` is the order in which the cluster container enumerates its elements
after an insertion, `merges` the clusters built so far in the order of their creation, `fuel` a
bound on the number of merge steps. The result is the plan of the last cluster and the merges. -/
def greedy_loop (iteration_order : List Cluster → List Cluster) (cost : JoinPlan → Cost)
    (edges : List JoinGraphEdge) : Nat → List Cluster → List Cluster →
    Option (JoinPlan × List Cluster)
  | _, [c], merges => some (c.plan, merges)
  | 0, _, _ => none
  | fuel + 1, clusters, merges =>
    match greedy_step cost edges clusters with
    | some (new, rest) =>
      greedy_loop iteration_order cost edges fuel (iteration_order (new :: rest))
        (merges ++ [new])
    | none => none

/-- Modelled from the spec: `GreedyOperatorOrdering::operator()` is defined outside the available
sources (only its declaration is available). It "builds one join tree covering all vertices":
"1. Initialize clusters = one singleton per vertex. 2. While more than one cluster remains"
merge two clusters. "3. Terminate with exactly one cluster = the result." At most `|V| - 1` merge
steps are needed, so `|V|` is enough fuel. The result is the final plan and the sequence of merges;
there is none for a join graph without vertices. -/
def GreedyOperatorOrdering (iteration_order : List Cluster → List Cluster)
    (cost : JoinPlan → Cost) (join_graph : JoinGraph) : Option (JoinPlan × List Cluster) :=
  greedy_loop iteration_order cost join_graph.edges join_graph.vertices.length
    (iteration_order (initial_clusters join_graph)) []

/-- Connected join graph: for every cut of the vertices into a non-empty set `S` and a non-empty
rest, some edge joins a vertex of `S` with a vertex of the rest. -/
def JoinGraph.Connected (join_graph : JoinGraph) : Prop :=
  ∀ S ∈ (Finset.range join_graph.vertices.length).powerset, S.Nonempty →
    S ≠ Finset.range join_graph.vertices.length →
    ∃ edge ∈ join_graph.edges, ∃ i ∈ S, ∃ j ∈ Finset.range join_graph.vertices.length \ S,
      edge.vertex_set = {i, j}

/-- Disconnected join graph: the vertices can be cut into a non-empty set `S` and a non-empty
rest such that no edge has a vertex on both sides. -/
def JoinGraph.Disconnected (join_graph : JoinGraph) : Prop :=
  ∃ S ∈ (Finset.range join_graph.vertices.length).powerset, S.Nonempty ∧
    S ≠ Finset.range join_graph.vertices.length ∧
    ∀ edge ∈ join_graph.edges, Disjoint edge.vertex_set S ∨
      Disjoint edge.vertex_set (Finset.range join_graph.vertices.length \ S)

/-- The clusters partition the vertices `0, ..., n - 1`: they are distinct, no vertex set is
empty, two different clusters share no vertex, and every vertex is in some cluster. -/
def ClusterPartition (n : Nat) (clusters : List Cluster) : Prop :=
  clusters.Nodup ∧ (∀ a ∈ clusters, a.vertex_set.Nonempty) ∧
    (∀ a ∈ clusters, ∀ b ∈ clusters, a ≠ b → Disjoint a.vertex_set b.vertex_set) ∧
    ∀ i, i < n ↔ ∃ c ∈ clusters, i ∈ c.vertex_set

/-- A connected join graph with four vertices (the plan-node roots 10 to 13) and five edges:
the cycle 0 - 1 - 2 - 3 - 0 and the diagonal 0 - 2. Edge `k` carries the predicate `k`. -/
def square_graph : JoinGraph :=
  { vertices := [10, 11, 12, 13],
    edges := [⟨{0, 1}, [0]⟩, ⟨{1, 2}, [1]⟩, ⟨{2, 3}, [2]⟩, ⟨{0, 3}, [3]⟩, ⟨{0, 2}, [4]⟩] }

/-- A disconnected join graph: two vertex pairs with no edge between the pairs. -/
def two_pairs_graph : JoinGraph :=
  { vertices := [10, 11, 12, 13],
    edges := [⟨{0, 1}, [0]⟩, ⟨{2, 3}, [1]⟩] }

/-- Mock cost values with many ties: a plan costs the number of its leaves. -/
def leaf_count_cost : JoinPlan → Cost :=
  fun plan => (plan.leaves.length : ℚ)

end opossum


namespace opossum

/-! ## `JitExpression` -/

/-- The enum `DataType` is declared outside the available sources; `Bool` and `String` are the
two values `jit_expression.cpp` names, the others are the remaining column types. -/
inductive DataType where
  | Null
  | Int
  | Long
  | Float
  | Double
  | String
  | Bool
  deriving DecidableEq, Repr

/-- The enum `JitExpressionType` is declared outside the available sources; these are the
enumerators that `jit_expression.cpp` names. -/
inductive JitExpressionType where
  | Column
  | Addition
  | Subtraction
  | Multiplication
  | Division
  | Modulo
  | Power
  | Equals
  | NotEquals
  | GreaterThan
  | GreaterThanEquals
  | LessThan
  | LessThanEquals
  | Like
  | NotLike
  | And
  | Or
  | Not
  | IsNull
  | IsNotNull
  deriving DecidableEq, Repr

/-- A `JitTupleValue`: the data type, the nullability and the index into the runtime tuple of a
value. The class is declared outside the available sources; these are the three properties the
code reads (`data_type()`, `is_nullable()`, `tuple_index()`). -/
structure JitTupleValue where
  data_type : DataType
  is_nullable : Bool
  tuple_index : Nat
  deriving DecidableEq, Repr

/-- A `JitExpression`, by the constructor that built it: a column (no child), an expression
with one child, an expression with two children. `result_value` is `_result_value`. -/
inductive JitExpression where
  | column (result_value : JitTupleValue) (load_column : Bool) (input_column_index : Nat)
  | unary (left_child : JitExpression) (expression_type : JitExpressionType)
    (result_value : JitTupleValue)
  | binary (left_child : JitExpression) (expression_type : JitExpressionType)
    (right_child : JitExpression) (result_value : JitTupleValue)
  deriving DecidableEq, Repr

/-- The accessor `result()`. -/
def JitExpression.result : JitExpression → JitTupleValue
  | .column result_value _ _ => result_value
  | .unary _ _ result_value => result_value
  | .binary _ _ _ result_value => result_value

/-- The member `_expression_type`; the constructor for a column sets it to `Column`. -/
def JitExpression.expression_type : JitExpression → JitExpressionType
  | .column _ _ _ => JitExpressionType.Column
  | .unary _ expression_type _ => expression_type
  | .binary _ expression_type _ _ => expression_type

/-- `JitExpression::_compute_result_type`, for the members `_expression_type`, `_left_child`
and `_right_child` (absent in an expression with one child). `jit_expression_is_binary` and
`jit_compute_type` are defined outside the available sources and are parameters; the latter is
given the expression type in place of the operation functor. The result is `none` when the code
runs into `Fail` or into the absent right child. -/
def _compute_result_type (jit_expression_is_binary : JitExpressionType → Bool)
    (jit_compute_type : JitExpressionType → DataType → DataType → Option DataType)
    (expression_type : JitExpressionType) (left_child : JitExpression)
    (right_child : Option JitExpression) : Option (DataType × Bool) :=
  if !jit_expression_is_binary expression_type then
    match expression_type with
    | .Not => some (DataType.Bool, left_child.result.is_nullable)
    | .IsNull => some (DataType.Bool, false)
    | .IsNotNull => some (DataType.Bool, false)
    | _ => none
  else
    match right_child with
    | none => none
    | some right =>
      let result_data_type : Option DataType :=
        match expression_type with
        | .Addition => jit_compute_type .Addition left_child.result.data_type right.result.data_type
        | .Subtraction =>
          jit_compute_type .Subtraction left_child.result.data_type right.result.data_type
        | .Multiplication =>
          jit_compute_type .Multiplication left_child.result.data_type right.result.data_type
        | .Division => jit_compute_type .Division left_child.result.data_type right.result.data_type
        | .Modulo => jit_compute_type .Modulo left_child.result.data_type right.result.data_type
        | .Power => jit_compute_type .Power left_child.result.data_type right.result.data_type
        | .Equals => some DataType.Bool
        | .NotEquals => some DataType.Bool
        | .GreaterThan => some DataType.Bool
        | .GreaterThanEquals => some DataType.Bool
        | .LessThan => some DataType.Bool
        | .LessThanEquals => some DataType.Bool
        | .Like => some DataType.Bool
        | .NotLike => some DataType.Bool
        | .And => some DataType.Bool
        | .Or => some DataType.Bool
        | _ => none
      result_data_type.map fun t => (t, left_child.result.is_nullable || right.result.is_nullable)

/-- The functions that `JitExpression::compute` calls and that are defined outside the available
sources (`jit_types.hpp`, `jit_operations.hpp`, `jit_utils.cpp`), over a runtime context of type
`Context`: `read_value i` is `context.inputs[i]->read_value(context)`, `is_null` and `get_bool`
are `JitTupleValue::is_null` and `JitTupleValue::get<bool>`, `jit_compute` is `jit_compute`
applied to the operation of an expression type, and `no_inline_compute_binary` is
`no_inline::compute_binary`. -/
structure JitOperations (Context : Type) where
  jit_expression_is_binary : JitExpressionType → Bool
  read_value : Nat → Context → Context
  is_null : JitTupleValue → Context → Bool
  get_bool : JitTupleValue → Context → Bool
  jit_not : JitTupleValue → JitTupleValue → Context → Context
  jit_is_null : JitTupleValue → JitTupleValue → Context → Context
  jit_is_not_null : JitTupleValue → JitTupleValue → Context → Context
  jit_and : JitTupleValue → JitTupleValue → JitTupleValue → Context → Bool → Context
  jit_or : JitTupleValue → JitTupleValue → JitTupleValue → Context → Bool → Context
  jit_compute : JitExpressionType → JitTupleValue → JitTupleValue → JitTupleValue → Context →
    Option Context
  no_inline_compute_binary : JitTupleValue → JitExpressionType → JitTupleValue → JitTupleValue →
    Context → Option Context

/-- The free function `compute_binary`; `none` is `Fail`. -/
def compute_binary {Context : Type} (ops : JitOperations Context) (lhs : JitTupleValue)
    (expression_type : JitExpressionType) (rhs result : JitTupleValue) (context : Context) :
    Option Context :=
  match expression_type with
  | .Addition => ops.jit_compute .Addition lhs rhs result context
  | .Subtraction => ops.jit_compute .Subtraction lhs rhs result context
  | .Multiplication => ops.jit_compute .Multiplication lhs rhs result context
  | .Division => ops.jit_compute .Division lhs rhs result context
  | .Modulo => ops.jit_compute .Modulo lhs rhs result context
  | .Power => ops.jit_compute .Power lhs rhs result context
  | .Equals => ops.jit_compute .Equals lhs rhs result context
  | .NotEquals => ops.jit_compute .NotEquals lhs rhs result context
  | .GreaterThan => ops.jit_compute .GreaterThan lhs rhs result context
  | .GreaterThanEquals => ops.jit_compute .GreaterThanEquals lhs rhs result context
  | .LessThan => ops.jit_compute .LessThan lhs rhs result context
  | .LessThanEquals => ops.jit_compute .LessThanEquals lhs rhs result context
  | .Like => ops.jit_compute .Like lhs rhs result context
  | .NotLike => ops.jit_compute .NotLike lhs rhs result context
  | .And => some (ops.jit_and lhs rhs result context false)
  | .Or => some (ops.jit_or lhs rhs result context false)
  | _ => none

/-- The state that `JitExpression::compute` works on: the runtime context, and the list of the
expressions whose `compute` was entered so far, in the order of the calls. The list is not part
of the C++ context; it records which children were computed. -/
abbrev ComputeState (Context : Type) := Context × List JitExpression

/-- The `switch` of `JitExpression::compute` for the expression types that are not binary
(`Not`, `IsNull`, `IsNotNull`); `none` is `Fail`. -/
def compute_non_binary {Context : Type} (ops : JitOperations Context)
    (left_child : JitExpression) (expression_type : JitExpressionType)
    (result_value : JitTupleValue) (state : ComputeState Context) :
    Option (ComputeState Context) :=
  match expression_type with
  | .Not => some (ops.jit_not left_child.result result_value state.1, state.2)
  | .IsNull => some (ops.jit_is_null left_child.result result_value state.1, state.2)
  | .IsNotNull => some (ops.jit_is_not_null left_child.result result_value state.1, state.2)
  | _ => none

/-- `JitExpression::compute`. The result is `none` when the code runs into `Fail`, or, in an
expression with one child and a binary expression type, into the absent `_right_child`. -/
def compute {Context : Type} (ops : JitOperations Context) :
    JitExpression → ComputeState Context → Option (ComputeState Context)
  | .column result_value load_column input_column_index, state =>
    some (if load_column then ops.read_value input_column_index state.1 else state.1,
      state.2 ++ [.column result_value load_column input_column_index])
  | .unary left_child expression_type result_value, state =>
    if expression_type = JitExpressionType.Column then
      some (state.1, state.2 ++ [.unary left_child expression_type result_value])
    else
      (compute ops left_child
        (state.1, state.2 ++ [.unary left_child expression_type result_value])).bind
        fun left_state =>
          if !ops.jit_expression_is_binary expression_type then
            compute_non_binary ops left_child expression_type result_value left_state
          else none
  | .binary left_child expression_type right_child result_value, state =>
    if expression_type = JitExpressionType.Column then
      some (state.1,
        state.2 ++ [.binary left_child expression_type right_child result_value])
    else
      (compute ops left_child
        (state.1, state.2 ++ [.binary left_child expression_type right_child result_value])).bind
        fun left_state =>
          if !ops.jit_expression_is_binary expression_type then
            compute_non_binary ops left_child expression_type result_value left_state
          else if expression_type = JitExpressionType.And ∧
              ops.is_null left_child.result left_state.1 = false ∧
              ops.get_bool left_child.result left_state.1 = false then
            some (ops.jit_and left_child.result right_child.result result_value left_state.1
              true, left_state.2)
          else if expression_type = JitExpressionType.Or ∧
              ops.is_null left_child.result left_state.1 = false ∧
              ops.get_bool left_child.result left_state.1 = true then
            some (ops.jit_or left_child.result right_child.result result_value left_state.1
              true, left_state.2)
          else
            (compute ops right_child left_state).bind fun right_state =>
              (if result_value.data_type = DataType.Bool ∧
                  left_child.result.data_type = DataType.String ∧
                  right_child.result.data_type = DataType.String then
                ops.no_inline_compute_binary left_child.result expression_type
                  right_child.result result_value right_state.1
              else
                compute_binary ops left_child.result expression_type right_child.result
                  result_value right_state.1).map fun context => (context, right_state.2)

/-- The constructor of an expression with one child: the result value gets the type that
`_compute_result_type` returns. -/
def JitExpression.make_unary (jit_expression_is_binary : JitExpressionType → Bool)
    (jit_compute_type : JitExpressionType → DataType → DataType → Option DataType)
    (child : JitExpression) (expression_type : JitExpressionType) (result_tuple_index : Nat) :
    Option JitExpression :=
  (_compute_result_type jit_expression_is_binary jit_compute_type expression_type child
    none).map fun t => .unary child expression_type ⟨t.1, t.2, result_tuple_index⟩

/-- The constructor of an expression with two children. -/
def JitExpression.make_binary (jit_expression_is_binary : JitExpressionType → Bool)
    (jit_compute_type : JitExpressionType → DataType → DataType → Option DataType)
    (left_child : JitExpression) (expression_type : JitExpressionType)
    (right_child : JitExpression) (result_tuple_index : Nat) : Option JitExpression :=
  (_compute_result_type jit_expression_is_binary jit_compute_type expression_type left_child
    (some right_child)).map fun t =>
      .binary left_child expression_type right_child ⟨t.1, t.2, result_tuple_index⟩

/-- The usual classification of the expression types: `Column`, `Not`, `IsNull` and `IsNotNull`
are not binary, all others are. -/
def sample_is_binary : JitExpressionType → Bool
  | .Column => false
  | .Not => false
  | .IsNull => false
  | .IsNotNull => false
  | _ => true

/-- Write a value, or null, to an index of a runtime tuple of nullable booleans. -/
def set_value (context : Nat → Option Bool) (result : JitTupleValue) (value : Option Bool) :
    Nat → Option Bool :=
  fun i => if i = result.tuple_index then value else context i

/-- A sample implementation of the operations, on a runtime tuple of nullable booleans (`none`
is null), with three-valued logic for `And` and `Or`; with `prune_right_side` the right side is
not read. Comparisons and arithmetic are not supported. -/
def sample_operations : JitOperations (Nat → Option Bool) where
  jit_expression_is_binary := sample_is_binary
  read_value := fun _ context => context
  is_null := fun value context => value.is_nullable && (context value.tuple_index).isNone
  get_bool := fun value context => (context value.tuple_index).getD false
  jit_not := fun value result context =>
    set_value context result ((context value.tuple_index).map not)
  jit_is_null := fun value result context =>
    set_value context result (some (context value.tuple_index).isNone)
  jit_is_not_null := fun value result context =>
    set_value context result (some (context value.tuple_index).isSome)
  jit_and := fun lhs rhs result context prune_right_side =>
    set_value context result
      (if prune_right_side then some false
      else
        match context lhs.tuple_index, context rhs.tuple_index with
        | some false, _ => some false
        | _, some false => some false
        | some true, some true => some true
        | _, _ => none)
  jit_or := fun lhs rhs result context prune_right_side =>
    set_value context result
      (if prune_right_side then some true
      else
        match context lhs.tuple_index, context rhs.tuple_index with
        | some true, _ => some true
        | _, some true => some true
        | some false, some false => some false
        | _, _ => none)
  jit_compute := fun _ _ _ _ _ => none
  no_inline_compute_binary := fun _ _ _ _ _ => none

/-- A runtime tuple: index 0 holds false, index 1 holds true, all other indices are null. -/
def sample_tuple : Nat → Option Bool :=
  fun i => if i = 0 then some false else if i = 1 then some true else none

/-- The column expression for index `i` of the runtime tuple, a nullable boolean. -/
def bool_column (i : Nat) : JitExpression :=
  .column ⟨DataType.Bool, true, i⟩ false 0

/-- The expression `x0 AND x2` with its result at index 3: on `sample_tuple` the left side is
false and the right side is null. -/
def false_and_null : JitExpression :=
  .binary (bool_column 0) JitExpressionType.And (bool_column 2) ⟨DataType.Bool, true, 3⟩

/-- The expression `x1 AND x2` with its result at index 3: on `sample_tuple` the left side is
true and the right side is null. -/
def true_and_null : JitExpression :=
  .binary (bool_column 1) JitExpressionType.And (bool_column 2) ⟨DataType.Bool, true, 3⟩

end opossum


namespace opossum

/-! ## `CalibrationQueryGeneratorPredicates` -/

/-- The struct `CalibrationColumnSpecification` is declared outside the available sources;
these are the two members that `calibration_query_generator_predicates.cpp` reads. -/
structure CalibrationColumnSpecification where
  type : String
  distinct_values : Nat
  deriving DecidableEq, Repr

/-- The column definitions, a `std::map` from the column name to its specification, as the list
of its entries in the order of iteration. -/
abbrev ColumnDefinitions := List (String × CalibrationColumnSpecification)

/-- A `PredicateGeneratorFunctor`. The generators draw random numbers of their own, so a call
is given the number of the attempt it serves in place of the state of the random device. -/
abbrev PredicateGeneratorFunctor :=
  Nat → String × CalibrationColumnSpecification → ColumnDefinitions → String → Option String

/-- The value drawn from `std::uniform_int_distribution<u_int64_t>(0, size - 1)`, for the
output `draw` of the engine: a number between 0 and `size - 1`, where `size - 1` is computed on
`size_t`, so that it is `2 ^ 64 - 1` for `size = 0`. -/
def filter_column_dist (size draw : Nat) : Nat :=
  draw % ((size + 2 ^ 64 - 1) % 2 ^ 64 + 1)

/-- The loop of `generate_predicates`: `i` is the loop counter, the second argument the number
of iterations left, then come `column_definitions_copy` and `predicates`; `draws i` is the
output of the engine in iteration `i`. `std::next(begin(), n)` is the entry at position `n`; the
result is `none` when that position is past the end of the map (the behaviour of the C++ code
is undefined then). -/
def generate_predicates_loop (predicate_generator : PredicateGeneratorFunctor)
    ( column_name_prefix : String) (draws : Nat → Nat) :
    Nat → Nat → ColumnDefinitions → List String → Option (List String)
  | _, 0, _, predicates => some predicates
  | i, remaining + 1, column_definitions_copy, predicates =>
    match column_definitions_copy[filter_column_dist column_definitions_copy.length (draws i)]? with
    | none => none
    | some filter_column =>
      match predicate_generator i filter_column column_definitions_copy column_name_prefix with
      | none =>
        generate_predicates_loop predicate_generator column_name_prefix draws (i + 1) remaining
          column_definitions_copy predicates
      | some predicate =>
        generate_predicates_loop predicate_generator column_name_prefix draws (i + 1) remaining
          (column_definitions_copy.filter fun column => column.1 != filter_column.1)
          (predicates ++ [predicate])

/-- `CalibrationQueryGeneratorPredicates::generate_predicates`, with `number_of_predicates = 2`.
The outer `none` stands for undefined behaviour, the inner `Option` is the `std::optional` that
the function returns. -/
def generate_predicates (predicate_generator : PredicateGeneratorFunctor)
    (column_definitions : ColumnDefinitions) ( column_name_prefix : String)
    (draws : Nat → Nat) : Option (Option String) :=
  (generate_predicates_loop predicate_generator column_name_prefix draws 0 2 column_definitions
    []).map fun predicates =>
      if predicates.isEmpty then none else some (String.intercalate " AND " predicates)

/-- The outputs of the random engine that one call of `_generate_table_scan_predicate_value`
consumes: for the seed, for the value of an `int` column, and the text that `std::to_string`
makes of the value drawn for a `float` column. -/
structure PredicateValueDraws where
  seed : Nat
  int_value : Nat
  float_text : String

/-- The value drawn from `std::uniform_int_distribution<u_int16_t>(0, distinct_values - 1)`, for
the output `draw` of the engine; the upper bound is converted to 16 bits. -/
def int_dist (distinct_values draw : Nat) : Nat :=
  draw % ((distinct_values + 2 ^ 16 - 1) % 2 ^ 16 + 1)

/-- `CalibrationQueryGeneratorPredicates::_generate_table_scan_predicate_value`. `rand_r` is the
C library function, applied to the seed; the result is `none` when the code runs into `Fail`.
`std::to_string` of an integer is its decimal representation. -/
def _generate_table_scan_predicate_value (rand_r : Nat → Nat)
    (column_definition : CalibrationColumnSpecification) (draws : PredicateValueDraws) :
    Option String :=
  let seed := int_dist column_definition.distinct_values draws.seed
  if column_definition.type = "int" then
    some (Nat.repr (int_dist column_definition.distinct_values draws.int_value))
  else if column_definition.type = "string" then
    some ("'" ++ String.singleton (Char.ofNat ('a'.toNat + rand_r seed % 26)) ++ "'")
  else if column_definition.type = "float" then some draws.float_text
  else none

/-- `CalibrationQueryGeneratorPredicates::_generate_between`. The functor is given by its
result for the arguments of the call: the outer `none` is a `Fail` inside the functor, the inner
`Option` the `std::optional` it returns. -/
def _generate_between (between_values : Option (Option (String × String)))
    (filter_column : String × CalibrationColumnSpecification)
    ( column_name_prefix : String) : Option (Option String) :=
  between_values.map fun values =>
    values.map fun v =>
      column_name_prefix ++ filter_column.1 ++ " BETWEEN " ++ v.1 ++ " AND " ++ v.2

/-- The lambda `between_predicate_value` of `generate_between_predicate_value`: two values are
generated and returned in the order that `operator<` of `std::string` gives them, which is the
lexicographic order of the character sequences. -/
def between_predicate_value (rand_r : Nat → Nat)
    (filter_column : String × CalibrationColumnSpecification)
    (first_draws second_draws : PredicateValueDraws) : Option (String × String) :=
  (_generate_table_scan_predicate_value rand_r filter_column.2 first_draws).bind
    fun first_filter_column_value =>
      (_generate_table_scan_predicate_value rand_r filter_column.2 second_draws).map
        fun second_filter_column_value =>
          if first_filter_column_value.toList < second_filter_column_value.toList then
            (first_filter_column_value, second_filter_column_value)
          else (second_filter_column_value, first_filter_column_value)

/-- `CalibrationQueryGeneratorPredicates::generate_between_predicate_value`. The column
definitions are not read. The outer `none` is `Fail`. -/
def generate_between_predicate_value (rand_r : Nat → Nat)
    (filter_column : String × CalibrationColumnSpecification)
    ( column_name_prefix : String) (first_draws second_draws : PredicateValueDraws) :
    Option (Option String) :=
  _generate_between
    ((between_predicate_value rand_r filter_column first_draws second_draws).map some)
    filter_column column_name_prefix

/-- A predicate generator that answers every attempt with a filter on the column it is given. -/
def sample_predicate_generator : PredicateGeneratorFunctor :=
  fun _ filter_column _ column_name_prefix =>
    some ( column_name_prefix ++ filter_column.1 ++ " <= 1")

/-- A map with the single `int` column `a`. -/
def single_column : ColumnDefinitions :=
  [("a", ⟨"int", 100⟩)]

/-- A map with the three `int` columns `a`, `b` and `c`. -/
def three_columns : ColumnDefinitions :=
  [("a", ⟨"int", 100⟩), ("b", ⟨"int", 100⟩), ("c", ⟨"int", 100⟩)]

end opossum


namespace opossum

/-! ## Pruning statistics -/

/-- A `MinMaxFilter<T>`, built from a minimum and a maximum. The class is declared outside the
available sources; these are the two arguments of its constructor. -/
structure MinMaxFilter (T : Type) where
  min : T
  max : T
  deriving DecidableEq, Repr

/-- The two members of `ColumnStatistics<T>` that `generate_pruning_statistics.cpp` reads, each
a shared pointer that may be null. The class is declared outside the available sources; `R` is
the type of a `RangeFilter<T>`. -/
structure ColumnStatistics (T R : Type) where
  range_filter : Option R
  min_max_filter : Option (MinMaxFilter T)
  deriving DecidableEq, Repr

/-- The statistics objects that `create_pruning_filter_for_segment` builds. -/
inductive StatisticsObject (T R : Type) where
  | range_filter (filter : R)
  | min_max_filter (filter : MinMaxFilter T)
  deriving DecidableEq, Repr

/-- The functions that the code calls for a column data type `T` and that are defined outside
the available sources or in the C++ library: `build_filter` is `RangeFilter<T>::build_filter`
(`none` is a null pointer), `set_statistics_object` is
`ColumnStatistics<T>::set_statistics_object`, `unordered_set` gives the elements of a
`std::unordered_set<T>` in the order of its iteration after the values of the list were inserted,
and `sort` is `std::sort` with `operator<`. -/
structure PruningOperations (T R : Type) where
  build_filter : List T → Option R
  set_statistics_object : ColumnStatistics T R → StatisticsObject T R → ColumnStatistics T R
  unordered_set : List T → List T
  sort : List T → List T

/-- What the C++ standard promises of `std::sort`: the result is a permutation of the input and
is in non-descending order. -/
def SortContract {T : Type} [LinearOrder T] (sort : List T → List T) : Prop :=
  ∀ l, (sort l).Perm l ∧ (sort l).Pairwise (· ≤ ·)

/-- What the C++ standard promises of `std::unordered_set`: it holds every inserted value
once, in an order that is not specified. -/
def UnorderedSetContract {T : Type} (unordered_set : List T → List T) : Prop :=
  ∀ l, (unordered_set l).Nodup ∧ ∀ x, x ∈ unordered_set l ↔ x ∈ l

/-- `set_statistics_object` stores a min-max filter in the member `min_max_filter`. -/
def StoresMinMaxFilter {T R : Type} (ops : PruningOperations T R) : Prop :=
  ∀ column_statistics filter,
    (ops.set_statistics_object column_statistics (.min_max_filter filter)).min_max_filter =
      some filter

/-- The template `create_pruning_filter_for_segment<T>`; `is_arithmetic` is
`std::is_arithmetic_v<T>`. The result is the column statistics after the call. -/
def create_pruning_filter_for_segment {T R : Type} (is_arithmetic : Bool)
    (ops : PruningOperations T R) (column_statistics : ColumnStatistics T R)
    (dictionary : List T) : ColumnStatistics T R :=
  let pruning_filter : Option (StatisticsObject T R) :=
    if is_arithmetic then
      if column_statistics.range_filter.isNone then
        (ops.build_filter dictionary).map StatisticsObject.range_filter
      else none
    else
      if column_statistics.min_max_filter.isNone then
        match dictionary with
        | [] => none
        | front :: rest =>
          some (StatisticsObject.min_max_filter
            ⟨front, (front :: rest).getLast (List.cons_ne_nil front rest)⟩)
      else none
  match pruning_filter with
  | some filter => ops.set_statistics_object column_statistics filter
  | none => column_statistics

/-- A segment after `resolve_data_and_segment_type`: whether its type is
`DictionarySegment<ColumnDataType>`, the dictionary that `dictionary()` returns in that case, and
the values that the iterable of the segment yields, position by position (`none` is NULL). -/
structure TypedSegment (T : Type) where
  is_dictionary_segment : Bool
  dictionary : List T
  values : List (Option T)
  deriving DecidableEq, Repr

/-- The body of the lambda given to `resolve_data_and_segment_type` (lines 62 to 85): the
`segment_statistics` made for one segment. A dictionary segment gives its dictionary; for every
other segment the non-null values are collected in an unordered set and sorted. -/
def segment_statistics {T R : Type} (is_arithmetic : Bool) (ops : PruningOperations T R)
    (typed_segment : TypedSegment T) : ColumnStatistics T R :=
  if typed_segment.is_dictionary_segment then
    create_pruning_filter_for_segment is_arithmetic ops ⟨none, none⟩ typed_segment.dictionary
  else
    create_pruning_filter_for_segment is_arithmetic ops ⟨none, none⟩
      (ops.sort (ops.unordered_set typed_segment.values.reduceOption))

/-- A segment of a chunk, by the column data type that `resolve_data_and_segment_type` finds:
an arithmetic type, whose values are of type `A`, or the string type. -/
inductive BaseSegment (A : Type) where
  | arithmetic (segment : TypedSegment A)
  | non_arithmetic (segment : TypedSegment String)
  deriving DecidableEq, Repr

/-- An entry of the pruning statistics of a chunk: the `ColumnStatistics<ColumnDataType>` of a
column. -/
inductive BaseColumnStatistics (A R : Type) where
  | arithmetic (statistics : ColumnStatistics A R)
  | non_arithmetic (statistics : ColumnStatistics String R)
  deriving DecidableEq, Repr

/-- `ChunkPruningStatistics`: a vector of shared pointers, one per column (`none` is null). -/
abbrev ChunkPruningStatistics (A R : Type) := List (Option (BaseColumnStatistics A R))

/-- A `Chunk`, as far as the code reads and writes it: `column_count()` is the number of
segments. -/
structure Chunk (A R : Type) where
  is_mutable : Bool
  segments : List (BaseSegment A)
  pruning_statistics : Option (ChunkPruningStatistics A R)
  deriving DecidableEq, Repr

/-- A `Table`: its chunks by chunk id; `get_chunk` returns a null pointer (`none`) for a chunk
that was removed. -/
abbrev Table (A R : Type) := List (Option (Chunk A R))

/-- The call `resolve_data_and_segment_type(*segment, ...)` of line 61: the lambda is run with
the column data type of the segment, and the statistics it makes are what is assigned to
`chunk_statistics[column_id]`. -/
def resolve_segment_statistics {A R : Type} (ops_arithmetic : PruningOperations A R)
    (ops_string : PruningOperations String R) : BaseSegment A → BaseColumnStatistics A R
  | .arithmetic typed_segment =>
    .arithmetic (segment_statistics true ops_arithmetic typed_segment)
  | .non_arithmetic typed_segment =>
    .non_arithmetic (segment_statistics false ops_string typed_segment)

/-- The inner loop of `generate_chunk_pruning_statistics` (lines 56 to 88): the
`chunk_statistics` of one chunk, a vector of `column_count()` null pointers in which the entry of
every column is set to the statistics of its segment. -/
def chunk_pruning_statistics {A R : Type} (ops_arithmetic : PruningOperations A R)
    (ops_string : PruningOperations String R) (chunk : Chunk A R) : ChunkPruningStatistics A R :=
  (List.range chunk.segments.length).foldl
    (fun (chunk_statistics : ChunkPruningStatistics A R) (column_id : Nat) =>
      match chunk.segments[column_id]? with
      | some segment =>
        chunk_statistics.set column_id
          (some (resolve_segment_statistics ops_arithmetic ops_string segment))
      | none => chunk_statistics)
    (List.replicate chunk.segments.length none)

/-- One iteration of the outer loop of `generate_chunk_pruning_statistics`, for `chunk_id`;
the result is `none` when `get_chunk` returns a null pointer, which the code dereferences. -/
def generate_chunk_pruning_statistics_step {A R : Type} (ops_arithmetic : PruningOperations A R)
    (ops_string : PruningOperations String R) (table : Table A R) (chunk_id : Nat) :
    Option (Table A R) :=
  match table[chunk_id]? with
  | some (some chunk) =>
    if chunk.is_mutable then some table
    else
      some (table.set chunk_id
        (some { chunk with
          pruning_statistics := some (chunk_pruning_statistics ops_arithmetic ops_string chunk) }))
  | _ => none

/-- `generate_chunk_pruning_statistics`: the table after the call. -/
def generate_chunk_pruning_statistics {A R : Type} (ops_arithmetic : PruningOperations A R)
    (ops_string : PruningOperations String R) (table : Table A R) : Option (Table A R) :=
  (List.range table.length).foldl
    (fun (state : Option (Table A R)) (chunk_id : Nat) =>
      state.bind fun current =>
        generate_chunk_pruning_statistics_step ops_arithmetic ops_string current chunk_id)
    (some table)

/-- A sample implementation of the operations for a column data type with a linear order: a
range filter is stood for by the number of entries of the dictionary it is built from, the
statistics object is stored in the member of its kind, the unordered set enumerates each of its
elements at the place of its last insertion, and the sort is an insertion sort. -/
def sample_pruning_operations (T : Type) [LinearOrder T] : PruningOperations T Nat where
  build_filter := fun dictionary =>
    match dictionary with
    | [] => none
    | _ :: rest => some (rest.length + 1)
  set_statistics_object := fun column_statistics statistics_object =>
    match statistics_object with
    | .range_filter filter => { column_statistics with range_filter := some filter }
    | .min_max_filter filter => { column_statistics with min_max_filter := some filter }
  unordered_set := fun values => values.dedup
  sort := fun values => values.insertionSort (· ≤ ·)

/-- A segment of a string column that is not a dictionary segment: the values "pear", NULL,
"apple", "pear", "fig". -/
def fruit_segment : TypedSegment String :=
  ⟨false, [], [some "pear", none, some "apple", some "pear", some "fig"]⟩

/-- A segment of a string column that holds NULL only. -/
def null_segment : TypedSegment String :=
  ⟨false, [], [none, none]⟩

/-- A table with two chunks: a mutable chunk with `fruit_segment`, and an immutable chunk with
`fruit_segment`, `null_segment` and a dictionary segment of an integer column. No chunk has
pruning statistics. -/
def fruit_table : Table Int Nat :=
  [some ⟨true, [.non_arithmetic fruit_segment], none⟩,
    some ⟨false, [.non_arithmetic fruit_segment, .non_arithmetic null_segment,
      .arithmetic ⟨true, [1, 5, 9], [some 5, some 1, some 9]⟩], none⟩]

end opossum


namespace opossum

/-! ## Effect of `set_input` on slots, kinds and consumer lists -/

theorem input_left (s : LQP) (n : Nat) : input s n LQPInputSide.Left = (s n).left_input := rfl

theorem input_right (s : LQP) (n : Nat) : input s n LQPInputSide.Right = (s n).right_input := rfl

theorem input_set_slot (s : LQP) (a : Nat) (sd : LQPInputSide) (v : Option Nat) (n : Nat)
    (sd' : LQPInputSide) :
    input (set_slot s a sd v) n sd' = if n = a ∧ sd' = sd then v else input s n sd' := by
  unfold set_slot input
  by_cases h : n = a <;> cases sd <;> cases sd' <;> simp [h]

theorem input_remove_output_pointer (s : LQP) (a : Nat) (o : Nat × LQPInputSide) (n : Nat)
    (sd : LQPInputSide) : input (remove_output_pointer s a o) n sd = input s n sd := by
  unfold remove_output_pointer input
  by_cases h : n = a <;> cases sd <;> simp [h]

theorem input_add_output_pointer (s : LQP) (a : Nat) (o : Nat × LQPInputSide) (n : Nat)
    (sd : LQPInputSide) : input (add_output_pointer s a o) n sd = input s n sd := by
  unfold add_output_pointer input
  by_cases h : n = a <;> cases sd <;> simp [h]

/-- `set_input` overwrites exactly the slot it is given. -/
theorem input_set_input (s : LQP) (a : Nat) (sd : LQPInputSide) (v : Option Nat) (n : Nat)
    (sd' : LQPInputSide) :
    input (set_input s a sd v) n sd' = if n = a ∧ sd' = sd then v else input s n sd' := by
  unfold set_input
  by_cases hcur : input s a sd = v
  · simp only [hcur, if_true]
    split_ifs with h
    · rw [h.1, h.2, hcur]
    · rfl
  · simp only [hcur, if_false]
    cases v with
    | none =>
      cases hc : input s a sd with
      | none => simp [input_set_slot]
      | some c => simp [input_set_slot, input_remove_output_pointer]
    | some i =>
      cases hc : input s a sd with
      | none => simp [input_set_slot, input_add_output_pointer]
      | some c => simp [input_set_slot, input_add_output_pointer, input_remove_output_pointer]

theorem type_set_input (s : LQP) (a : Nat) (sd : LQPInputSide) (v : Option Nat) (n : Nat) :
    (set_input s a sd v n).type = (s n).type := by
  unfold set_input
  by_cases hcur : input s a sd = v
  · simp [hcur]
  · simp only [hcur, if_false]
    cases v <;> cases input s a sd <;>
      simp only [add_output_pointer, set_slot, remove_output_pointer] <;>
      cases sd <;> split_ifs <;> rfl

theorem outputs_set_slot (s : LQP) (a : Nat) (sd : LQPInputSide) (v : Option Nat) (n : Nat) :
    (set_slot s a sd v n).outputs = (s n).outputs := by
  unfold set_slot
  cases sd <;> split_ifs <;> rfl

theorem outputs_remove_output_pointer (s : LQP) (c : Nat) (o : Nat × LQPInputSide) (n : Nat) :
    (remove_output_pointer s c o n).outputs =
      if n = c then (s n).outputs.erase o else (s n).outputs := by
  unfold remove_output_pointer
  split_ifs <;> rfl

theorem outputs_add_output_pointer (s : LQP) (i : Nat) (o : Nat × LQPInputSide) (n : Nat) :
    (add_output_pointer s i o n).outputs =
      if n = i then (s n).outputs ++ [o] else (s n).outputs := by
  unfold add_output_pointer
  split_ifs <;> rfl

/-- The consumer list of `n` after `set_input`: the entry is erased at the previous input and
appended at the new one. -/
theorem outputs_set_input (s : LQP) (a : Nat) (sd : LQPInputSide) (v : Option Nat) (n : Nat) :
    (set_input s a sd v n).outputs =
      if input s a sd = v then (s n).outputs
      else
        (if input s a sd = some n then (s n).outputs.erase (a, sd) else (s n).outputs) ++
          (if v = some n then [(a, sd)] else []) := by
  unfold set_input
  by_cases hcur : input s a sd = v
  · simp [hcur]
  · simp only [hcur, if_false]
    cases v with
    | none =>
      cases hc : input s a sd with
      | none => exact absurd hc hcur
      | some c =>
        simp only [outputs_set_slot, outputs_remove_output_pointer, Option.some.injEq]
        by_cases h2 : n = c
        · simp [h2]
        · simp [h2, Ne.symm h2]
    | some i =>
      cases hc : input s a sd with
      | none =>
        simp only [outputs_set_slot, outputs_add_output_pointer, Option.some.injEq]
        by_cases h2 : n = i
        · simp [h2]
        · simp [h2, Ne.symm h2]
      | some c =>
        simp only [outputs_set_slot, outputs_add_output_pointer, outputs_remove_output_pointer,
          Option.some.injEq]
        by_cases h2 : n = i <;> by_cases h3 : n = c
        · simp [← h2, ← h3]
        · simp [← h2, h3, Ne.symm h3]
        · simp [← h3, h2, Ne.symm h2]
        · simp [h2, h3, Ne.symm h2, Ne.symm h3]

end opossum


namespace opossum

/-! ## `set_input` keeps the back-references consistent -/

theorem set_input_eq_self (s : LQP) (a : Nat) (sd : LQPInputSide) (v : Option Nat)
    (h : input s a sd = v) : set_input s a sd v = s := by
  unfold set_input
  simp [h]

theorem backrefs_set_input {s : LQP} (hs : BackRefsConsistent s) (a : Nat) (sd : LQPInputSide)
    (v : Option Nat) : BackRefsConsistent (set_input s a sd v) := by
  by_cases hcur : input s a sd = v
  · rw [set_input_eq_self s a sd v hcur]; exact hs
  · intro n
    obtain ⟨hnd, hmem⟩ := hs n
    have hself : (a, sd) ∈ (s n).outputs ↔ input s a sd = some n := hmem a sd
    rw [outputs_set_input]
    simp only [hcur, if_false]
    refine ⟨?_, ?_⟩
    · by_cases hv : v = some n
      · have hc : ¬ input s a sd = some n := fun h => hcur (h.trans hv.symm)
        simp only [hc, hv, if_false, if_true]
        refine List.Nodup.append hnd (List.nodup_singleton _) ?_
        intro x hx hx2
        rw [List.mem_singleton] at hx2
        subst hx2
        exact hc (hself.mp hx)
      · simp only [hv, if_false, List.append_nil]
        split_ifs
        · exact hnd.erase _
        · exact hnd
    · intro c side
      rw [input_set_input]
      by_cases hcs : c = a ∧ side = sd
      · obtain ⟨rfl, rfl⟩ := hcs
        simp only [and_self, if_true]
        by_cases hv : v = some n
        · simp [hv]
        · simp only [hv, if_false, List.append_nil, iff_false]
          split_ifs with h
          · exact fun hm => ((hnd.mem_erase_iff).mp hm).1 rfl
          · exact fun hm => h (hself.mp hm)
      · simp only [hcs, if_false]
        have hne : (c, side) ≠ (a, sd) := fun h => hcs ⟨congrArg Prod.fst h, congrArg Prod.snd h⟩
        rw [← hmem c side]
        have h2 : (c, side) ∉ (if v = some n then [(a, sd)] else []) := by
          split_ifs
          · simpa using hne
          · simp
        simp only [List.mem_append, h2, or_false]
        split_ifs
        · rw [hnd.mem_erase_iff]
          exact ⟨fun h => h.2, fun h => ⟨hne, h⟩⟩
        · rfl

/-- A consumer list without repetition whose only possible member is `o` and which has `o`. -/
theorem outputs_eq_singleton {l : List (Nat × LQPInputSide)} {o : Nat × LQPInputSide}
    (hnd : l.Nodup) (hmem : ∀ x, x ∈ l ↔ x = o) : l = [o] := by
  have hp : l.Perm [o] := by
    rw [List.perm_ext_iff_of_nodup hnd (List.nodup_singleton _)]
    intro x; simp [hmem]
  exact List.perm_singleton.mp hp

theorem outputs_eq_nil {l : List (Nat × LQPInputSide)} (hmem : ∀ x, x ∉ l) : l = [] :=
  List.eq_nil_iff_forall_not_mem.mpr hmem

/-! ## Loops of `set_input` -/

theorem backrefs_foldl_set_input {s : LQP} (hs : BackRefsConsistent s)
    (l : List (Nat × LQPInputSide)) (v : Option Nat) :
    BackRefsConsistent (l.foldl (fun st o => set_input st o.1 o.2 v) s) := by
  induction l generalizing s with
  | nil => exact hs
  | cons o l ih => exact ih (backrefs_set_input hs _ _ _)

theorem input_foldl_set_input (s : LQP) (l : List (Nat × LQPInputSide)) (v : Option Nat)
    (n : Nat) (sd : LQPInputSide) :
    input (l.foldl (fun st o => set_input st o.1 o.2 v) s) n sd =
      if (n, sd) ∈ l then v else input s n sd := by
  induction l generalizing s with
  | nil => simp
  | cons o l ih =>
    rw [List.foldl_cons, ih, input_set_input]
    by_cases h1 : (n, sd) ∈ l
    · simp [h1]
    · by_cases h2 : (n, sd) = o
      · have : n = o.1 ∧ sd = o.2 := by rw [← h2]; exact ⟨rfl, rfl⟩
        simp [h1, h2, this]
      · have : ¬ (n = o.1 ∧ sd = o.2) := fun h => h2 (Prod.ext h.1 h.2)
        simp [h1, h2, this]

theorem type_foldl_set_input (s : LQP) (l : List (Nat × LQPInputSide)) (v : Option Nat)
    (n : Nat) : (l.foldl (fun st o => set_input st o.1 o.2 v) s n).type = (s n).type := by
  induction l generalizing s with
  | nil => rfl
  | cons o l ih => rw [List.foldl_cons, ih, type_set_input]

/-! ## `lqp_remove_node` -/

theorem backrefs_lqp_remove_node {s : LQP} (hs : BackRefsConsistent s) (p : Nat) :
    BackRefsConsistent (lqp_remove_node s p) := by
  unfold lqp_remove_node
  exact backrefs_foldl_set_input (backrefs_set_input hs _ _ _) _ _

theorem type_lqp_remove_node (s : LQP) (p n : Nat) :
    (lqp_remove_node s p n).type = (s n).type := by
  unfold lqp_remove_node
  simp only [type_foldl_set_input, type_set_input]

/-- Slots after `lqp_remove_node`: the consumers of the node take over its left input, the
node loses it. -/
theorem input_lqp_remove_node (s : LQP) (p n : Nat) (sd : LQPInputSide) :
    input (lqp_remove_node s p) n sd =
      if (n, sd) ∈ (s p).outputs then (s p).left_input
      else if n = p ∧ sd = LQPInputSide.Left then none else input s n sd := by
  unfold lqp_remove_node
  simp only [input_foldl_set_input, input_set_input]

theorem backrefs_foldl_remove {s : LQP} (hs : BackRefsConsistent s) (l : List Nat) :
    BackRefsConsistent (l.foldl lqp_remove_node s) := by
  induction l generalizing s with
  | nil => exact hs
  | cons p l ih => exact ih (backrefs_lqp_remove_node hs p)

theorem type_foldl_remove (s : LQP) (l : List Nat) (n : Nat) :
    (l.foldl lqp_remove_node s n).type = (s n).type := by
  induction l generalizing s with
  | nil => rfl
  | cons p l ih => rw [List.foldl_cons, ih, type_lqp_remove_node]

/-- Removing nodes nobody references only clears their left inputs. -/
theorem input_foldl_remove_unreferenced {s : LQP} (hs : BackRefsConsistent s) (l : List Nat)
    (hl : ∀ p ∈ l, ∀ c sd, input s c sd ≠ some p) (n : Nat) (sd : LQPInputSide) :
    input (l.foldl lqp_remove_node s) n sd =
      if n ∈ l ∧ sd = LQPInputSide.Left then none else input s n sd := by
  induction l generalizing s with
  | nil => simp
  | cons p l ih =>
    have hp : (s p).outputs = [] := by
      apply outputs_eq_nil
      rintro ⟨c, side⟩ hm
      exact hl p (List.mem_cons_self _ _) c side (((hs p).2 c side).mp hm)
    have hstep : ∀ c side, input (lqp_remove_node s p) c side =
        if c = p ∧ side = LQPInputSide.Left then none else input s c side := by
      intro c side
      rw [input_lqp_remove_node, hp]; simp
    rw [List.foldl_cons, ih (backrefs_lqp_remove_node hs p), hstep]
    · by_cases h1 : n ∈ l ∧ sd = LQPInputSide.Left
      · have : n ∈ p :: l ∧ sd = LQPInputSide.Left := ⟨List.mem_cons_of_mem _ h1.1, h1.2⟩
        simp [h1, this]
      · simp only [h1, if_false]
        by_cases h2 : n = p ∧ sd = LQPInputSide.Left
        · have : n ∈ p :: l ∧ sd = LQPInputSide.Left := ⟨by simp [h2.1], h2.2⟩
          simp [h2, this]
        · have : ¬ (n ∈ p :: l ∧ sd = LQPInputSide.Left) := by
            rintro ⟨hm, hsd⟩
            rcases List.mem_cons.mp hm with h | h
            · exact h2 ⟨h, hsd⟩
            · exact h1 ⟨h, hsd⟩
          rw [if_neg h2, if_neg this]
    · intro q hq c side
      rw [hstep]
      split_ifs
      · simp
      · exact hl q (List.mem_cons_of_mem _ hq) c side

end opossum


namespace opossum

/-! ## The estimation loop -/

theorem input_estimate_predicates (est : LQP → Nat → Cardinality) (inp : Option Nat) (s : LQP)
    (l : List Nat) (n : Nat) (sd : LQPInputSide) :
    input (estimate_predicates est inp s l).1 n sd =
      if n ∈ l ∧ sd = LQPInputSide.Left then inp else input s n sd := by
  induction l generalizing s with
  | nil => simp [estimate_predicates]
  | cons p l ih =>
    simp only [estimate_predicates]
    rw [ih, input_set_input]
    by_cases h1 : n ∈ l ∧ sd = LQPInputSide.Left
    · have : n ∈ p :: l ∧ sd = LQPInputSide.Left := ⟨List.mem_cons_of_mem _ h1.1, h1.2⟩
      rw [if_pos h1, if_pos this]
    · rw [if_neg h1]
      by_cases h2 : n = p ∧ sd = LQPInputSide.Left
      · have : n ∈ p :: l ∧ sd = LQPInputSide.Left := ⟨by simp [h2.1], h2.2⟩
        rw [if_pos h2, if_pos this]
      · have : ¬ (n ∈ p :: l ∧ sd = LQPInputSide.Left) := by
          rintro ⟨hm, hsd⟩
          rcases List.mem_cons.mp hm with h | h
          · exact h2 ⟨h, hsd⟩
          · exact h1 ⟨h, hsd⟩
        rw [if_neg h2, if_neg this]

theorem type_estimate_predicates (est : LQP → Nat → Cardinality) (inp : Option Nat) (s : LQP)
    (l : List Nat) (n : Nat) : ((estimate_predicates est inp s l).1 n).type = (s n).type := by
  induction l generalizing s with
  | nil => rfl
  | cons p l ih =>
    simp only [estimate_predicates]
    rw [ih, type_set_input]

theorem backrefs_estimate_predicates (est : LQP → Nat → Cardinality) (inp : Option Nat)
    {s : LQP} (hs : BackRefsConsistent s) (l : List Nat) :
    BackRefsConsistent (estimate_predicates est inp s l).1 := by
  induction l generalizing s with
  | nil => exact hs
  | cons p l ih =>
    simp only [estimate_predicates]
    exact ih (backrefs_set_input hs _ _ _)

theorem map_fst_estimate_predicates (est : LQP → Nat → Cardinality) (inp : Option Nat) (s : LQP)
    (l : List Nat) : (estimate_predicates est inp s l).2.map Prod.fst = l := by
  induction l generalizing s with
  | nil => rfl
  | cons p l ih =>
    simp only [estimate_predicates, List.map_cons]
    rw [ih]

/-- Every recorded cardinality is the estimator's answer for the member in a plan in which the
member sits directly on top of `inp`. -/
theorem estimate_predicates_attached (est : LQP → Nat → Cardinality) (inp : Option Nat)
    (s : LQP) (l : List Nat) :
    ∀ e ∈ (estimate_predicates est inp s l).2,
      e.1 ∈ l ∧ ∃ st : LQP, (st e.1).left_input = inp ∧ e.2 = est st e.1 := by
  induction l generalizing s with
  | nil => simp [estimate_predicates]
  | cons p l ih =>
    intro e he
    simp only [estimate_predicates, List.mem_cons] at he
    rcases he with rfl | he
    · refine ⟨List.mem_cons_self _ _, set_input s p LQPInputSide.Left inp, ?_, rfl⟩
      have := input_set_input s p LQPInputSide.Left inp p LQPInputSide.Left
      simpa [input] using this
    · obtain ⟨h1, h2⟩ := ih _ e he
      exact ⟨List.mem_cons_of_mem _ h1, h2⟩

/-! ## The linking loop -/

theorem successor_mem {l : List Nat} {n b : Nat} (h : successor l n = some b) :
    n ∈ l ∧ b ∈ l := by
  induction l with
  | nil => simp [successor] at h
  | cons a l ih =>
    cases l with
    | nil => simp [successor] at h
    | cons c rest =>
      simp only [successor] at h
      split_ifs at h with hna
      · simp only [Option.some.injEq] at h
        subst h; subst hna
        simp
      · obtain ⟨h1, h2⟩ := ih h
        exact ⟨List.mem_cons_of_mem _ h1, List.mem_cons_of_mem _ h2⟩

theorem successor_of_not_mem {l : List Nat} {n : Nat} (h : n ∉ l) : successor l n = none := by
  cases hs : successor l n with
  | none => rfl
  | some b => exact absurd (successor_mem hs).1 h

theorem successor_of_ne_last {l : List Nat} {n : Nat} (hn : n ∈ l)
    (hlast : l.getLast? ≠ some n) : ∃ b, successor l n = some b := by
  induction l with
  | nil => simp at hn
  | cons a l ih =>
    cases l with
    | nil =>
      simp only [List.mem_singleton] at hn
      subst hn
      simp at hlast
    | cons c rest =>
      simp only [successor]
      by_cases hna : n = a
      · exact ⟨c, by simp [hna]⟩
      · simp only [hna, if_false]
        apply ih
        · rcases List.mem_cons.mp hn with h | h
          · exact absurd h hna
          · exact h
        · simpa [List.getLast?_cons_cons] using hlast

theorem successor_last {l : List Nat} {n : Nat} (hnd : l.Nodup) (hlast : l.getLast? = some n) :
    successor l n = none := by
  induction l with
  | nil => rfl
  | cons a l ih =>
    cases l with
    | nil => rfl
    | cons c rest =>
      simp only [successor]
      have hn : n ∈ c :: rest := by
        rw [List.getLast?_cons_cons] at hlast
        exact List.mem_of_getLast?_eq_some hlast
      have hna : n ≠ a := by
        rintro rfl
        exact (List.nodup_cons.mp hnd).1 hn
      simp only [hna, if_false]
      apply ih (List.nodup_cons.mp hnd).2
      simpa [List.getLast?_cons_cons] using hlast

theorem successor_head_ne {l : List Nat} {n b : Nat} (hnd : l.Nodup)
    (h : successor l n = some b) : l.head? ≠ some b := by
  induction l with
  | nil => simp [successor] at h
  | cons a l ih =>
    cases l with
    | nil => simp [successor] at h
    | cons c rest =>
      simp only [successor] at h
      have hnd' := List.nodup_cons.mp hnd
      simp only [List.head?_cons, ne_eq, Option.some.injEq]
      rintro rfl
      split_ifs at h with hna
      · simp only [Option.some.injEq] at h
        subst h
        exact hnd'.1 (List.mem_cons_self _ _)
      · exact hnd'.1 (successor_mem h).2

theorem successor_injective {l : List Nat} {n m b : Nat} (hnd : l.Nodup)
    (hn : successor l n = some b) (hm : successor l m = some b) : n = m := by
  induction l with
  | nil => simp [successor] at hn
  | cons a l ih =>
    cases l with
    | nil => simp [successor] at hn
    | cons c rest =>
      have hnd' := List.nodup_cons.mp hnd
      have hhead := fun x (hx : successor (c :: rest) x = some b) =>
        successor_head_ne hnd'.2 hx
      simp only [successor] at hn hm
      split_ifs at hn hm with h1 h2 h2
      · rw [h1, h2]
      · simp only [Option.some.injEq] at hn
        subst hn
        exact absurd (hhead m hm) (by simp)
      · simp only [Option.some.injEq] at hm
        subst hm
        exact absurd (hhead n hn) (by simp)
      · exact ih hnd'.2 hn hm

theorem backrefs_link_predicates {s : LQP} (hs : BackRefsConsistent s) (l : List Nat) :
    BackRefsConsistent (link_predicates s l) := by
  induction l generalizing s with
  | nil => exact hs
  | cons a l ih =>
    cases l with
    | nil => exact hs
    | cons c rest =>
      simp only [link_predicates]
      exact ih (backrefs_set_input hs _ _ _)

theorem type_link_predicates (s : LQP) (l : List Nat) (n : Nat) :
    (link_predicates s l n).type = (s n).type := by
  induction l generalizing s with
  | nil => rfl
  | cons a l ih =>
    cases l with
    | nil => rfl
    | cons c rest =>
      simp only [link_predicates]
      rw [ih, type_set_input]

/-- Slots after the linking loop: a node with a successor in the vector has it as left input,
every other slot is as before. -/
theorem input_link_predicates (s : LQP) (l : List Nat) (hnd : l.Nodup) (n : Nat)
    (sd : LQPInputSide) :
    input (link_predicates s l) n sd =
      if sd = LQPInputSide.Left then
        match successor l n with
        | some b => some b
        | none => input s n sd
      else input s n sd := by
  induction l generalizing s with
  | nil => simp [link_predicates, successor]
  | cons a l ih =>
    cases l with
    | nil => simp [link_predicates, successor]
    | cons c rest =>
      have hnd' := List.nodup_cons.mp hnd
      simp only [link_predicates]
      rw [ih _ hnd'.2, input_set_input]
      by_cases hsd : sd = LQPInputSide.Left
      · simp only [hsd, if_true, and_true, successor]
        by_cases hna : n = a
        · subst hna
          have : successor (c :: rest) n = none := successor_of_not_mem hnd'.1
          simp [this]
        · simp [hna]
      · simp [hsd]

end opossum


namespace opossum

/-! ## The plan after `_reorder_predicates` -/

theorem exists_predecessor {a : Nat} {l : List Nat} (hnd : (a :: l).Nodup) :
    ∀ p ∈ l, ∃ q ∈ a :: l, successor (a :: l) q = some p := by
  induction l generalizing a with
  | nil => simp
  | cons b l ih =>
    intro p hp
    have hnd' := List.nodup_cons.mp hnd
    rcases List.mem_cons.mp hp with rfl | hp
    · exact ⟨a, List.mem_cons_self _ _, by simp [successor]⟩
    · obtain ⟨q, hq, hR⟩ := ih hnd'.2 p hp
      have hqa : q ≠ a := fun hh => hnd'.1 (hh ▸ hq)
      refine ⟨q, List.mem_cons_of_mem _ hq, ?_⟩
      simp only [successor, hqa, if_false]
      exact hR

/-- In a chain every member below the top is referenced only by a member, through its left
slot. -/
theorem IsChain.inner_outputs {s : LQP} {predicates : List Nat} (hs : BackRefsConsistent s)
    (hc : IsChain s predicates) :
    ∀ p ∈ predicates.tail, ∀ o ∈ (s p).outputs, o.1 ∈ predicates ∧ o.2 = LQPInputSide.Left := by
  cases predicates with
  | nil => simp
  | cons a l =>
    intro p hp o ho
    obtain ⟨q, hq, hsucc⟩ := exists_predecessor hc.nodup p hp
    have hR := hc.links q hq p (List.mem_cons_of_mem _ hp) hsucc
    have hmem : (q, LQPInputSide.Left) ∈ (s p).outputs := ((hs p).2 q LQPInputSide.Left).mpr hR
    have hlen := hc.single_consumer p hp
    have : (s p).outputs = [(q, LQPInputSide.Left)] := by
      match hout : (s p).outputs, hmem, hlen with
      | [x], hmem, _ => simp only [List.mem_singleton] at hmem; rw [hmem]
      | [], hmem, _ => simp at hmem
      | _ :: _ :: _, _, hlen => simp at hlen
    rw [this, List.mem_singleton] at ho
    subst ho
    exact ⟨hq, rfl⟩

theorem reordered_perm {sort : StdSort} (hsort : StdSortContract sort)
    (est : LQP → Nat → Cardinality) (s : LQP) (predicates : List Nat) :
    List.Perm (reordered sort est s predicates) predicates := by
  unfold reordered estimated
  have h := ((hsort (estimate_predicates est (chain_input s predicates) s predicates).2).1).map
    Prod.fst
  rwa [map_fst_estimate_predicates] at h

/-- Slots after the loop of lines 80-82 (all chain members detached). -/
theorem input_after_removal {s : LQP} {predicates : List Nat} (hs : BackRefsConsistent s)
    (hc : IsChain s predicates) (est : LQP → Nat → Cardinality) (n : Nat) (sd : LQPInputSide) :
    input (predicates.foldl lqp_remove_node
        (estimate_predicates est (chain_input s predicates) s predicates).1) n sd =
      if n ∈ predicates ∧ sd = LQPInputSide.Left then none
      else if (n, sd) ∈ chain_outputs s predicates then chain_input s predicates
      else input s n sd := by
  have hinner := hc.inner_outputs hs
  have hin := hc.input_outside
  have hout := hc.outputs_outside
  generalize hinp : chain_input s predicates = inp at hin ⊢
  generalize houts : chain_outputs s predicates = outs at hout ⊢
  set S1 := (estimate_predicates est inp s predicates).1 with hS1
  have hS1wf : BackRefsConsistent S1 := backrefs_estimate_predicates est inp hs predicates
  have hS1in : ∀ c side, input S1 c side =
      if c ∈ predicates ∧ side = LQPInputSide.Left then inp else input s c side :=
    fun c side => input_estimate_predicates est inp s predicates c side
  cases predicates with
  | nil =>
    simp only [chain_outputs, List.head?_nil] at houts
    subst houts
    simp [hS1, estimate_predicates]
  | cons p0 tail =>
    simp only [chain_outputs, List.head?_cons] at houts
    -- the consumers of the top after the estimation loop are the recorded ones
    have hmem0 : ∀ c side, (c, side) ∈ (S1 p0).outputs ↔ (c, side) ∈ outs := by
      intro c side
      rw [(hS1wf p0).2, hS1in, ← houts, (hs p0).2]
      split_ifs with h
      · constructor
        · intro h'
          exact absurd h' (hin p0 (List.mem_cons_self _ _))
        · intro h'
          have := hout (c, side) (by rw [← houts]; exact ((hs p0).2 c side).mpr h')
          exact absurd h.1 this
      · rfl
    have hleft0 : (S1 p0).left_input = inp := by
      have := hS1in p0 LQPInputSide.Left
      simpa [input] using this
    set S1' := lqp_remove_node S1 p0 with hS1'
    have hS1'in : ∀ c side, input S1' c side =
        if (c, side) ∈ outs then inp
        else if c ∈ p0 :: tail ∧ side = LQPInputSide.Left then
          (if c = p0 then none else inp)
        else input s c side := by
      intro c side
      rw [hS1', input_lqp_remove_node, hleft0, hS1in]
      by_cases h1 : (c, side) ∈ outs
      · rw [if_pos ((hmem0 c side).mpr h1), if_pos h1]
      · rw [if_neg (fun h => h1 ((hmem0 c side).mp h)), if_neg h1]
        by_cases h2 : c = p0 ∧ side = LQPInputSide.Left
        · simp [h2.1, h2.2]
        · rw [if_neg h2]
          by_cases h3 : c ∈ p0 :: tail ∧ side = LQPInputSide.Left
          · have : c ≠ p0 := fun h => h2 ⟨h, h3.2⟩
            simp [h3, this]
          · rw [if_neg h3, if_neg h3]
    rw [List.foldl_cons, input_foldl_remove_unreferenced (backrefs_lqp_remove_node hS1wf p0)]
    · rw [hS1'in]
      by_cases h0 : n ∈ p0 :: tail ∧ sd = LQPInputSide.Left
      · have hno : (n, sd) ∉ outs := fun h => hout _ h h0.1
        rw [if_pos h0, if_neg hno, if_pos h0]
        by_cases h1 : n ∈ tail ∧ sd = LQPInputSide.Left
        · rw [if_pos h1]
        · rw [if_neg h1]
          have : n = p0 := by
            rcases List.mem_cons.mp h0.1 with h | h
            · exact h
            · exact absurd ⟨h, h0.2⟩ h1
          rw [if_pos this]
      · have h1 : ¬ (n ∈ tail ∧ sd = LQPInputSide.Left) :=
          fun h => h0 ⟨List.mem_cons_of_mem _ h.1, h.2⟩
        rw [if_neg h1, if_neg h0, if_neg h0]
    · intro p hp c side
      rw [hS1'in]
      have hpm : p ∈ p0 :: tail := List.mem_cons_of_mem _ hp
      split_ifs with h1 h2 h3
      · exact hin p hpm
      · simp
      · exact hin p hpm
      · intro h
        have hm : (c, side) ∈ (s p).outputs := ((hs p).2 c side).mpr h
        exact h2 (hinner p hp (c, side) hm)

end opossum


namespace opossum

theorem exists_head_getLast {α : Type} {l : List α} (h : l ≠ []) :
    ∃ f b, l.head? = some f ∧ l.getLast? = some b := by
  cases l with
  | nil => exact absurd rfl h
  | cons a l =>
    refine ⟨a, (a :: l).getLast (by simp), rfl, ?_⟩
    exact List.getLast?_eq_getLast _ _

theorem estimated_eq (est : LQP → Nat → Cardinality) (s : LQP) (predicates : List Nat) (b : Nat)
    (hb : predicates.getLast? = some b) :
    estimated est s predicates = (estimate_predicates est (s b).left_input s predicates).2 := by
  unfold estimated chain_input
  rw [hb]

/-- The plan after `_reorder_predicates`, slot by slot: a chain member has its successor in the
sorted vector as left input, the last one the chain's original input; every recorded consumer
slot holds the head of the sorted vector; no other slot, and no kind tag, has changed; the
back-references are consistent again. -/
theorem reorder_predicates_spec {sort : StdSort} (hsort : StdSortContract sort)
    (est : LQP → Nat → Cardinality) {s : LQP} {predicates : List Nat} (hne : predicates ≠ [])
    (hs : BackRefsConsistent s) (hc : IsChain s predicates) :
    ∃ s', _reorder_predicates sort est s predicates = some s' ∧ BackRefsConsistent s' ∧
      (∀ n, (s' n).type = (s n).type) ∧
      ∀ n sd, input s' n sd =
        if n ∈ predicates ∧ sd = LQPInputSide.Left then
          match successor (reordered sort est s predicates) n with
          | some b => some b
          | none => chain_input s predicates
        else if (n, sd) ∈ chain_outputs s predicates then
          (reordered sort est s predicates).head?
        else input s n sd := by
  obtain ⟨front, back, hfront, hback⟩ := exists_head_getLast hne
  have hperm := reordered_perm hsort est s predicates
  have hqne : reordered sort est s predicates ≠ [] := by
    intro h
    rw [h] at hperm
    exact hne hperm.symm.eq_nil
  have hqnd : (reordered sort est s predicates).Nodup := hperm.nodup_iff.mpr hc.nodup
  have hrem := input_after_removal hs hc est
  have hout := hc.outputs_outside
  have hinp : chain_input s predicates = (s back).left_input := by
    unfold chain_input; rw [hback]
  have houts : chain_outputs s predicates = (s front).outputs := by
    unfold chain_outputs; rw [hfront]
  have hsne : sort cardinality_greater (estimated est s predicates) ≠ [] := by
    intro h
    apply hqne
    unfold reordered; rw [h]; rfl
  obtain ⟨hi, lo, hhi, hlo⟩ := exists_head_getLast hsne
  have hqhead : (reordered sort est s predicates).head? = some hi.1 := by
    unfold reordered
    rw [List.head?_map, hhi]; rfl
  have hqlast : (reordered sort est s predicates).getLast? = some lo.1 := by
    unfold reordered
    rw [List.getLast?_map, hlo]; rfl
  have hlomem : lo.1 ∈ predicates :=
    hperm.mem_iff.mp (List.mem_of_getLast?_eq_some hqlast)
  rw [estimated_eq est s predicates back hback] at hhi hlo
  refine ⟨link_predicates (retie_outputs (set_input (predicates.foldl lqp_remove_node
      (estimate_predicates est (s back).left_input s predicates).1) lo.1 LQPInputSide.Left
      (s back).left_input) (s front).outputs hi.1) (reordered sort est s predicates),
    ?_, ?_, ?_, ?_⟩
  · simp only [_reorder_predicates, hback, hfront, hhi, hlo]
    unfold reordered
    rw [estimated_eq est s predicates back hback]
  · exact backrefs_link_predicates (backrefs_foldl_set_input (backrefs_set_input
      (backrefs_foldl_remove (backrefs_estimate_predicates est _ hs _) _) _ _ _) _ _) _
  · intro n
    rw [type_link_predicates]
    unfold retie_outputs
    rw [type_foldl_set_input, type_set_input, type_foldl_remove, type_estimate_predicates]
  · intro n sd
    rw [input_link_predicates _ _ hqnd]
    unfold retie_outputs
    rw [input_foldl_set_input, input_set_input, ← hinp, hrem, ← houts, hqhead]
    by_cases hA : n ∈ predicates ∧ sd = LQPInputSide.Left
    · have hno : (n, sd) ∉ chain_outputs s predicates := fun h => hout _ h hA.1
      rw [if_pos hA, if_pos hA.2, if_neg hno, if_pos hA]
      cases hsucc : successor (reordered sort est s predicates) n with
      | some b => rfl
      | none =>
        have : n = lo.1 := by
          by_contra hcon
          have hne' : (reordered sort est s predicates).getLast? ≠ some n := by
            rw [hqlast]
            intro h
            exact hcon (Option.some.inj h).symm
          obtain ⟨b, hb⟩ := successor_of_ne_last (hperm.mem_iff.mpr hA.1) hne'
          rw [hb] at hsucc
          exact Option.noConfusion hsucc
        simp [this, hA.2]
    · rw [if_neg hA]
      have hsucc : sd = LQPInputSide.Left →
          successor (reordered sort est s predicates) n = none := by
        intro hsd
        apply successor_of_not_mem
        intro hm
        exact hA ⟨hperm.mem_iff.mp hm, hsd⟩
      have hlo' : ¬ (n = lo.1 ∧ sd = LQPInputSide.Left) := by
        rintro ⟨h1, h2⟩
        exact hA ⟨h1 ▸ hlomem, h2⟩
      by_cases hsd : sd = LQPInputSide.Left
      · rw [if_pos hsd, hsucc hsd]
        simp only [hlo', if_false, hA]
        split_ifs <;> rfl
      · rw [if_neg hsd]
        simp only [hlo', if_false, hA]
        split_ifs <;> rfl

end opossum


namespace opossum

/-! ## Insertion sort honours the contract of `std::sort` -/

theorem cardinality_greater_eq_false (a b : Nat × Cardinality) :
    cardinality_greater b a = false ↔ b.2 ≤ a.2 := by
  unfold cardinality_greater
  simp

theorem insert_sorted_perm (comp : (Nat × Cardinality) → (Nat × Cardinality) → Bool)
    (x : Nat × Cardinality) (l : List (Nat × Cardinality)) :
    List.Perm (insert_sorted comp x l) (x :: l) := by
  induction l with
  | nil => exact List.Perm.refl _
  | cons y ys ih =>
    simp only [insert_sorted]
    split_ifs
    · exact List.Perm.refl _
    · exact (List.Perm.cons y ih).trans (List.Perm.swap x y ys)

theorem insert_sorted_pairwise (x : Nat × Cardinality) (l : List (Nat × Cardinality))
    (hl : List.Pairwise (fun a b => cardinality_greater b a = false) l) :
    List.Pairwise (fun a b => cardinality_greater b a = false)
      (insert_sorted cardinality_greater x l) := by
  induction l with
  | nil => simp [insert_sorted]
  | cons y ys ih =>
    simp only [insert_sorted]
    rw [List.pairwise_cons] at hl
    split_ifs with h
    · refine List.Pairwise.cons ?_ (List.Pairwise.cons hl.1 hl.2)
      have hxy : y.2 < x.2 := by simpa [cardinality_greater] using h
      intro z hz
      rw [cardinality_greater_eq_false]
      rcases List.mem_cons.mp hz with rfl | hz
      · exact le_of_lt hxy
      · exact le_trans ((cardinality_greater_eq_false _ _).mp (hl.1 z hz)) (le_of_lt hxy)
    · refine List.Pairwise.cons ?_ (ih hl.2)
      intro z hz
      rcases List.mem_cons.mp ((insert_sorted_perm _ x ys).mem_iff.mp hz) with rfl | hz
      · simpa using h
      · exact hl.1 z hz

theorem insertion_sort_aux (l acc : List (Nat × Cardinality))
    (hacc : List.Pairwise (fun a b => cardinality_greater b a = false) acc) :
    List.Perm (l.foldl (fun acc x => insert_sorted cardinality_greater x acc) acc) (l ++ acc) ∧
    List.Pairwise (fun a b => cardinality_greater b a = false)
      (l.foldl (fun acc x => insert_sorted cardinality_greater x acc) acc) := by
  induction l generalizing acc with
  | nil => exact ⟨List.Perm.refl _, hacc⟩
  | cons x l ih =>
    obtain ⟨h1, h2⟩ := ih (insert_sorted cardinality_greater x acc)
      (insert_sorted_pairwise x acc hacc)
    refine ⟨?_, h2⟩
    rw [List.foldl_cons]
    refine h1.trans ?_
    refine (List.Perm.append_left l (insert_sorted_perm _ x acc)).trans ?_
    simp only [List.cons_append]
    exact List.perm_middle

/-- Insertion sort is a conforming `std::sort`. -/
theorem insertion_sort_contract : StdSortContract insertion_sort := by
  intro l
  have h := insertion_sort_aux l [] List.Pairwise.nil
  simp only [List.append_nil] at h
  exact h

/-! ## Checking the back-references of a plan given as a list -/

theorem plan_of_list_of_le (l : List LQPNode) (n : Nat) (h : l.length ≤ n) :
    plan_of_list l n = empty_node := by
  unfold plan_of_list
  exact List.getD_eq_default _ _ h

theorem check_back_refs_sound (l : List LQPNode) (h : check_back_refs l = true) :
    BackRefsConsistent (plan_of_list l) := by
  unfold check_back_refs at h
  rw [List.all_eq_true] at h
  have hin : ∀ c side m, input (plan_of_list l) c side = some m →
      c < l.length ∧ m < l.length ∧ (c, side) ∈ (plan_of_list l m).outputs := by
    intro c side m hc
    have hlt : c < l.length := by
      by_contra hge
      have he := plan_of_list_of_le l c (not_lt.mp hge)
      cases side <;> simp [input, he, empty_node] at hc
    have h3 := h c (List.mem_range.mpr hlt)
    simp only [Bool.and_eq_true, List.all_eq_true, decide_eq_true_eq] at h3
    have h4 := h3.2 side (by cases side <;> simp)
    rw [hc] at h4
    simp only [Bool.and_eq_true, decide_eq_true_eq] at h4
    exact ⟨hlt, h4.1, h4.2⟩
  intro n
  by_cases hn : n < l.length
  · have h3 := h n (List.mem_range.mpr hn)
    simp only [Bool.and_eq_true, List.all_eq_true, decide_eq_true_eq] at h3
    refine ⟨h3.1.1, fun c side => ⟨fun hm => h3.1.2 (c, side) hm, fun hc => (hin c side n hc).2.2⟩⟩
  · have he := plan_of_list_of_le l n (not_lt.mp hn)
    rw [he]
    refine ⟨List.nodup_nil, fun c side => ⟨fun hm => by simp [empty_node] at hm, fun hc => ?_⟩⟩
    exact absurd (hin c side n hc).2.1 hn

end opossum


namespace opossum

/-! ## Ordering of the rewritten chain -/

theorem mem_of_fst_ne {x : Nat × Cardinality} {L : List (Nat × Cardinality)} {a : Nat}
    {c : Cardinality} (h : (a, c) ∈ x :: L) (hne : a ≠ x.1) : (a, c) ∈ L := by
  rcases List.mem_cons.mp h with h | h
  · exact absurd (congrArg Prod.fst h) hne
  · exact h

theorem eq_head_of_fst_eq {x : Nat × Cardinality} {L : List (Nat × Cardinality)} {c : Cardinality}
    (hnd : ((x :: L).map Prod.fst).Nodup) (h : (x.1, c) ∈ x :: L) : c = x.2 := by
  rcases List.mem_cons.mp h with h | h
  · exact congrArg Prod.snd h
  · rw [List.map_cons, List.nodup_cons] at hnd
    exact absurd (List.mem_map_of_mem Prod.fst h) hnd.1

/-- In a vector sorted for the comparator of line 86, an entry's cardinality is at least the
cardinality of the entry that follows it. -/
theorem successor_cardinality_le {L : List (Nat × Cardinality)}
    (hnd : (L.map Prod.fst).Nodup)
    (hsorted : List.Pairwise (fun a b => cardinality_greater b a = false) L)
    {upper lower : Nat} {cu cl : Cardinality} (hsucc : successor (L.map Prod.fst) upper = some lower)
    (hu : (upper, cu) ∈ L) (hl : (lower, cl) ∈ L) : cl ≤ cu := by
  induction L with
  | nil => simp at hu
  | cons x L ih =>
    cases L with
    | nil => simp [successor] at hsucc
    | cons y rest =>
      have hnd' := hnd
      rw [List.map_cons, List.nodup_cons] at hnd'
      simp only [List.map_cons, successor] at hsucc
      split_ifs at hsucc with hux
      · simp only [Option.some.injEq] at hsucc
        subst hux
        subst hsucc
        have h1 : cu = x.2 := eq_head_of_fst_eq hnd hu
        have hl' : (y.1, cl) ∈ y :: rest := by
          apply mem_of_fst_ne hl
          intro h
          apply hnd'.1
          rw [← h]
          simp
        have h2 : cl = y.2 := eq_head_of_fst_eq hnd'.2 hl'
        rw [h1, h2, ← cardinality_greater_eq_false]
        exact (List.pairwise_cons.mp hsorted).1 y (List.mem_cons_self _ _)
      · have hlm : lower ∈ (y :: rest).map Prod.fst := (successor_mem hsucc).2
        have hlx : lower ≠ x.1 := by
          rintro rfl
          exact hnd'.1 hlm
        exact ih hnd'.2 (List.pairwise_cons.mp hsorted).2 hsucc (mem_of_fst_ne hu hux)
          (mem_of_fst_ne hl hlx)

theorem length_pos_of_two_le {l : List Nat} (h : 2 ≤ l.length) : l ≠ [] := by
  intro hl
  rw [hl] at h
  simp at h

theorem estimated_map_fst (est : LQP → Nat → Cardinality) (s : LQP) (predicates : List Nat) :
    (estimated est s predicates).map Prod.fst = predicates :=
  map_fst_estimate_predicates est _ s predicates

theorem mem_estimated_of_mem (est : LQP → Nat → Cardinality) (s : LQP) (predicates : List Nat)
    {p : Nat} (hp : p ∈ predicates) : ∃ c, (p, c) ∈ estimated est s predicates := by
  rw [← estimated_map_fst est s predicates, List.mem_map] at hp
  obtain ⟨e, he, rfl⟩ := hp
  exact ⟨e.2, he⟩

theorem fst_mem_of_mem_estimated (est : LQP → Nat → Cardinality) (s : LQP)
    (predicates : List Nat) {e : Nat × Cardinality} (he : e ∈ estimated est s predicates) :
    e.1 ∈ predicates := by
  rw [← estimated_map_fst est s predicates]
  exact List.mem_map_of_mem Prod.fst he

/-- The left input of a chain member after the rewrite: its successor in the sorted vector, or
the chain's original input. -/
theorem left_input_after_reorder {sort : StdSort} {est : LQP → Nat → Cardinality} {s s' : LQP}
    {predicates : List Nat}
    (hspec : ∀ n sd, input s' n sd =
        if n ∈ predicates ∧ sd = LQPInputSide.Left then
          match successor (reordered sort est s predicates) n with
          | some b => some b
          | none => chain_input s predicates
        else if (n, sd) ∈ chain_outputs s predicates then
          (reordered sort est s predicates).head?
        else input s n sd)
    {p : Nat} (hp : p ∈ predicates) :
    (s' p).left_input =
      match successor (reordered sort est s predicates) p with
      | some b => some b
      | none => chain_input s predicates := by
  have := hspec p LQPInputSide.Left
  rw [if_pos ⟨hp, rfl⟩] at this
  exact this

/-- C1: after `_reorder_predicates` on a chain of length >= 2, every adjacent pair of the
rewritten chain (`upper` has `lower` as left input) satisfies
estimated_cardinality(lower) <= estimated_cardinality(upper), where the estimated cardinality of
a member is the value recorded by the loop of lines 74-77: the estimator's answer for the member
in a plan in which the member is attached directly on top of the chain's original input. The
rewritten chain is the sorted vector, a rearrangement of the members: every member has its
successor in it as left input, the last one the chain's original input. -/
theorem reorder_predicates_ordering (sort : StdSort) (hsort : StdSortContract sort)
    (est : LQP → Nat → Cardinality) (s : LQP) (predicates : List Nat)
    (hlen : 2 ≤ predicates.length) (hs : BackRefsConsistent s) (hc : IsChain s predicates) :
    ∃ s', _reorder_predicates sort est s predicates = some s' ∧
      List.Perm (reordered sort est s predicates) predicates ∧
      (∀ p ∈ predicates, (s' p).left_input =
        match successor (reordered sort est s predicates) p with
        | some b => some b
        | none => chain_input s predicates) ∧
      (∀ p ∈ predicates, ∃ c, (p, c) ∈ estimated est s predicates) ∧
      (∀ e ∈ estimated est s predicates, e.1 ∈ predicates ∧
        ∃ st : LQP, (st e.1).left_input = chain_input s predicates ∧ e.2 = est st e.1) ∧
      ∀ lower upper cl cu, (lower, cl) ∈ estimated est s predicates →
        (upper, cu) ∈ estimated est s predicates →
        (s' upper).left_input = some lower → cl ≤ cu := by
  obtain ⟨s', hs', -, -, hspec⟩ :=
    reorder_predicates_spec hsort est (length_pos_of_two_le hlen) hs hc
  refine ⟨s', hs', reordered_perm hsort est s predicates,
    fun p hp => left_input_after_reorder hspec hp,
    fun p hp => mem_estimated_of_mem est s predicates hp,
    fun e he => estimate_predicates_attached est _ s predicates e he, ?_⟩
  intro lower upper cl cu hl hu hlink
  have hum := fst_mem_of_mem_estimated est s predicates hu
  have hlm := fst_mem_of_mem_estimated est s predicates hl
  rw [left_input_after_reorder hspec hum] at hlink
  have hsucc : successor (reordered sort est s predicates) upper = some lower := by
    cases hsu : successor (reordered sort est s predicates) upper with
    | some b => rw [hsu] at hlink; exact hlink
    | none =>
      rw [hsu] at hlink
      exact absurd hlink (hc.input_outside lower hlm)
  have hcontract := hsort (estimated est s predicates)
  have hnd : ((sort cardinality_greater (estimated est s predicates)).map Prod.fst).Nodup :=
    (reordered_perm hsort est s predicates).nodup_iff.mpr hc.nodup
  exact successor_cardinality_le hnd hcontract.2 hsucc (hcontract.1.mem_iff.mpr hu)
    (hcontract.1.mem_iff.mpr hl)

end opossum


namespace opossum

theorem reorder_predicates_ordering_witness :
    ∃ s', _reorder_predicates insertion_sort example_est example_plan [1, 2, 3] = some s' ∧
      List.Perm (reordered insertion_sort example_est example_plan [1, 2, 3]) [1, 2, 3] ∧
      (∀ p ∈ [1, 2, 3], (s' p).left_input =
        match successor (reordered insertion_sort example_est example_plan [1, 2, 3]) p with
        | some b => some b
        | none => chain_input example_plan [1, 2, 3]) ∧
      (∀ p ∈ [1, 2, 3], ∃ c, (p, c) ∈ estimated example_est example_plan [1, 2, 3]) ∧
      (∀ e ∈ estimated example_est example_plan [1, 2, 3], e.1 ∈ [1, 2, 3] ∧
        ∃ st : LQP, (st e.1).left_input = chain_input example_plan [1, 2, 3] ∧
          e.2 = example_est st e.1) ∧
      ∀ lower upper cl cu, (lower, cl) ∈ estimated example_est example_plan [1, 2, 3] →
        (upper, cu) ∈ estimated example_est example_plan [1, 2, 3] →
        (s' upper).left_input = some lower → cl ≤ cu :=
  reorder_predicates_ordering insertion_sort insertion_sort_contract example_est example_plan
    [1, 2, 3] (by decide) (check_back_refs_sound _ (by decide))
    ⟨by decide, by decide, by decide, by decide, by decide⟩

/-! ## Row semantics -/

theorem successor_cons_of_ne {a n : Nat} {l : List Nat} (h : n ≠ a) :
    successor (a :: l) n = successor l n := by
  cases l with
  | nil => simp [successor]
  | cons b rest => simp [successor, h]

/-- The rows delivered at the top of a list of linked filters: the rows of the input that
satisfy every filter of the list. -/
theorem chain_output_of_successors {Row : Type} (pred : Nat → Row → Bool) (st : LQP) (i : Nat)
    (rows : List Row) (qs : List Nat) (hnd : qs.Nodup) (hi : i ∉ qs)
    (h : ∀ a ∈ qs, (st a).left_input =
      match successor qs a with
      | some b => some b
      | none => some i) :
    ∀ q0, qs.head? = some q0 → ∀ fuel, qs.length ≤ fuel →
      chain_output pred st i rows fuel q0 = some (rows.filter fun r => qs.all fun p => pred p r) := by
  induction qs with
  | nil => intro q0 h0; simp at h0
  | cons a rest ih =>
    intro q0 h0 fuel hfuel
    simp only [List.head?_cons, Option.some.injEq] at h0
    subst h0
    have hnd' := List.nodup_cons.mp hnd
    have hai : a ≠ i := fun hh => hi (hh ▸ List.mem_cons_self _ _)
    cases fuel with
    | zero => simp at hfuel
    | succ f =>
      simp only [chain_output, hai, if_false]
      cases rest with
      | nil =>
        have hl := h a (List.mem_cons_self _ _)
        simp only [successor] at hl
        rw [hl]
        have : chain_output pred st i rows f i = some rows := by
          cases f <;> simp [chain_output]
        show Option.map _ (chain_output pred st i rows f i) = _
        rw [this]
        simp
      | cons b rest' =>
        have hl := h a (List.mem_cons_self _ _)
        simp only [successor, if_true] at hl
        rw [hl]
        have hrec := ih hnd'.2 (fun hh => hi (List.mem_cons_of_mem _ hh))
          (by
            intro x hx
            have hxa : x ≠ a := fun hh => hnd'.1 (hh ▸ hx)
            rw [← successor_cons_of_ne hxa]
            exact h x (List.mem_cons_of_mem _ hx))
          b rfl f (by simpa using hfuel)
        show Option.map _ (chain_output pred st i rows f b) = _
        rw [hrec]
        simp only [Option.map_some', List.filter_filter, Option.some.injEq]
        congr 1

/-- In a chain every member has its successor in the chain as left input, the bottom member
the chain's original input. -/
theorem left_input_of_chain {s : LQP} {predicates : List Nat} (hc : IsChain s predicates) :
    ∀ a ∈ predicates, (s a).left_input =
      match successor predicates a with
      | some b => some b
      | none => chain_input s predicates := by
  intro a ha
  cases hsucc : successor predicates a with
  | some b => exact hc.links a ha b (successor_mem hsucc).2 hsucc
  | none =>
    have hlast : predicates.getLast? = some a := by
      by_contra hne
      obtain ⟨b, hb⟩ := successor_of_ne_last ha hne
      rw [hb] at hsucc
      exact Option.noConfusion hsucc
    simp only [chain_input, hlast]

theorem all_eq_of_perm {l₁ l₂ : List Nat} (h : List.Perm l₁ l₂) (f : Nat → Bool) :
    l₁.all f = l₂.all f := by
  rw [Bool.eq_iff_iff, List.all_eq_true, List.all_eq_true]
  exact ⟨fun hh x hx => hh x (h.mem_iff.mpr hx), fun hh x hx => hh x (h.mem_iff.mp hx)⟩

/-- C2: for every input table `rows` and every chain (member `p` keeps the rows satisfying
`pred p`), the rows delivered at the new top of the chain after `_reorder_predicates` are the
rows delivered at the old top before it: the rows of the table satisfying all members. Every
recorded consumer references the new top. -/
theorem reorder_predicates_row_set {Row : Type} (pred : Nat → Row → Bool) (sort : StdSort)
    (hsort : StdSortContract sort) (est : LQP → Nat → Cardinality) (s : LQP)
    (predicates : List Nat) (hlen : 2 ≤ predicates.length) (hs : BackRefsConsistent s)
    (hc : IsChain s predicates) (i : Nat) (hinp : chain_input s predicates = some i)
    (rows : List Row) :
    ∃ s' front top, _reorder_predicates sort est s predicates = some s' ∧
      predicates.head? = some front ∧ top ∈ predicates ∧
      (∀ o ∈ chain_outputs s predicates, input s' o.1 o.2 = some top) ∧
      chain_output pred s i rows predicates.length front =
        some (rows.filter fun r => predicates.all fun p => pred p r) ∧
      chain_output pred s' i rows predicates.length top =
        chain_output pred s i rows predicates.length front := by
  have hne := length_pos_of_two_le hlen
  obtain ⟨s', hs', -, -, hspec⟩ := reorder_predicates_spec hsort est hne hs hc
  obtain ⟨front, back, hfront, -⟩ := exists_head_getLast hne
  have hperm := reordered_perm hsort est s predicates
  have hqne : reordered sort est s predicates ≠ [] := by
    intro h
    rw [h] at hperm
    exact hne hperm.symm.eq_nil
  obtain ⟨top, -, htop, -⟩ := exists_head_getLast hqne
  have htopmem : top ∈ predicates :=
    hperm.mem_iff.mp (List.mem_of_mem_head? htop)
  have hi : i ∉ predicates := fun hh => hc.input_outside i hh hinp
  have horig : chain_output pred s i rows predicates.length front =
      some (rows.filter fun r => predicates.all fun p => pred p r) := by
    apply chain_output_of_successors pred s i rows predicates hc.nodup hi _ front hfront _ le_rfl
    intro a ha
    have h1 := left_input_of_chain hc a ha
    rw [hinp] at h1
    exact h1
  refine ⟨s', front, top, hs', hfront, htopmem, ?_, horig, ?_⟩
  · intro o ho
    have := hspec o.1 o.2
    rw [if_neg (fun hh => hc.outputs_outside o ho hh.1), if_pos ho, htop] at this
    exact this
  · rw [horig]
    have hnew := chain_output_of_successors pred s' i rows (reordered sort est s predicates)
      (hperm.nodup_iff.mpr hc.nodup) (fun hh => hi (hperm.mem_iff.mp hh))
      (by
        intro a ha
        have h1 := left_input_after_reorder hspec (hperm.mem_iff.mp ha)
        rw [hinp] at h1
        exact h1)
      top htop predicates.length (le_of_eq hperm.length_eq)
    rw [hnew]
    congr 1
    apply List.filter_congr
    intro r _
    exact all_eq_of_perm hperm _

/-- The example table has 100 rows, of which `age < 30` keeps 40, `active = true` keeps 90 and
both together keep 36. -/
theorem person_table_counts :
    person_table.length = 100 ∧ (person_table.filter (person_pred 1)).length = 40 ∧
      (person_table.filter (person_pred 2)).length = 90 ∧
      (person_table.filter fun r => [1, 2].all fun p => person_pred p r).length = 36 := by
  decide

theorem reorder_predicates_row_set_witness :
    ∃ s' front top, _reorder_predicates insertion_sort person_est person_plan [1, 2] = some s' ∧
      [1, 2].head? = some front ∧ top ∈ [1, 2] ∧
      (∀ o ∈ chain_outputs person_plan [1, 2], input s' o.1 o.2 = some top) ∧
      chain_output person_pred person_plan 3 person_table [1, 2].length front =
        some (person_table.filter fun r => [1, 2].all fun p => person_pred p r) ∧
      chain_output person_pred s' 3 person_table [1, 2].length top =
        chain_output person_pred person_plan 3 person_table [1, 2].length front :=
  reorder_predicates_row_set person_pred insertion_sort insertion_sort_contract person_est
    person_plan [1, 2] (by decide) (check_back_refs_sound _ (by decide))
    ⟨by decide, by decide, by decide, by decide, by decide⟩ 3 (by decide) person_table

end opossum


namespace opossum

/-! ## Bottom, top and consumers of the rewritten chain -/

theorem pairwise_head_ge {L : List (Nat × Cardinality)}
    (hsorted : List.Pairwise (fun a b => cardinality_greater b a = false) L)
    {hi : Nat × Cardinality} (hhi : L.head? = some hi) : ∀ e ∈ L, e.2 ≤ hi.2 := by
  cases L with
  | nil => simp at hhi
  | cons x L =>
    simp only [List.head?_cons, Option.some.injEq] at hhi
    subst hhi
    intro e he
    rcases List.mem_cons.mp he with rfl | he
    · exact le_rfl
    · exact (cardinality_greater_eq_false _ _).mp ((List.pairwise_cons.mp hsorted).1 e he)

theorem pairwise_last_le {L : List (Nat × Cardinality)}
    (hsorted : List.Pairwise (fun a b => cardinality_greater b a = false) L)
    {lo : Nat × Cardinality} (hlo : L.getLast? = some lo) : ∀ e ∈ L, lo.2 ≤ e.2 := by
  induction L with
  | nil => simp at hlo
  | cons x L ih =>
    cases L with
    | nil =>
      simp only [List.getLast?_singleton, Option.some.injEq] at hlo
      subst hlo
      intro e he
      rw [List.mem_singleton] at he
      rw [he]
    | cons y rest =>
      rw [List.getLast?_cons_cons] at hlo
      have hp := List.pairwise_cons.mp hsorted
      intro e he
      rcases List.mem_cons.mp he with rfl | he
      · exact (cardinality_greater_eq_false _ _).mp
          (hp.1 lo (List.mem_of_getLast?_eq_some hlo))
      · exact ih hp.2 hlo e he

/-- Who references a chain member after the rewrite: the recorded consumers reference the
head of the sorted vector, every other member is referenced by its predecessor in the sorted
vector through the left slot, and by nobody else. -/
theorem mem_outputs_after_reorder {sort : StdSort} (hsort : StdSortContract sort)
    {est : LQP → Nat → Cardinality} {s s' : LQP} {predicates : List Nat}
    (hs : BackRefsConsistent s) (hc : IsChain s predicates) (hs' : BackRefsConsistent s')
    (hspec : ∀ n sd, input s' n sd =
        if n ∈ predicates ∧ sd = LQPInputSide.Left then
          match successor (reordered sort est s predicates) n with
          | some b => some b
          | none => chain_input s predicates
        else if (n, sd) ∈ chain_outputs s predicates then
          (reordered sort est s predicates).head?
        else input s n sd)
    {q : Nat} (hq : q ∈ predicates) (c : Nat) (sd : LQPInputSide) :
    (c, sd) ∈ (s' q).outputs ↔
      if (reordered sort est s predicates).head? = some q then
        (c, sd) ∈ chain_outputs s predicates
      else sd = LQPInputSide.Left ∧ successor (reordered sort est s predicates) c = some q := by
  have hperm := reordered_perm hsort est s predicates
  have hqnd : (reordered sort est s predicates).Nodup := hperm.nodup_iff.mpr hc.nodup
  rw [(hs' q).2 c sd, hspec]
  have horig : ¬ (c ∈ predicates ∧ sd = LQPInputSide.Left) →
      (c, sd) ∉ chain_outputs s predicates → input s c sd ≠ some q := by
    intro h1 h2 h3
    have hm : (c, sd) ∈ (s q).outputs := ((hs q).2 c sd).mpr h3
    cases predicates with
    | nil => simp at hq
    | cons p0 tail =>
      rcases List.mem_cons.mp hq with rfl | hq'
      · exact h2 (by simpa [chain_outputs] using hm)
      · exact h1 (hc.inner_outputs hs q hq' (c, sd) hm)
  by_cases hA : c ∈ predicates ∧ sd = LQPInputSide.Left
  · have hno : (c, sd) ∉ chain_outputs s predicates := fun h => hc.outputs_outside _ h hA.1
    rw [if_pos hA]
    cases hsucc : successor (reordered sort est s predicates) c with
    | some b =>
      have hb : (reordered sort est s predicates).head? ≠ some b := successor_head_ne hqnd hsucc
      by_cases hbq : b = q
      · subst hbq
        simp [hb, hA.2]
      · have : ¬ (some b = some q) := fun h => hbq (Option.some.inj h)
        split_ifs with hh
        · simp [this, hno]
        · simp [this, hbq]
    | none =>
      have h1 : chain_input s predicates ≠ some q := hc.input_outside q hq
      split_ifs with hh
      · simp [h1, hno]
      · simp [h1]
  · rw [if_neg hA]
    have hsucc : ¬ (sd = LQPInputSide.Left ∧
        successor (reordered sort est s predicates) c = some q) := by
      rintro ⟨h1, h2⟩
      exact hA ⟨hperm.mem_iff.mp (successor_mem h2).1, h1⟩
    by_cases hB : (c, sd) ∈ chain_outputs s predicates
    · rw [if_pos hB]
      split_ifs with hh
      · simp [hh, hB]
      · simp [hh, hsucc]
    · rw [if_neg hB]
      have := horig hA hB
      split_ifs with hh
      · simp [this, hB]
      · simp [this, hsucc]

/-- C3: after `_reorder_predicates` on a chain of length >= 2 there are members `lo` and `hi`
whose recorded estimates are the lowest and the highest of the chain such that `lo` has the
chain's original input as left input, `hi` is the new top (no member has `hi` as left input and
the consumer list of `hi` is, up to order, the recorded consumer list), and every slot that
referenced the old top `front` now references `hi`. -/
theorem reorder_predicates_ends (sort : StdSort) (hsort : StdSortContract sort)
    (est : LQP → Nat → Cardinality) (s : LQP) (predicates : List Nat)
    (hlen : 2 ≤ predicates.length) (hs : BackRefsConsistent s) (hc : IsChain s predicates) :
    ∃ s' front lo hi, _reorder_predicates sort est s predicates = some s' ∧
      predicates.head? = some front ∧
      lo ∈ estimated est s predicates ∧ hi ∈ estimated est s predicates ∧
      (∀ e ∈ estimated est s predicates, lo.2 ≤ e.2 ∧ e.2 ≤ hi.2) ∧
      (s' lo.1).left_input = chain_input s predicates ∧
      (∀ p ∈ predicates, (s' p).left_input ≠ some hi.1) ∧
      List.Perm (s' hi.1).outputs (s front).outputs ∧
      ∀ c side, input s c side = some front → input s' c side = some hi.1 := by
  have hne := length_pos_of_two_le hlen
  obtain ⟨s', hs', hwf', -, hspec⟩ := reorder_predicates_spec hsort est hne hs hc
  obtain ⟨front, back, hfront, -⟩ := exists_head_getLast hne
  have hperm := reordered_perm hsort est s predicates
  have hqnd : (reordered sort est s predicates).Nodup := hperm.nodup_iff.mpr hc.nodup
  have hcontract := hsort (estimated est s predicates)
  have hsne : sort cardinality_greater (estimated est s predicates) ≠ [] := by
    intro h
    have := hperm.length_eq
    unfold reordered at this
    rw [h] at this
    rw [← this] at hlen
    simp at hlen
  obtain ⟨hi, lo, hhi, hlo⟩ := exists_head_getLast hsne
  have hqhead : (reordered sort est s predicates).head? = some hi.1 := by
    unfold reordered
    rw [List.head?_map, hhi]; rfl
  have hqlast : (reordered sort est s predicates).getLast? = some lo.1 := by
    unfold reordered
    rw [List.getLast?_map, hlo]; rfl
  have hlomem : lo ∈ estimated est s predicates :=
    hcontract.1.mem_iff.mp (List.mem_of_getLast?_eq_some hlo)
  have himem : hi ∈ estimated est s predicates :=
    hcontract.1.mem_iff.mp (List.mem_of_mem_head? hhi)
  have hlop := fst_mem_of_mem_estimated est s predicates hlomem
  have hip := fst_mem_of_mem_estimated est s predicates himem
  have houts : chain_outputs s predicates = (s front).outputs := by
    unfold chain_outputs; rw [hfront]
  refine ⟨s', front, lo, hi, hs', hfront, hlomem, himem, ?_, ?_, ?_, ?_, ?_⟩
  · intro e he
    have he' := hcontract.1.mem_iff.mpr he
    exact ⟨pairwise_last_le hcontract.2 hlo e he', pairwise_head_ge hcontract.2 hhi e he'⟩
  · rw [left_input_after_reorder hspec hlop, successor_last hqnd hqlast]
  · intro p hp
    rw [left_input_after_reorder hspec hp]
    cases hsucc : successor (reordered sort est s predicates) p with
    | some b =>
      intro h
      exact successor_head_ne hqnd hsucc (by rw [hqhead]; exact h.symm)
    | none => exact hc.input_outside hi.1 hip
  · rw [List.perm_ext_iff_of_nodup (hwf' hi.1).1 (hs front).1]
    rintro ⟨c, sd⟩
    rw [mem_outputs_after_reorder hsort hs hc hwf' hspec hip, if_pos hqhead, houts]
  · intro c side hcs
    have hmem : (c, side) ∈ chain_outputs s predicates := by
      rw [houts]; exact ((hs front).2 c side).mpr hcs
    rw [hspec, if_neg (fun hh => hc.outputs_outside _ hmem hh.1), if_pos hmem, hqhead]

theorem reorder_predicates_ends_witness :
    ∃ s' front lo hi, _reorder_predicates insertion_sort example_est example_plan [1, 2, 3] =
        some s' ∧
      [1, 2, 3].head? = some front ∧
      lo ∈ estimated example_est example_plan [1, 2, 3] ∧
      hi ∈ estimated example_est example_plan [1, 2, 3] ∧
      (∀ e ∈ estimated example_est example_plan [1, 2, 3], lo.2 ≤ e.2 ∧ e.2 ≤ hi.2) ∧
      (s' lo.1).left_input = chain_input example_plan [1, 2, 3] ∧
      (∀ p ∈ [1, 2, 3], (s' p).left_input ≠ some hi.1) ∧
      List.Perm (s' hi.1).outputs (example_plan front).outputs ∧
      ∀ c side, input example_plan c side = some front → input s' c side = some hi.1 :=
  reorder_predicates_ends insertion_sort insertion_sort_contract example_est example_plan
    [1, 2, 3] (by decide) (check_back_refs_sound _ (by decide))
    ⟨by decide, by decide, by decide, by decide, by decide⟩

end opossum


namespace opossum

/-! ## The gathering loop of `apply_to` -/

theorem not_stops_gathering {s : LQP} {n : Nat} (h : ¬ stops_gathering s n) :
    is_predicate_or_validate (s n).type = true ∧ ¬ (s n).outputs.length > 1 := by
  unfold stops_gathering at h
  push_neg at h
  refine ⟨by simpa using h.1, by simpa using h.2⟩

/-- With enough fuel the loop appends to the vector exactly the nodes of the left path from the
current node up to, and not including, the first node that ends the loop. -/
theorem gather_of_left_path (s : LQP) (chain : List Nat) :
    ∀ (start stop : Nat) (acc : List Nat) (fuel : Nat), IsLeftPath s start chain stop →
      (∀ p ∈ chain, ¬ stops_gathering s p) → stops_gathering s stop → chain.length < fuel →
      gather_predicate_nodes s fuel (some start) acc = some (acc ++ chain) := by
  induction chain with
  | nil =>
    intro start stop acc fuel hpath _ hstop hfuel
    simp only [IsLeftPath] at hpath
    subst hpath
    cases fuel with
    | zero => simp at hfuel
    | succ f =>
      simp only [gather_predicate_nodes, List.append_nil]
      rcases hstop with h | h
      · simp [h]
      · simp [h]
  | cons p rest ih =>
    intro start stop acc fuel hpath hmem hstop hfuel
    simp only [IsLeftPath] at hpath
    obtain ⟨rfl, n, hn, hrest⟩ := hpath
    cases fuel with
    | zero => simp at hfuel
    | succ f =>
      obtain ⟨h1, h2⟩ := not_stops_gathering (hmem p (List.mem_cons_self _ _))
      simp only [gather_predicate_nodes, h1, h2, if_true, if_false, hn]
      rw [ih n stop (acc ++ [p]) f hrest (fun q hq => hmem q (List.mem_cons_of_mem _ hq)) hstop
        (by simpa using hfuel)]
      simp

/-- Whatever the loop returns is the vector it started with, extended by a left path of nodes
that do not end the loop, and the path arrives at a node that ends it. -/
theorem left_path_of_gather (s : LQP) (fuel : Nat) :
    ∀ (start : Nat) (acc result : List Nat),
      gather_predicate_nodes s fuel (some start) acc = some result →
      ∃ chain stop, result = acc ++ chain ∧ IsLeftPath s start chain stop ∧
        (∀ p ∈ chain, ¬ stops_gathering s p) ∧ stops_gathering s stop := by
  induction fuel with
  | zero => intro start acc result h; simp [gather_predicate_nodes] at h
  | succ f ih =>
    intro start acc result h
    simp only [gather_predicate_nodes] at h
    by_cases h1 : is_predicate_or_validate (s start).type = true
    · simp only [h1, if_true] at h
      by_cases h2 : (s start).outputs.length > 1
      · simp only [h2, if_true, Option.some.injEq] at h
        exact ⟨[], start, by simp [h], rfl, by simp, Or.inr h2⟩
      · simp only [h2, if_false] at h
        cases hl : (s start).left_input with
        | none =>
          rw [hl] at h
          cases f <;> simp [gather_predicate_nodes] at h
        | some n =>
          rw [hl] at h
          obtain ⟨chain, stop, hres, hpath, hmem, hstop⟩ := ih n (acc ++ [start]) result h
          refine ⟨start :: chain, stop, by simp [hres], ⟨rfl, n, hl, hpath⟩, ?_, hstop⟩
          intro p hp
          rcases List.mem_cons.mp hp with rfl | hp
          · unfold stops_gathering
            push_neg
            exact ⟨by simp [h1], by omega⟩
          · exact hmem p hp
    · rw [if_neg h1] at h
      simp only [Option.some.injEq] at h
      refine ⟨[], start, by simp [h], rfl, by simp, Or.inl ?_⟩
      simpa using h1

/-- C4: the chain `apply_to` collects from a trigger node is the left path from the trigger up
to the first node that is not a Predicate/Validate node or has more than one consumer; that
node `stop` is not part of the chain, and every member is a Predicate/Validate node with at
most one consumer. -/
theorem gather_predicate_nodes_longest (s : LQP) (trigger stop : Nat) (chain : List Nat)
    (fuel : Nat) (hpath : IsLeftPath s trigger chain stop)
    (hmem : ∀ p ∈ chain, ¬ stops_gathering s p) (hstop : stops_gathering s stop)
    (hfuel : chain.length < fuel) :
    gather_predicate_nodes s fuel (some trigger) [] = some chain ∧ stop ∉ chain ∧
      ∀ p ∈ chain, is_predicate_or_validate (s p).type = true ∧ (s p).outputs.length ≤ 1 := by
  refine ⟨?_, fun h => hmem stop h hstop, ?_⟩
  · have := gather_of_left_path s chain trigger stop [] fuel hpath hmem hstop hfuel
    simpa using this
  · intro p hp
    obtain ⟨h1, h2⟩ := not_stops_gathering (hmem p hp)
    exact ⟨h1, by omega⟩

theorem gather_predicate_nodes_longest_witness :
    gather_predicate_nodes example_plan 4 (some 1) [] = some [1, 2, 3] ∧ 4 ∉ [1, 2, 3] ∧
      ∀ p ∈ [1, 2, 3],
        is_predicate_or_validate (example_plan p).type = true ∧
          (example_plan p).outputs.length ≤ 1 :=
  gather_predicate_nodes_longest example_plan 1 4 [1, 2, 3] 4
    ⟨rfl, 2, rfl, rfl, 3, rfl, rfl, 4, rfl, rfl⟩ (by decide) (Or.inl (by decide)) (by decide)

end opossum


namespace opossum

/-! ## Consumers of the gathered nodes -/

theorem left_path_predecessor (s : LQP) (chain : List Nat) :
    ∀ (start stop : Nat), IsLeftPath s start chain stop →
      ∀ p ∈ chain, p = start ∨ ∃ q, (s q).left_input = some p := by
  induction chain with
  | nil => intro start stop _ p hp; simp at hp
  | cons a rest ih =>
    intro start stop hpath p hp
    simp only [IsLeftPath] at hpath
    obtain ⟨rfl, n, hn, hrest⟩ := hpath
    rcases List.mem_cons.mp hp with rfl | hp
    · exact Or.inl rfl
    · rcases ih n stop hrest p hp with rfl | ⟨q, hq⟩
      · exact Or.inr ⟨a, hn⟩
      · exact Or.inr ⟨q, hq⟩

/-- C5 fails as stated: the plan `root_filter_plan` has consistent back-references, its root 0
is a Predicate node without consumer, and `apply_to` called on the root collects the chain
[0, 1] and reorders it (afterwards node 1 is on top of node 0), although node 0 does not have
exactly one consumer. -/
theorem gathered_root_has_no_consumer :
    BackRefsConsistent root_filter_plan ∧
    gather_predicate_nodes root_filter_plan 3 (some 0) [] = some [0, 1] ∧
    (rewrite_at insertion_sort example_est 3 root_filter_plan 0).map
        (fun r => ((r.1 1).left_input, r.2)) = some (some 0, some (some 2)) ∧
    ¬ ∀ p ∈ [0, 1], (root_filter_plan p).outputs.length = 1 :=
  ⟨check_back_refs_sound _ (by decide), by decide, by decide, by decide⟩

/-- C5, amended: every node of a chain that `apply_to` collects has at most one consumer, and
in a plan with consistent back-references every collected node other than the trigger has
exactly one. -/
theorem gathered_at_most_one_consumer (s : LQP) (fuel trigger : Nat) (chain : List Nat)
    (hs : BackRefsConsistent s)
    (hg : gather_predicate_nodes s fuel (some trigger) [] = some chain) :
    ∀ p ∈ chain, (s p).outputs.length ≤ 1 ∧ (p ≠ trigger → (s p).outputs.length = 1) := by
  obtain ⟨chain', stop, hres, hpath, hmem, -⟩ := left_path_of_gather s fuel trigger [] chain hg
  simp only [List.nil_append] at hres
  subst hres
  intro p hp
  obtain ⟨-, h2⟩ := not_stops_gathering (hmem p hp)
  refine ⟨by omega, fun hne => ?_⟩
  rcases left_path_predecessor s chain trigger stop hpath p hp with h | ⟨q, hq⟩
  · exact absurd h hne
  · have hm : (q, LQPInputSide.Left) ∈ (s p).outputs := ((hs p).2 q LQPInputSide.Left).mpr hq
    have := List.length_pos_of_mem hm
    omega

theorem gathered_at_most_one_consumer_witness :
    (example_plan 1).outputs.length ≤ 1 ∧ (example_plan 2).outputs.length = 1 ∧
      (example_plan 3).outputs.length = 1 :=
  ⟨(gathered_at_most_one_consumer example_plan 4 1 [1, 2, 3]
      (check_back_refs_sound _ (by decide)) (by decide) 1 (by decide)).1,
    (gathered_at_most_one_consumer example_plan 4 1 [1, 2, 3]
      (check_back_refs_sound _ (by decide)) (by decide) 2 (by decide)).2 (by decide),
    (gathered_at_most_one_consumer example_plan 4 1 [1, 2, 3]
      (check_back_refs_sound _ (by decide)) (by decide) 3 (by decide)).2 (by decide)⟩

/-! ## Chains with fewer than two members -/

/-- C6: when the trigger is no Predicate/Validate node, or the chain collected from it has fewer
than 2 members, `apply_to` rewrites nothing at the node: the plan handed to `_apply_to_inputs`
is the plan `apply_to` was called with, and line 49 is not executed. -/
theorem apply_to_short_chain (sort : StdSort) (est : LQP → Nat → Cardinality) (fuel : Nat)
    (s : LQP) (node : Nat)
    (h : is_predicate_or_validate (s node).type = false ∨
      ∃ chain, gather_predicate_nodes s (fuel + 1) (some node) [] = some chain ∧
        chain.length < 2) :
    rewrite_at sort est (fuel + 1) s node = some (s, none) ∧
      apply_to sort est (fuel + 1) s node =
        _apply_to_inputs (fun st n => apply_to sort est fuel st n) s node := by
  have hr : rewrite_at sort est (fuel + 1) s node = some (s, none) := by
    unfold rewrite_at
    rcases h with h | ⟨chain, hg, hlen⟩
    · simp [h]
    · rw [hg]
      have : ¬ chain.length > 1 := by omega
      simp only [this, if_false]
      split_ifs <;> rfl
  refine ⟨hr, ?_⟩
  rw [apply_to, hr]

theorem apply_to_short_chain_witness :
    rewrite_at insertion_sort example_est (1 + 1) example_plan 3 = some (example_plan, none) ∧
      apply_to insertion_sort example_est (1 + 1) example_plan 3 =
        _apply_to_inputs (fun st n => apply_to insertion_sort example_est 1 st n)
          example_plan 3 :=
  apply_to_short_chain insertion_sort example_est 1 example_plan 3
    (Or.inr ⟨[3], by decide, by decide⟩)

end opossum


namespace opossum

/-! ## What `std::sort` leaves open: members with equal estimates -/

theorem reversed_insertion_sort_contract : StdSortContract reversed_insertion_sort := by
  intro l
  obtain ⟨h1, h2⟩ := insertion_sort_contract l.reverse
  exact ⟨h1.trans (List.reverse_perm l), h2⟩

/-- Two vectors with the same entries, both sorted for the comparator of line 86, carry the same
sequence of cardinalities. -/
theorem sorted_cardinalities_unique {L₁ L₂ : List (Nat × Cardinality)} (hp : List.Perm L₁ L₂)
    (h₁ : List.Pairwise (fun a b => cardinality_greater b a = false) L₁)
    (h₂ : List.Pairwise (fun a b => cardinality_greater b a = false) L₂) :
    L₁.map Prod.snd = L₂.map Prod.snd := by
  have key : ∀ L : List (Nat × Cardinality),
      List.Pairwise (fun a b => cardinality_greater b a = false) L →
      List.Sorted (fun x y : Cardinality => y ≤ x) (L.map Prod.snd) := by
    intro L hL
    unfold List.Sorted
    rw [List.pairwise_map]
    exact hL.imp fun {a b} h => (cardinality_greater_eq_false a b).mp h
  haveI : IsAntisymm Cardinality (fun x y => y ≤ x) := ⟨fun _ _ h1 h2 => le_antisymm h2 h1⟩
  exact List.eq_of_perm_of_sorted (hp.map Prod.snd) (key L₁ h₁) (key L₂ h₂)

/-- Two vectors with the same entries, both sorted for the comparator of line 86, are equal when
no two entries carry the same cardinality. -/
theorem sorted_unique_of_no_ties {L₁ L₂ : List (Nat × Cardinality)} (hp : List.Perm L₁ L₂)
    (h₁ : List.Pairwise (fun a b => cardinality_greater b a = false) L₁)
    (h₂ : List.Pairwise (fun a b => cardinality_greater b a = false) L₂)
    (hties : (L₁.map Prod.snd).Nodup) : L₁ = L₂ := by
  have hties₂ : (L₂.map Prod.snd).Nodup := (hp.map Prod.snd).nodup_iff.mp hties
  have key : ∀ L : List (Nat × Cardinality),
      List.Pairwise (fun a b => cardinality_greater b a = false) L →
      (L.map Prod.snd).Nodup →
      List.Sorted (fun a b : Nat × Cardinality => b.2 ≤ a.2 ∧ (a.2 = b.2 → a = b)) L := by
    intro L hL hnd
    unfold List.Nodup at hnd
    rw [List.pairwise_map] at hnd
    exact (hL.and hnd).imp fun {a b} h =>
      ⟨(cardinality_greater_eq_false a b).mp h.1, fun he => absurd he h.2⟩
  haveI : IsAntisymm (Nat × Cardinality) (fun a b => b.2 ≤ a.2 ∧ (a.2 = b.2 → a = b)) :=
    ⟨fun _ _ h1 h2 => h1.2 (le_antisymm h2.1 h1.1)⟩
  exact List.eq_of_perm_of_sorted hp (key L₁ h₁ hties) (key L₂ h₂ hties₂)

/-- C8 fails as stated: `reversed_insertion_sort` does everything `std::sort` promises, and with
it the chain 1, 2 of `person_plan`, whose members tie at 5 rows, comes out as 2, 1 (node 2 on
top, node 1 below it), so the tied members do not keep their original order; with
`insertion_sort` the same chain and estimates come out as 1, 2. -/
theorem ties_not_stable :
    StdSortContract reversed_insertion_sort ∧ StdSortContract insertion_sort ∧
    estimated tied_est person_plan [1, 2] = [(1, 5), (2, 5)] ∧
    reordered reversed_insertion_sort tied_est person_plan [1, 2] = [2, 1] ∧
    reordered insertion_sort tied_est person_plan [1, 2] = [1, 2] ∧
    (_reorder_predicates reversed_insertion_sort tied_est person_plan [1, 2]).map
        (fun s' => ((s' 0).left_input, (s' 2).left_input, (s' 1).left_input)) =
      some (some 2, some 1, some 3) ∧
    (_reorder_predicates insertion_sort tied_est person_plan [1, 2]).map
        (fun s' => ((s' 0).left_input, (s' 1).left_input, (s' 2).left_input)) =
      some (some 1, some 2, some 3) :=
  ⟨reversed_insertion_sort_contract, insertion_sort_contract, by decide, by decide, by decide,
    by decide, by decide⟩

/-- C8, amended: members with equal estimates are left in whatever order `std::sort` puts them.
For any two conforming sorting routines the rewritten chain is a permutation of the members, the
sequence of estimates from top to bottom is the same, and when no two members have equal
estimates the resulting plan is the same (a function of the chain and the estimates alone). -/
theorem reorder_predicates_ties (sort sort' : StdSort) (hsort : StdSortContract sort)
    (hsort' : StdSortContract sort') (est : LQP → Nat → Cardinality) (s : LQP)
    (predicates : List Nat) :
    List.Perm (reordered sort est s predicates) predicates ∧
    (sort cardinality_greater (estimated est s predicates)).map Prod.snd =
      (sort' cardinality_greater (estimated est s predicates)).map Prod.snd ∧
    (((estimated est s predicates).map Prod.snd).Nodup →
      _reorder_predicates sort est s predicates = _reorder_predicates sort' est s predicates) := by
  have h := hsort (estimated est s predicates)
  have h' := hsort' (estimated est s predicates)
  refine ⟨reordered_perm hsort est s predicates,
    sorted_cardinalities_unique (h.1.trans h'.1.symm) h.2 h'.2, ?_⟩
  intro hties
  have heq : sort cardinality_greater (estimated est s predicates) =
      sort' cardinality_greater (estimated est s predicates) :=
    sorted_unique_of_no_ties (h.1.trans h'.1.symm) h.2 h'.2
      ((h.1.map Prod.snd).nodup_iff.mpr hties)
  cases hb : predicates.getLast? with
  | none => simp [_reorder_predicates, hb]
  | some back =>
    rw [estimated_eq est s predicates back hb] at heq
    cases hf : predicates.head? with
    | none => simp [_reorder_predicates, hb, hf]
    | some front => simp only [_reorder_predicates, hb, hf, heq]

theorem reorder_predicates_ties_witness :
    List.Perm (reordered insertion_sort example_est example_plan [1, 2, 3]) [1, 2, 3] ∧
    (insertion_sort cardinality_greater (estimated example_est example_plan [1, 2, 3])).map
        Prod.snd =
      (reversed_insertion_sort cardinality_greater
        (estimated example_est example_plan [1, 2, 3])).map Prod.snd ∧
    _reorder_predicates insertion_sort example_est example_plan [1, 2, 3] =
      _reorder_predicates reversed_insertion_sort example_est example_plan [1, 2, 3] :=
  ⟨(reorder_predicates_ties insertion_sort reversed_insertion_sort insertion_sort_contract
      reversed_insertion_sort_contract example_est example_plan [1, 2, 3]).1,
    (reorder_predicates_ties insertion_sort reversed_insertion_sort insertion_sort_contract
      reversed_insertion_sort_contract example_est example_plan [1, 2, 3]).2.1,
    (reorder_predicates_ties insertion_sort reversed_insertion_sort insertion_sort_contract
      reversed_insertion_sort_contract example_est example_plan [1, 2, 3]).2.2 (by decide)⟩

end opossum


namespace opossum

/-! ## Idempotence -/

theorem outputs_perm_of_input_eq {s s' : LQP} (hs : BackRefsConsistent s)
    (hs' : BackRefsConsistent s') (h : ∀ n sd, input s' n sd = input s n sd) (n : Nat) :
    List.Perm (s' n).outputs (s n).outputs := by
  rw [List.perm_ext_iff_of_nodup (hs' n).1 (hs n).1]
  rintro ⟨c, sd⟩
  rw [(hs' n).2, (hs n).2, h]

/-- When the recorded estimates are already in sorted order and no two of them are equal,
`_reorder_predicates` puts every slot back to what it was. -/
theorem reorder_unchanged_of_sorted {sort : StdSort} (hsort : StdSortContract sort)
    (est : LQP → Nat → Cardinality) {s : LQP} {predicates : List Nat} (hne : predicates ≠ [])
    (hs : BackRefsConsistent s) (hc : IsChain s predicates)
    (hsorted : List.Pairwise (fun a b => cardinality_greater b a = false)
      (estimated est s predicates))
    (hties : ((estimated est s predicates).map Prod.snd).Nodup) :
    ∃ s', _reorder_predicates sort est s predicates = some s' ∧
      BackRefsConsistent s' ∧
      reordered sort est s predicates = predicates ∧
      (∀ n sd, input s' n sd = input s n sd) ∧
      (∀ n, (s' n).type = (s n).type) ∧
      ∀ n, List.Perm (s' n).outputs (s n).outputs := by
  obtain ⟨s', hs', hwf', htype, hspec⟩ := reorder_predicates_spec hsort est hne hs hc
  have hcontract := hsort (estimated est s predicates)
  have hfix : sort cardinality_greater (estimated est s predicates) =
      estimated est s predicates :=
    sorted_unique_of_no_ties hcontract.1 hcontract.2 hsorted
      ((hcontract.1.map Prod.snd).nodup_iff.mpr hties)
  have hre : reordered sort est s predicates = predicates := by
    unfold reordered
    rw [hfix, estimated_map_fst]
  have hin : ∀ n sd, input s' n sd = input s n sd := by
    intro n sd
    rw [hspec, hre]
    by_cases hA : n ∈ predicates ∧ sd = LQPInputSide.Left
    · rw [if_pos hA, hA.2]
      exact (left_input_of_chain hc n hA.1).symm
    · rw [if_neg hA]
      by_cases hB : (n, sd) ∈ chain_outputs s predicates
      · rw [if_pos hB]
        obtain ⟨front, back, hfront, -⟩ := exists_head_getLast hne
        simp only [chain_outputs, hfront] at hB
        rw [hfront]
        exact (((hs front).2 n sd).mp hB).symm
      · rw [if_neg hB]
  exact ⟨s', hs', hwf', hre, hin, htype, outputs_perm_of_input_eq hs hwf' hin⟩

theorem pairwise_of_strict {L : List (Nat × Cardinality)}
    (h : List.Pairwise (fun a b => b.2 < a.2) L) :
    List.Pairwise (fun a b => cardinality_greater b a = false) L ∧ (L.map Prod.snd).Nodup := by
  refine ⟨h.imp fun {a b} hab => (cardinality_greater_eq_false a b).mpr (le_of_lt hab), ?_⟩
  unfold List.Nodup
  rw [List.pairwise_map]
  exact h.imp fun {a b} hab => ne_of_gt hab

/-- The rewritten chain is again a chain of the plan. -/
theorem isChain_after_reorder {sort : StdSort} (hsort : StdSortContract sort)
    {est : LQP → Nat → Cardinality} {s s' : LQP} {predicates : List Nat}
    (hne : predicates ≠ []) (hs : BackRefsConsistent s) (hc : IsChain s predicates)
    (hs' : BackRefsConsistent s')
    (hspec : ∀ n sd, input s' n sd =
        if n ∈ predicates ∧ sd = LQPInputSide.Left then
          match successor (reordered sort est s predicates) n with
          | some b => some b
          | none => chain_input s predicates
        else if (n, sd) ∈ chain_outputs s predicates then
          (reordered sort est s predicates).head?
        else input s n sd) :
    IsChain s' (reordered sort est s predicates) ∧
      chain_input s' (reordered sort est s predicates) = chain_input s predicates := by
  have hperm := reordered_perm hsort est s predicates
  have hqnd : (reordered sort est s predicates).Nodup := hperm.nodup_iff.mpr hc.nodup
  have hqne : reordered sort est s predicates ≠ [] := by
    intro h
    rw [h] at hperm
    exact hne hperm.symm.eq_nil
  obtain ⟨hi, lo, hhi, hlo⟩ := exists_head_getLast hqne
  have hlop : lo ∈ predicates := hperm.mem_iff.mp (List.mem_of_getLast?_eq_some hlo)
  have hip : hi ∈ predicates := hperm.mem_iff.mp (List.mem_of_mem_head? hhi)
  have hinp : chain_input s' (reordered sort est s predicates) = chain_input s predicates := by
    simp only [chain_input, hlo]
    have := left_input_after_reorder hspec hlop
    rw [successor_last hqnd hlo] at this
    simpa [chain_input] using this
  refine ⟨⟨?_, ?_, hqnd, ?_, ?_⟩, hinp⟩
  · intro a ha b _ hsucc
    rw [left_input_after_reorder hspec (hperm.mem_iff.mp ha), hsucc]
  · intro p hp
    have hpm : p ∈ predicates := hperm.mem_iff.mp (List.mem_of_mem_tail hp)
    have hnh : (reordered sort est s predicates).head? ≠ some p := by
      intro h
      cases hq : reordered sort est s predicates with
      | nil => rw [hq] at hp; simp at hp
      | cons a l =>
        rw [hq] at hp h hqnd
        simp only [List.head?_cons, Option.some.injEq] at h
        subst h
        exact (List.nodup_cons.mp hqnd).1 hp
    have hall : ∀ x ∈ (s' p).outputs, ∀ y ∈ (s' p).outputs, x = y := by
      rintro ⟨c, sd⟩ hx ⟨c', sd'⟩ hy
      rw [mem_outputs_after_reorder hsort hs hc hs' hspec hpm, if_neg hnh] at hx hy
      rw [hx.1, hy.1, successor_injective hqnd hx.2 hy.2]
    match hout : (s' p).outputs, hall, (hs' p).1 with
    | [], _, _ => simp
    | [_], _, _ => simp
    | x :: y :: l, hall, hndp =>
      have := hall x (List.mem_cons_self _ _) y (List.mem_cons_of_mem _ (List.mem_cons_self _ _))
      subst this
      simp at hndp
  · intro p hp
    rw [hinp]
    exact hc.input_outside p (hperm.mem_iff.mp hp)
  · intro o ho hmem
    simp only [chain_outputs, hhi] at ho
    rw [mem_outputs_after_reorder hsort hs hc hs' hspec hip, if_pos hhi] at ho
    exact hc.outputs_outside o ho (hperm.mem_iff.mp hmem)

/-- Two runs of the estimation loop over the same vector record the same estimates when the
estimator's answer for a node depends only on the node and on what it is attached to. -/
theorem estimate_predicates_congr (est : LQP → Nat → Cardinality)
    (hest : ∀ st st' p, (st p).left_input = (st' p).left_input → est st p = est st' p)
    (inp : Option Nat) (l : List Nat) :
    ∀ s s' : LQP, (estimate_predicates est inp s l).2 = (estimate_predicates est inp s' l).2 := by
  induction l with
  | nil => intro s s'; rfl
  | cons p l ih =>
    intro s s'
    simp only [estimate_predicates]
    rw [ih (set_input s p LQPInputSide.Left inp) (set_input s' p LQPInputSide.Left inp)]
    congr 2
    apply hest
    have h1 := input_set_input s p LQPInputSide.Left inp p LQPInputSide.Left
    have h2 := input_set_input s' p LQPInputSide.Left inp p LQPInputSide.Left
    simp only [input, and_self, if_true] at h1 h2
    rw [h1, h2]

/-- The estimation loop records, entry by entry, a cardinality that does not depend on the
other entries of the vector. -/
theorem estimate_predicates_pointwise (est : LQP → Nat → Cardinality)
    (hest : ∀ st st' p, (st p).left_input = (st' p).left_input → est st p = est st' p)
    (inp : Option Nat) (l : List Nat) (s : LQP) :
    (estimate_predicates est inp s l).2 =
      l.map fun p => (p, est (set_input s p LQPInputSide.Left inp) p) := by
  induction l generalizing s with
  | nil => rfl
  | cons p l ih =>
    simp only [estimate_predicates, List.map_cons]
    rw [ih]
    congr 1
    apply List.map_congr_left
    intro q _
    congr 1
    apply hest
    have h1 := input_set_input (set_input s p LQPInputSide.Left inp) q LQPInputSide.Left inp q
      LQPInputSide.Left
    have h2 := input_set_input s q LQPInputSide.Left inp q LQPInputSide.Left
    simp only [input, and_self, if_true] at h1 h2
    rw [h1, h2]

end opossum


namespace opossum

/-- Under an estimator whose answer depends only on the node and on what it is attached to, the
estimates recorded for the rewritten chain are the sorted vector of the first run. -/
theorem estimated_after_reorder {sort : StdSort} (hsort : StdSortContract sort)
    (est : LQP → Nat → Cardinality)
    (hest : ∀ st st' p, (st p).left_input = (st' p).left_input → est st p = est st' p)
    (s s' : LQP) (predicates : List Nat)
    (hinp : chain_input s' (reordered sort est s predicates) = chain_input s predicates) :
    estimated est s' (reordered sort est s predicates) =
      sort cardinality_greater (estimated est s predicates) := by
  have hcontract := hsort (estimated est s predicates)
  have hg : ∀ p, est (set_input s' p LQPInputSide.Left (chain_input s predicates)) p =
      est (set_input s p LQPInputSide.Left (chain_input s predicates)) p := by
    intro p
    apply hest
    have h1 := input_set_input s' p LQPInputSide.Left (chain_input s predicates) p
      LQPInputSide.Left
    have h2 := input_set_input s p LQPInputSide.Left (chain_input s predicates) p
      LQPInputSide.Left
    simp only [input, and_self, if_true] at h1 h2
    rw [h1, h2]
  have hL : estimated est s predicates = predicates.map fun p =>
      (p, est (set_input s p LQPInputSide.Left (chain_input s predicates)) p) :=
    estimate_predicates_pointwise est hest _ predicates s
  have hentry : ∀ e ∈ sort cardinality_greater (estimated est s predicates),
      e = (e.1, est (set_input s e.1 LQPInputSide.Left (chain_input s predicates)) e.1) := by
    intro e he
    have := hcontract.1.mem_iff.mp he
    rw [hL, List.mem_map] at this
    obtain ⟨p, -, rfl⟩ := this
    rfl
  have hM : estimated est s' (reordered sort est s predicates) =
      (reordered sort est s predicates).map fun p =>
        (p, est (set_input s p LQPInputSide.Left (chain_input s predicates)) p) := by
    unfold estimated
    rw [hinp, estimate_predicates_pointwise est hest]
    apply List.map_congr_left
    intro p _
    rw [hg]
  rw [hM]
  unfold reordered
  rw [List.map_map]
  conv_rhs => rw [← List.map_id (sort cardinality_greater (estimated est s predicates))]
  apply List.map_congr_left
  intro e he
  exact (hentry e he).symm

/-- C7 fails as stated: with the conforming routine `reversed_insertion_sort` the chain 1, 2, 3
of `example_plan`, whose recorded estimates 90, 50, 50 are already in sorted order (every
estimate is <= the one above it), comes out as 1, 3, 2: node 1 gets node 3 as left input
instead of node 2. -/
theorem sorted_chain_with_ties_changes :
    StdSortContract reversed_insertion_sort ∧
    BackRefsConsistent example_plan ∧ IsChain example_plan [1, 2, 3] ∧
    estimated sorted_tied_est example_plan [1, 2, 3] = [(1, 90), (2, 50), (3, 50)] ∧
    List.Pairwise (fun a b => b.2 ≤ a.2) (estimated sorted_tied_est example_plan [1, 2, 3]) ∧
    reordered reversed_insertion_sort sorted_tied_est example_plan [1, 2, 3] = [1, 3, 2] ∧
    (example_plan 1).left_input = some 2 ∧
    (_reorder_predicates reversed_insertion_sort sorted_tied_est example_plan [1, 2, 3]).map
        (fun s' => (s' 1).left_input) = some (some 3) :=
  ⟨reversed_insertion_sort_contract, check_back_refs_sound _ (by decide),
    ⟨by decide, by decide, by decide, by decide, by decide⟩, by decide, by decide, by decide,
    by decide, by decide⟩

/-- C7, amended: (1) for every chain whose recorded estimates are already in strictly decreasing
order from the top (no two equal), `_reorder_predicates` leaves the order of the chain's nodes,
every input slot and every kind tag unchanged, and every consumer list unchanged up to the order
of its entries; (2) consequently, when no two members have equal estimates and the estimator's
answer for a node depends only on the node and on what it is attached to, running
`_reorder_predicates` a second time on the rewritten chain changes nothing in that sense. -/
theorem reorder_predicates_idempotent (sort : StdSort) (hsort : StdSortContract sort)
    (est : LQP → Nat → Cardinality) (s : LQP) (predicates : List Nat)
    (hlen : 2 ≤ predicates.length) (hs : BackRefsConsistent s) (hc : IsChain s predicates) :
    (List.Pairwise (fun a b => b.2 < a.2) (estimated est s predicates) →
      ∃ s', _reorder_predicates sort est s predicates = some s' ∧
        reordered sort est s predicates = predicates ∧
        (∀ n sd, input s' n sd = input s n sd) ∧
        (∀ n, (s' n).type = (s n).type) ∧
        ∀ n, List.Perm (s' n).outputs (s n).outputs) ∧
    ((∀ st st' p, (st p).left_input = (st' p).left_input → est st p = est st' p) →
      ((estimated est s predicates).map Prod.snd).Nodup →
      ∃ s₁ s₂, _reorder_predicates sort est s predicates = some s₁ ∧
        _reorder_predicates sort est s₁ (reordered sort est s predicates) = some s₂ ∧
        reordered sort est s₁ (reordered sort est s predicates) =
          reordered sort est s predicates ∧
        (∀ n sd, input s₂ n sd = input s₁ n sd) ∧
        (∀ n, (s₂ n).type = (s₁ n).type) ∧
        ∀ n, List.Perm (s₂ n).outputs (s₁ n).outputs) := by
  have hne := length_pos_of_two_le hlen
  refine ⟨fun hstrict => ?_, fun hest hties => ?_⟩
  · obtain ⟨h1, h2⟩ := pairwise_of_strict hstrict
    obtain ⟨s', hs', -, hre, hin, hty, hout⟩ := reorder_unchanged_of_sorted hsort est hne hs hc h1 h2
    exact ⟨s', hs', hre, hin, hty, hout⟩
  · obtain ⟨s₁, hs₁, hwf₁, -, hspec⟩ := reorder_predicates_spec hsort est hne hs hc
    obtain ⟨hc₁, hinp⟩ := isChain_after_reorder hsort hne hs hc hwf₁ hspec
    have hperm := reordered_perm hsort est s predicates
    have hqne : reordered sort est s predicates ≠ [] := by
      intro h
      rw [h] at hperm
      exact hne hperm.symm.eq_nil
    have hcontract := hsort (estimated est s predicates)
    have hM := estimated_after_reorder hsort est hest s s₁ predicates hinp
    have hsorted : List.Pairwise (fun a b => cardinality_greater b a = false)
        (estimated est s₁ (reordered sort est s predicates)) := by
      rw [hM]; exact hcontract.2
    have hties' : ((estimated est s₁ (reordered sort est s predicates)).map Prod.snd).Nodup := by
      rw [hM]; exact (hcontract.1.map Prod.snd).nodup_iff.mpr hties
    obtain ⟨s₂, hs₂, -, hre, hin, hty, hout⟩ :=
      reorder_unchanged_of_sorted hsort est hqne hwf₁ hc₁ hsorted hties'
    exact ⟨s₁, s₂, hs₁, hs₂, hre, hin, hty, hout⟩

theorem reorder_predicates_idempotent_witness :
    (∃ s', _reorder_predicates insertion_sort sorted_est example_plan [1, 2, 3] = some s' ∧
        reordered insertion_sort sorted_est example_plan [1, 2, 3] = [1, 2, 3] ∧
        (∀ n sd, input s' n sd = input example_plan n sd) ∧
        (∀ n, (s' n).type = (example_plan n).type) ∧
        ∀ n, List.Perm (s' n).outputs (example_plan n).outputs) ∧
    (∃ s₁ s₂, _reorder_predicates insertion_sort sorted_est example_plan [1, 2, 3] = some s₁ ∧
        _reorder_predicates insertion_sort sorted_est s₁
          (reordered insertion_sort sorted_est example_plan [1, 2, 3]) = some s₂ ∧
        reordered insertion_sort sorted_est s₁
            (reordered insertion_sort sorted_est example_plan [1, 2, 3]) =
          reordered insertion_sort sorted_est example_plan [1, 2, 3] ∧
        (∀ n sd, input s₂ n sd = input s₁ n sd) ∧
        (∀ n, (s₂ n).type = (s₁ n).type) ∧
        ∀ n, List.Perm (s₂ n).outputs (s₁ n).outputs) :=
  ⟨(reorder_predicates_idempotent insertion_sort insertion_sort_contract sorted_est example_plan
      [1, 2, 3] (by decide) (check_back_refs_sound _ (by decide))
      ⟨by decide, by decide, by decide, by decide, by decide⟩).1 (by decide),
    (reorder_predicates_idempotent insertion_sort insertion_sort_contract sorted_est example_plan
      [1, 2, 3] (by decide) (check_back_refs_sound _ (by decide))
      ⟨by decide, by decide, by decide, by decide, by decide⟩).2 (fun _ _ _ _ => rfl)
      (by decide)⟩

end opossum


namespace opossum

/-! ## The cost cache -/

theorem length_le_of_nodup_lt {l : List Nat} {size : Nat} (hnd : l.Nodup)
    (hlt : ∀ x ∈ l, x < size) : l.length ≤ size := by
  have hsub : l ⊆ List.range size := fun x hx => List.mem_range.mpr (hlt x hx)
  have := (List.subperm_of_subset hnd hsub).length_le
  simpa using this

theorem inputs_below_spec {s : LQP} {size : Nat} (h : inputs_below s size = true) {n m : Nat}
    (hn : n < size) :
    ((s n).left_input = some m → m < size) ∧ ((s n).right_input = some m → m < size) := by
  unfold inputs_below at h
  rw [List.all_eq_true] at h
  have := h n (List.mem_range.mpr hn)
  simp only [Bool.and_eq_true] at this
  constructor
  · intro hl
    have h1 := this.1
    rw [hl] at h1
    simpa using h1
  · intro hr
    have h2 := this.2
    rw [hr] at h2
    simpa using h2

/-- The traversal comes to an end: on a plan whose first `size` identities are closed under
taking inputs, `2 * (size - visited) + queue` iterations are enough. -/
theorem sum_node_costs_terminates (node_cost : LQP → Nat → Cost) {s : LQP} {size : Nat}
    (hclosed : inputs_below s size = true) :
    ∀ (fuel : Nat) (queue : List (Option Nat)) (visited : List Nat) (cost : Cost) (calls : Nat),
      (∀ m, some m ∈ queue → m < size) → visited.Nodup → (∀ v ∈ visited, v < size) →
      2 * (size - visited.length) + queue.length ≤ fuel →
      ∃ r, sum_node_costs node_cost s fuel queue visited cost calls = some r := by
  intro fuel
  induction fuel with
  | zero =>
    intro queue visited cost calls _ _ _ hfuel
    have : queue = [] := by
      cases queue with
      | nil => rfl
      | cons a l => simp at hfuel
    subst this
    exact ⟨(cost, calls), by simp [sum_node_costs]⟩
  | succ f ih =>
    intro queue visited cost calls hq hnd hv hfuel
    cases queue with
    | nil => exact ⟨(cost, calls), by simp [sum_node_costs]⟩
    | cons a rest =>
      have hrest : ∀ m, some m ∈ rest → m < size := fun m hm => hq m (List.mem_cons_of_mem _ hm)
      simp only [List.length_cons] at hfuel
      cases a with
      | none =>
        simp only [sum_node_costs]
        exact ih rest visited cost calls hrest hnd hv (by omega)
      | some n =>
        simp only [sum_node_costs]
        by_cases hn : n ∈ visited
        · rw [if_pos hn]
          exact ih rest visited cost calls hrest hnd hv (by omega)
        · rw [if_neg hn]
          have hnlt : n < size := hq n (List.mem_cons_self _ _)
          have hnd' : (n :: visited).Nodup := List.nodup_cons.mpr ⟨hn, hnd⟩
          have hv' : ∀ v ∈ n :: visited, v < size := by
            intro v hvm
            rcases List.mem_cons.mp hvm with rfl | hvm
            · exact hnlt
            · exact hv v hvm
          have hlen := length_le_of_nodup_lt hnd' hv'
          simp only [List.length_cons] at hlen
          apply ih _ _ _ _ _ hnd' hv'
          · simp only [List.length_cons, List.length_append, List.length_nil]
            omega
          · intro m hm
            rcases List.mem_append.mp hm with hm | hm
            · exact hrest m hm
            · have hb := inputs_below_spec (m := m) hclosed hnlt
              simp only [List.mem_cons, List.mem_singleton, List.not_mem_nil, or_false] at hm
              rcases hm with hm | hm
              · exact hb.1 hm.symm
              · exact hb.2 hm.symm

/-- C10: after `guarantee_bottom_up_construction()`, on a plan of `size` nodes and for every
root of it, the first `estimate_plan_cost` returns a value `v`, and a second call on the same
root returns the same `v` and leaves the estimator as it was, so it makes zero calls of
`estimate_node_cost`: the result comes from the cost cache, whatever the fuel. -/
theorem estimate_plan_cost_cached (node_cost : LQP → Nat → Cost) (s : LQP) (size : Nat)
    (e : CostEstimator) (root fuel : Nat) (hclosed : inputs_below s size = true)
    (hroot : root < size) (hfuel : 2 * size + 1 ≤ fuel) :
    ∃ v e₁, estimate_plan_cost node_cost s fuel (guarantee_bottom_up_construction e) root =
        some (v, e₁) ∧
      ∀ fuel', ∃ e₂, estimate_plan_cost node_cost s fuel' e₁ root = some (v, e₂) ∧
        e₂.node_cost_calls = e₁.node_cost_calls := by
  obtain ⟨r, hr⟩ := sum_node_costs_terminates node_cost hclosed fuel [some root] [] 0
    e.node_cost_calls
    (by
      intro m hm
      simp only [List.mem_singleton, Option.some.injEq] at hm
      rw [hm]; exact hroot)
    List.nodup_nil (by simp) (by simpa using hfuel)
  refine ⟨r.1, { cost_estimation_cache := ⟨some [(root, r.1)]⟩, node_cost_calls := r.2 }, ?_, ?_⟩
  · simp [estimate_plan_cost, guarantee_bottom_up_construction, hr, List.lookup]
  · intro fuel'
    refine ⟨_, ?_, rfl⟩
    simp [estimate_plan_cost, List.lookup]

theorem estimate_plan_cost_cached_witness :
    ∃ v e₁, estimate_plan_cost example_node_cost example_plan 11
        (guarantee_bottom_up_construction ⟨⟨none⟩, 0⟩) 0 = some (v, e₁) ∧
      ∀ fuel', ∃ e₂, estimate_plan_cost example_node_cost example_plan fuel' e₁ 0 =
          some (v, e₂) ∧
        e₂.node_cost_calls = e₁.node_cost_calls :=
  estimate_plan_cost_cached example_node_cost example_plan 5 ⟨⟨none⟩, 0⟩ 0 11 (by decide)
    (by decide) (by decide)

end opossum


namespace opossum

/-! ## Linear plans -/

theorem successor_append {l₁ l₂ : List Nat} (hnd : (l₁ ++ l₂).Nodup) (x : Nat) :
    successor (l₁ ++ l₂) x =
      if x ∈ l₁ then
        match successor l₁ x with
        | some b => some b
        | none => l₂.head?
      else successor l₂ x := by
  induction l₁ with
  | nil => simp
  | cons a l ih =>
    have hnd' : a ∉ l ++ l₂ ∧ (l ++ l₂).Nodup := List.nodup_cons.mp hnd
    have ih' := ih hnd'.2
    cases l with
    | nil =>
      simp only [List.nil_append, List.not_mem_nil, if_false] at ih'
      by_cases hxa : x = a
      · subst hxa
        cases l₂ with
        | nil => simp [successor]
        | cons b l₂' => simp [successor]
      · have : x ∉ [a] := by simpa using hxa
        rw [if_neg this]
        exact successor_cons_of_ne hxa
    | cons b l' =>
      by_cases hxa : x = a
      · subst hxa
        simp [successor]
      · have h1 : successor ((a :: b :: l') ++ l₂) x = successor ((b :: l') ++ l₂) x :=
          successor_cons_of_ne hxa
        have h2 : successor (a :: b :: l') x = successor (b :: l') x :=
          successor_cons_of_ne hxa
        rw [h1, h2, ih']
        have : x ∈ a :: b :: l' ↔ x ∈ b :: l' := by
          constructor
          · intro h
            rcases List.mem_cons.mp h with h | h
            · exact absurd h hxa
            · exact h
          · exact List.mem_cons_of_mem _
        simp only [this]

theorem mem_tail_iff {l : List Nat} (hnd : l.Nodup) (x : Nat) :
    x ∈ l.tail ↔ x ∈ l ∧ l.head? ≠ some x := by
  cases l with
  | nil => simp
  | cons a l =>
    simp only [List.tail_cons, List.mem_cons, List.head?_cons, ne_eq, Option.some.injEq]
    have := (List.nodup_cons.mp hnd).1
    constructor
    · intro h
      exact ⟨Or.inr h, fun hh => this (hh ▸ h)⟩
    · rintro ⟨h | h, hne⟩
      · exact absurd h.symm hne
      · exact h

/-- On a spine a slot references a node of the spine only if it is the left slot of the node's
predecessor, or the node is the top of the spine. -/
theorem IsSpine.reference {s : LQP} {spine : List Nat} (h : IsSpine s spine) {c x : Nat}
    {sd : LQPInputSide} (hx : x ∈ spine.tail) (hc : input s c sd = some x) :
    c ∈ spine ∧ sd = LQPInputSide.Left ∧ successor spine c = some x := by
  have hm : (c, sd) ∈ (s x).outputs := ((h.wf x).2 c sd).mpr hc
  have hcs : c ∈ spine := h.inner x hx (c, sd) hm
  cases sd with
  | Left =>
    refine ⟨hcs, rfl, ?_⟩
    rw [← h.left c hcs]
    exact hc
  | Right =>
    have := h.right c hcs
    simp only [input] at hc
    rw [this] at hc
    exact Option.noConfusion hc

/-- Every node of a spine has at most one consumer. -/
theorem IsSpine.outputs_length_le {s : LQP} {spine : List Nat} (h : IsSpine s spine) {x : Nat}
    (hx : x ∈ spine) : (s x).outputs.length ≤ 1 := by
  by_cases hhead : spine.head? = some x
  · exact (h.top x hhead).1
  · have hxt : x ∈ spine.tail := (mem_tail_iff h.nodup x).mpr ⟨hx, hhead⟩
    have hall : ∀ a ∈ (s x).outputs, ∀ b ∈ (s x).outputs, a = b := by
      rintro ⟨c, sd⟩ ha ⟨c', sd'⟩ hb
      obtain ⟨-, h1, h2⟩ := h.reference hxt (((h.wf x).2 c sd).mp ha)
      obtain ⟨-, h1', h2'⟩ := h.reference hxt (((h.wf x).2 c' sd').mp hb)
      rw [h1, h1', successor_injective h.nodup h2 h2']
    match hout : (s x).outputs, hall, (h.wf x).1 with
    | [], _, _ => simp
    | [_], _, _ => simp
    | a :: b :: l, hall, hndp =>
      have := hall a (List.mem_cons_self _ _) b (List.mem_cons_of_mem _ (List.mem_cons_self _ _))
      subst this
      simp at hndp

end opossum


namespace opossum

/-! ## A run of filters inside a spine -/

theorem successor_pre {pre mid rest : List Nat} (hnd : (pre ++ (mid ++ rest)).Nodup) {x : Nat}
    (hx : x ∈ pre) :
    successor (pre ++ (mid ++ rest)) x =
      match successor pre x with
      | some b => some b
      | none => (mid ++ rest).head? :=
  (successor_append hnd x).trans (if_pos hx)

theorem successor_mid {pre mid rest : List Nat} (hnd : (pre ++ (mid ++ rest)).Nodup) {x : Nat}
    (hx : x ∈ mid) :
    successor (pre ++ (mid ++ rest)) x =
      match successor mid x with
      | some b => some b
      | none => rest.head? := by
  have hxp : x ∉ pre := fun h => (List.nodup_append.mp hnd).2.2 h (List.mem_append_left _ hx)
  exact ((successor_append hnd x).trans (if_neg hxp)).trans
    ((successor_append (List.nodup_append.mp hnd).2.1 x).trans (if_pos hx))

theorem successor_post {pre mid rest : List Nat} (hnd : (pre ++ (mid ++ rest)).Nodup) {x : Nat}
    (hxp : x ∉ pre) (hxm : x ∉ mid) :
    successor (pre ++ (mid ++ rest)) x = successor rest x := by
  rw [successor_append hnd, if_neg hxp, successor_append (List.nodup_append.mp hnd).2.1,
    if_neg hxm]

/-- The left input of a member of a run that sits in a spine on top of `stop`. -/
theorem IsSpine.left_in_run {s : LQP} {pre run post : List Nat} {stop : Nat}
    (h : IsSpine s (pre ++ (run ++ stop :: post))) {x : Nat} (hx : x ∈ run) :
    (s x).left_input =
      match successor run x with
      | some b => some b
      | none => some stop := by
  rw [h.left x (List.mem_append_right _ (List.mem_append_left _ hx)), successor_mid h.nodup hx]
  rfl

/-- A run of a spine is a chain of the plan, and the node below the run is its input. -/
theorem IsSpine.isChain {s : LQP} {pre run post : List Nat} {stop : Nat}
    (h : IsSpine s (pre ++ (run ++ stop :: post))) (hne : run ≠ []) :
    IsChain s run ∧ chain_input s run = some stop := by
  have hnd := h.nodup
  have hnd2 := (List.nodup_append.mp hnd).2.1
  have hrnd : run.Nodup := (List.nodup_append.mp hnd2).1
  have hstop : stop ∉ run := fun hm =>
    (List.nodup_append.mp hnd2).2.2 hm (List.mem_cons_self _ _)
  obtain ⟨front, back, hfront, hback⟩ := exists_head_getLast hne
  have hbm : back ∈ run := List.mem_of_getLast?_eq_some hback
  have hinp : chain_input s run = some stop := by
    simp only [chain_input, hback]
    rw [h.left_in_run hbm, successor_last hrnd hback]
  refine ⟨⟨?_, ?_, hrnd, ?_, ?_⟩, hinp⟩
  · intro a ha b _ hsucc
    rw [h.left_in_run ha, hsucc]
  · intro p hp
    exact h.outputs_length_le (List.mem_append_right _ (List.mem_append_left _
      (List.mem_of_mem_tail hp)))
  · intro p hp
    rw [hinp]
    intro hh
    exact hstop ((Option.some.inj hh) ▸ hp)
  · rintro ⟨c, sd⟩ ho hcm
    simp only [chain_outputs, hfront] at ho
    have hin := ((h.wf front).2 c sd).mp ho
    have hcs : c ∈ pre ++ (run ++ stop :: post) :=
      List.mem_append_right _ (List.mem_append_left _ hcm)
    cases sd with
    | Right =>
      simp only [input] at hin
      rw [h.right c hcs] at hin
      exact Option.noConfusion hin
    | Left =>
      simp only [input] at hin
      rw [h.left_in_run hcm] at hin
      cases hsucc : successor run c with
      | some b =>
        rw [hsucc] at hin
        exact successor_head_ne hrnd hsucc (by rw [hfront]; exact hin.symm)
      | none =>
        rw [hsucc] at hin
        exact hstop ((Option.some.inj hin) ▸ List.mem_of_mem_head? hfront)

theorem left_path_of_successors (s : LQP) (stop : Nat) (run : List Nat) (hnd : run.Nodup)
    (h : ∀ a ∈ run, (s a).left_input =
      match successor run a with
      | some b => some b
      | none => some stop) :
    ∀ front, run.head? = some front → IsLeftPath s front run stop := by
  induction run with
  | nil => intro front h0; simp at h0
  | cons a rest ih =>
    intro front h0
    simp only [List.head?_cons, Option.some.injEq] at h0
    subst h0
    have hnd' := List.nodup_cons.mp hnd
    cases rest with
    | nil =>
      have hl := h a (List.mem_cons_self _ _)
      simp only [successor] at hl
      exact ⟨rfl, stop, hl, rfl⟩
    | cons b rest' =>
      have hl := h a (List.mem_cons_self _ _)
      simp only [successor, if_true] at hl
      refine ⟨rfl, b, hl, ih hnd'.2 ?_ b rfl⟩
      intro x hx
      have hxa : x ≠ a := fun hh => hnd'.1 (hh ▸ hx)
      rw [← successor_cons_of_ne hxa]
      exact h x (List.mem_cons_of_mem _ hx)

/-- The loop of lines 31-39, started at the top of a run of filters that sits in a spine on top
of a node of another kind, gathers the run. -/
theorem IsSpine.gather {s : LQP} {pre run post : List Nat} {stop : Nat}
    (h : IsSpine s (pre ++ (run ++ stop :: post)))
    (hkinds : segment_kinds s (run, stop)) {front : Nat} (hfront : run.head? = some front)
    {fuel : Nat} (hfuel : run.length < fuel) :
    gather_predicate_nodes s fuel (some front) [] = some run := by
  have hnd2 := (List.nodup_append.mp h.nodup).2.1
  have hrnd : run.Nodup := (List.nodup_append.mp hnd2).1
  have hpath := left_path_of_successors s stop run hrnd (fun a ha => h.left_in_run ha) front
    hfront
  have := gather_of_left_path s run front stop [] fuel hpath ?_ (Or.inl hkinds.2) hfuel
  · simpa using this
  · intro p hp hstops
    rcases hstops with hk | hk
    · rw [hkinds.1 p hp] at hk
      exact Bool.noConfusion hk
    · have := h.outputs_length_le (List.mem_append_right _ (List.mem_append_left _ hp))
      omega

end opossum


namespace opossum

theorem head?_append_of_ne_nil {l₁ : List Nat} (l₂ : List Nat) (h : l₁ ≠ []) :
    (l₁ ++ l₂).head? = l₁.head? := by
  cases l₁ with
  | nil => exact absurd rfl h
  | cons a l => rfl

/-- Reordering a run of a spine yields a spine again: the run is replaced by the sorted
vector, everything above and below it stays where it is. -/
theorem IsSpine.after_reorder {sort : StdSort} (hsort : StdSortContract sort)
    (est : LQP → Nat → Cardinality) {s : LQP} {pre run post : List Nat} {stop : Nat}
    (h : IsSpine s (pre ++ (run ++ stop :: post))) (hne : run ≠ []) :
    ∃ s', _reorder_predicates sort est s run = some s' ∧ (∀ n, (s' n).type = (s n).type) ∧
      IsSpine s' (pre ++ (reordered sort est s run ++ stop :: post)) := by
  obtain ⟨hc, hinp⟩ := h.isChain hne
  obtain ⟨s', hs', hwf', htype, hspec⟩ := reorder_predicates_spec hsort est hne h.wf hc
  refine ⟨s', hs', htype, ?_⟩
  have hperm := reordered_perm hsort est s run
  have hXiff : ∀ x, x ∈ reordered sort est s run ↔ x ∈ run := fun x => hperm.mem_iff
  have hXne : reordered sort est s run ≠ [] := by
    intro hh
    rw [hh] at hperm
    exact hne hperm.symm.eq_nil
  have hpermP : List.Perm (pre ++ (reordered sort est s run ++ stop :: post))
      (pre ++ (run ++ stop :: post)) :=
    List.Perm.append_left pre (List.Perm.append_right _ hperm)
  have hnd := h.nodup
  have hnd' : (pre ++ (reordered sort est s run ++ stop :: post)).Nodup :=
    hpermP.nodup_iff.mpr hnd
  have hXnd : (reordered sort est s run).Nodup := hperm.nodup_iff.mpr hc.nodup
  have hmemP : ∀ x, x ∈ pre ++ (reordered sort est s run ++ stop :: post) ↔
      x ∈ pre ++ (run ++ stop :: post) := fun x => hpermP.mem_iff
  obtain ⟨c0, -, hfront, -⟩ := exists_head_getLast hne
  obtain ⟨hi, -, hhi, -⟩ := exists_head_getLast hXne
  have hc0 : c0 ∈ run := List.mem_of_mem_head? hfront
  have hhim : hi ∈ run := (hXiff hi).mp (List.mem_of_mem_head? hhi)
  have houts : ∀ n sd, (n, sd) ∈ chain_outputs s run ↔ input s n sd = some c0 := by
    intro n sd
    simp only [chain_outputs, hfront]
    exact (h.wf c0).2 n sd
  have hdisj_pre : ∀ x, x ∈ pre → x ∉ run := fun x hx hr =>
    (List.nodup_append.mp hnd).2.2 hx (List.mem_append_left _ hr)
  have hnd2 := (List.nodup_append.mp hnd).2.1
  have hdisj_post : ∀ x, x ∈ stop :: post → x ∉ run := fun x hx hr =>
    (List.nodup_append.mp hnd2).2.2 hr hx
  have hdisj_pp : ∀ x, x ∈ pre → x ∉ stop :: post := fun x hx hr =>
    (List.nodup_append.mp hnd).2.2 hx (List.mem_append_right _ hr)
  -- the slots of the members of the run, before and after
  have hrun_old : ∀ c ∈ run, ∀ a, (s c).left_input = some a → a ∈ run ∨ a = stop := by
    intro c hcm a ha
    rw [h.left_in_run hcm] at ha
    cases hsucc : successor run c with
    | some b =>
      rw [hsucc] at ha
      exact Or.inl ((Option.some.inj ha) ▸ (successor_mem hsucc).2)
    | none =>
      rw [hsucc] at ha
      exact Or.inr (Option.some.inj ha).symm
  have hrun_new : ∀ c ∈ run, ∀ a, (s' c).left_input = some a → a ∈ run ∨ a = stop := by
    intro c hcm a ha
    rw [left_input_after_reorder hspec hcm, hinp] at ha
    cases hsucc : successor (reordered sort est s run) c with
    | some b =>
      rw [hsucc] at ha
      exact Or.inl ((Option.some.inj ha) ▸ (hXiff _).mp (successor_mem hsucc).2)
    | none =>
      rw [hsucc] at ha
      exact Or.inr (Option.some.inj ha).symm
  -- references to a node above the run are untouched
  have hpre_refs : ∀ a ∈ pre, ∀ c sd, input s' c sd = some a ↔ input s c sd = some a := by
    intro a ha c sd
    have har : a ∉ run := hdisj_pre a ha
    have hastop : a ≠ stop := fun hh => hdisj_pp a ha (hh ▸ List.mem_cons_self _ _)
    by_cases hA : c ∈ run ∧ sd = LQPInputSide.Left
    · obtain ⟨hcm, rfl⟩ := hA
      constructor
      · intro hh
        rcases hrun_new c hcm a hh with h1 | h1
        · exact absurd h1 har
        · exact absurd h1 hastop
      · intro hh
        rcases hrun_old c hcm a hh with h1 | h1
        · exact absurd h1 har
        · exact absurd h1 hastop
    · rw [hspec, if_neg hA]
      by_cases hB : (c, sd) ∈ chain_outputs s run
      · rw [if_pos hB, hhi]
        have hB' := (houts c sd).mp hB
        rw [hB']
        constructor
        · intro hh
          exact absurd ((Option.some.inj hh) ▸ hhim) har
        · intro hh
          exact absurd ((Option.some.inj hh) ▸ hc0) har
      · rw [if_neg hB]
  refine ⟨hwf', hnd', ?_, ?_, ?_, ?_⟩
  · -- left inputs
    intro x hx
    by_cases hxr : x ∈ run
    · rw [left_input_after_reorder hspec hxr, hinp, successor_mid hnd' ((hXiff x).mpr hxr)]
      rfl
    · have h1 := hspec x LQPInputSide.Left
      rw [if_neg (fun hh => hxr hh.1)] at h1
      have hxP := (hmemP x).mp hx
      have hold := h.left x hxP
      by_cases hxp : x ∈ pre
      · rw [successor_pre hnd hxp] at hold
        rw [successor_pre hnd' hxp]
        cases hsp : successor pre x with
        | some b =>
          rw [hsp] at hold
          have hno : (x, LQPInputSide.Left) ∉ chain_outputs s run := by
            rw [houts]
            simp only [input]
            rw [hold]
            intro hh
            exact hdisj_pre b (successor_mem hsp).2 ((Option.some.inj hh) ▸ hc0)
          rw [if_neg hno] at h1
          simp only [input] at h1
          rw [h1, hold]
        | none =>
          rw [hsp] at hold
          have hold' : (s x).left_input = some c0 := by
            rw [hold]
            show (run ++ stop :: post).head? = some c0
            rw [head?_append_of_ne_nil _ hne, hfront]
          have hyes : (x, LQPInputSide.Left) ∈ chain_outputs s run := by
            rw [houts]
            exact hold'
          rw [if_pos hyes] at h1
          simp only [input] at h1
          rw [h1]
          show _ = (reordered sort est s run ++ stop :: post).head?
          rw [head?_append_of_ne_nil _ hXne]
      · have hxX : x ∉ reordered sort est s run := fun hh => hxr ((hXiff x).mp hh)
        rw [successor_post hnd hxp hxr] at hold
        rw [successor_post hnd' hxp hxX]
        have hno : (x, LQPInputSide.Left) ∉ chain_outputs s run := by
          rw [houts]
          simp only [input]
          rw [hold]
          intro hh
          exact hdisj_post c0 (successor_mem hh).2 hc0
        rw [if_neg hno] at h1
        simp only [input] at h1
        rw [h1, hold]
  · -- right inputs
    intro x hx
    have hxP := (hmemP x).mp hx
    have h1 := hspec x LQPInputSide.Right
    have hold := h.right x hxP
    rw [if_neg (fun hh => LQPInputSide.noConfusion hh.2)] at h1
    have hno : (x, LQPInputSide.Right) ∉ chain_outputs s run := by
      rw [houts]
      simp only [input]
      rw [hold]
      exact fun hh => Option.noConfusion hh
    rw [if_neg hno] at h1
    simp only [input] at h1
    rw [h1, hold]
  · -- references from outside
    rintro x hxt ⟨c, sd⟩ ho
    rw [hmemP]
    have hin := ((hwf' x).2 c sd).mp ho
    obtain ⟨hxP', hxhead⟩ := (mem_tail_iff hnd' x).mp hxt
    have hxP := (hmemP x).mp hxP'
    rw [hspec] at hin
    by_cases hA : c ∈ run ∧ sd = LQPInputSide.Left
    · exact List.mem_append_right _ (List.mem_append_left _ hA.1)
    · rw [if_neg hA] at hin
      by_cases hB : (c, sd) ∈ chain_outputs s run
      · rw [if_pos hB] at hin
        have hB' := (houts c sd).mp hB
        by_cases hc0t : c0 ∈ (pre ++ (run ++ stop :: post)).tail
        · exact (h.reference hc0t hB').1
        · exfalso
          cases pre with
          | nil =>
            apply hxhead
            simp only [List.nil_append]
            rw [head?_append_of_ne_nil _ hXne]
            exact hin
          | cons a pre' =>
            apply hc0t
            simp only [List.cons_append, List.tail_cons]
            exact List.mem_append_right _ (List.mem_append_left _ hc0)
      · rw [if_neg hB] at hin
        by_cases hxt' : x ∈ (pre ++ (run ++ stop :: post)).tail
        · exact (h.reference hxt' hin).1
        · exfalso
          cases pre with
          | nil =>
            simp only [List.nil_append] at hxP hxt'
            have hxc0 : x = c0 := by
              by_contra hne'
              apply hxt'
              rw [mem_tail_iff hnd2]
              refine ⟨hxP, ?_⟩
              rw [head?_append_of_ne_nil _ hne, hfront]
              intro hh
              exact hne' (Option.some.inj hh).symm
            rw [hxc0] at hin
            exact hB ((houts c sd).mpr hin)
          | cons a pre' =>
            apply hxt'
            rw [mem_tail_iff hnd]
            refine ⟨hxP, ?_⟩
            simpa using hxhead
  · -- the top
    intro x hx
    cases pre with
    | nil =>
      simp only [List.nil_append] at hx h ⊢
      rw [Option.mem_def, head?_append_of_ne_nil _ hXne, hhi] at hx
      have hx' := Option.some.inj hx
      subst hx'
      have hold := h.top c0 (by
        rw [Option.mem_def, head?_append_of_ne_nil _ hne, hfront])
      have hp : List.Perm (s' hi).outputs (s c0).outputs := by
        rw [List.perm_ext_iff_of_nodup (hwf' hi).1 (h.wf c0).1]
        rintro ⟨c, sd⟩
        rw [mem_outputs_after_reorder hsort h.wf hc hwf' hspec hhim, if_pos hhi]
        simp only [chain_outputs, hfront]
      refine ⟨hp.length_eq ▸ hold.1, fun o ho hm => ?_⟩
      exact hold.2 o (hp.mem_iff.mp ho) ((hmemP o.1).mp hm)
    | cons a pre' =>
      simp only [List.cons_append, List.head?_cons, Option.mem_def, Option.some.injEq] at hx
      subst hx
      have hold := h.top a (by simp)
      have hp : List.Perm (s' a).outputs (s a).outputs := by
        rw [List.perm_ext_iff_of_nodup (hwf' a).1 (h.wf a).1]
        rintro ⟨c, sd⟩
        rw [(hwf' a).2, (h.wf a).2]
        exact hpre_refs a (List.mem_cons_self _ _) c sd
      refine ⟨hp.length_eq ▸ hold.1, fun o ho hm => ?_⟩
      exact hold.2 o (hp.mem_iff.mp ho) ((hmemP o.1).mp hm)

end opossum


namespace opossum

/-! ## `apply_to` on a linear plan -/

theorem apply_to_inputs_left {rule : LQP → Nat → Option LQP} {s s₁ : LQP} {node u : Nat}
    (hl : (s node).left_input = some u) (hr : rule s u = some s₁)
    (hright : (s₁ node).right_input = none) : _apply_to_inputs rule s node = some s₁ := by
  simp [_apply_to_inputs, hl, hr, hright]

theorem apply_to_inputs_none {rule : LQP → Nat → Option LQP} {s : LQP} {node : Nat}
    (hl : (s node).left_input = none) (hright : (s node).right_input = none) :
    _apply_to_inputs rule s node = some s := by
  simp [_apply_to_inputs, hl, hright]

theorem segment_kinds_of_type {s s' : LQP} (ht : ∀ n, (s' n).type = (s n).type) {seg : Segment}
    (h : segment_kinds s seg) : segment_kinds s' seg := by
  refine ⟨fun p hp => ?_, ?_⟩
  · rw [ht]; exact h.1 p hp
  · rw [ht]; exact h.2

theorem segment_sorted_trans {card : Nat → Option Nat → Cardinality} {a b c : Segment}
    (hab : segment_sorted card a b) (hbc : segment_sorted card b c) : segment_sorted card a c := by
  obtain ⟨h1, h2, -⟩ := hab
  obtain ⟨h1', h2', h3'⟩ := hbc
  refine ⟨h1'.trans h1, h2'.trans h2, ?_⟩
  rw [h1] at h3'
  exact h3'

theorem forall₂_segment_sorted_trans {card : Nat → Option Nat → Cardinality} :
    ∀ {l₁ l₂ l₃ : List Segment}, List.Forall₂ (segment_sorted card) l₁ l₂ →
      List.Forall₂ (segment_sorted card) l₂ l₃ → List.Forall₂ (segment_sorted card) l₁ l₃
  | _, _, _, List.Forall₂.nil, List.Forall₂.nil => List.Forall₂.nil
  | _, _, _, List.Forall₂.cons h t, List.Forall₂.cons h' t' =>
    List.Forall₂.cons (segment_sorted_trans h h') (forall₂_segment_sorted_trans t t')

theorem flatten_segments_length {card : Nat → Option Nat → Cardinality} :
    ∀ {l₁ l₂ : List Segment}, List.Forall₂ (segment_sorted card) l₁ l₂ →
      (flatten_segments l₂).length = (flatten_segments l₁).length
  | _, _, List.Forall₂.nil => rfl
  | (r₁, s₁) :: _, (r₂, s₂) :: _, List.Forall₂.cons h t => by
    simp only [flatten_segments, List.length_append, List.length_cons]
    rw [flatten_segments_length t, h.2.1.length_eq]

/-- The sorted vector is in non-increasing order of the cardinalities the estimator attaches
to the members on top of the chain's input. -/
theorem reordered_sorted {sort : StdSort} (hsort : StdSortContract sort)
    {est : LQP → Nat → Cardinality} {card : Nat → Option Nat → Cardinality}
    (hest : ∀ st p, est st p = card p (st p).left_input) (s : LQP) (run : List Nat) :
    List.Pairwise (fun a b => card b (chain_input s run) ≤ card a (chain_input s run))
      (reordered sort est s run) := by
  have hcontract := hsort (estimated est s run)
  have hentry : ∀ e ∈ sort cardinality_greater (estimated est s run),
      e.2 = card e.1 (chain_input s run) := by
    intro e he
    obtain ⟨-, st, hst, he2⟩ := estimate_predicates_attached est _ s run e
      (hcontract.1.mem_iff.mp he)
    rw [he2, hest, hst]
  unfold reordered
  rw [List.pairwise_map]
  refine hcontract.2.imp_of_mem ?_
  intro a b ha hb hab
  rw [← hentry a ha, ← hentry b hb]
  exact (cardinality_greater_eq_false a b).mp hab

theorem rewrite_at_of_not_filter (sort : StdSort) (est : LQP → Nat → Cardinality) (fuel : Nat)
    {s : LQP} {node : Nat} (h : is_predicate_or_validate (s node).type = false) :
    rewrite_at sort est fuel s node = some (s, none) := by
  simp [rewrite_at, h]

theorem rewrite_at_of_single (sort : StdSort) (est : LQP → Nat → Cardinality) (fuel : Nat)
    {s : LQP} {node : Nat} (h : is_predicate_or_validate (s node).type = true)
    (hg : gather_predicate_nodes s fuel (some node) [] = some [node]) :
    rewrite_at sort est fuel s node = some (s, none) := by
  simp [rewrite_at, h, hg]

theorem rewrite_at_of_chain (sort : StdSort) (est : LQP → Nat → Cardinality) (fuel : Nat)
    {s s₁ : LQP} {node stop : Nat} {run : List Nat}
    (h : is_predicate_or_validate (s node).type = true)
    (hg : gather_predicate_nodes s fuel (some node) [] = some run) (hlen : 1 < run.length)
    (hinp : chain_input s run = some stop)
    (hre : _reorder_predicates sort est s run = some s₁) :
    rewrite_at sort est fuel s node = some (s₁, some (some stop)) := by
  have hne : run ≠ [] := by
    intro hh
    rw [hh] at hlen
    simp at hlen
  obtain ⟨-, back, -, hback⟩ := exists_head_getLast hne
  simp only [chain_input, hback] at hinp
  simp [rewrite_at, h, hg, hlen, hback, hre, hinp]

end opossum


namespace opossum

theorem pairwise_replace_tail {R : Nat → Nat → Prop} {X₁ X₂ X₂' : List Nat} {t : Nat}
    (h : List.Pairwise R (X₁ ++ t :: X₂)) (hp : List.Perm X₂' X₂) (h' : List.Pairwise R X₂') :
    List.Pairwise R (X₁ ++ t :: X₂') := by
  rw [List.pairwise_append] at h ⊢
  obtain ⟨h1, h2, h3⟩ := h
  rw [List.pairwise_cons] at h2
  refine ⟨h1, List.pairwise_cons.mpr ⟨fun b hb => h2.1 b (hp.mem_iff.mp hb), h'⟩, ?_⟩
  intro a ha b hb
  apply h3 a ha b
  rcases List.mem_cons.mp hb with hb | hb
  · rw [hb]; exact List.mem_cons_self _ _
  · exact List.mem_cons_of_mem _ (hp.mem_iff.mp hb)

theorem segment_kinds_of_sorted {card : Nat → Option Nat → Cardinality} {s s' : LQP}
    {later later₁ : List Segment} (h : List.Forall₂ (segment_sorted card) later later₁)
    (hk : ∀ seg ∈ later, segment_kinds s seg) (ht : ∀ n, (s' n).type = (s n).type) :
    ∀ seg ∈ later₁, segment_kinds s' seg := by
  induction h with
  | nil => intro seg hseg; simp at hseg
  | cons hrel _ ih =>
    intro seg hseg
    rcases List.mem_cons.mp hseg with rfl | hseg
    · have h0 := hk _ (List.mem_cons_self _ _)
      refine ⟨fun p hp => ?_, ?_⟩
      · rw [ht]
        exact h0.1 p (hrel.2.1.mem_iff.mp hp)
      · rw [ht, hrel.1]
        exact h0.2
    · exact ih (fun seg' hseg' => hk seg' (List.mem_cons_of_mem _ hseg')) seg hseg

/-- `apply_to`, called on a node of a linear plan that is cut into runs of filters and the nodes
between them, returns (with fuel for every node from the trigger down) a linear plan in which
the part of the trigger's run from the trigger down and every run further down are sorted
rearrangements of what they were; nothing above the trigger moves. The estimator's answer for
a node is `card node input`, a function of the node and of what it is attached to. -/
theorem apply_to_spine {sort : StdSort} (hsort : StdSortContract sort)
    {est : LQP → Nat → Cardinality} {card : Nat → Option Nat → Cardinality}
    (hest : ∀ st p, est st p = card p (st p).left_input) :
    ∀ (fuel : Nat) (s : LQP) (pre run : List Nat) (stop : Nat) (later : List Segment) (t : Nat),
      IsSpine s (pre ++ (run ++ stop :: flatten_segments later)) →
      segment_kinds s (run, stop) → (∀ seg ∈ later, segment_kinds s seg) →
      (run ++ [stop]).head? = some t →
      run.length + 1 + (flatten_segments later).length ≤ fuel →
      ∃ s' run' later', apply_to sort est fuel s t = some s' ∧
        (∀ n, (s' n).type = (s n).type) ∧
        IsSpine s' (pre ++ (run' ++ stop :: flatten_segments later')) ∧
        segment_sorted card (run, stop) (run', stop) ∧
        List.Forall₂ (segment_sorted card) later later' := by
  intro fuel
  induction fuel with
  | zero =>
    intro s pre run stop later t _ _ _ _ hfuel
    omega
  | succ d ih =>
    intro s pre run stop later t hsp hk hlater ht hfuel
    have hnd := hsp.nodup
    cases run with
    | nil =>
      -- the trigger is the node below a run
      simp only [List.nil_append, List.head?_cons, Option.some.injEq] at ht
      subst ht
      have hrw := rewrite_at_of_not_filter sort est (d + 1) hk.2
      have hmem : stop ∈ pre ++ ([] ++ stop :: flatten_segments later) := by simp
      cases later with
      | nil =>
        have hl : (s stop).left_input = none := by
          rw [hsp.left stop hmem, successor_post hnd ?_ (by simp)]
          · simp [flatten_segments, successor]
          · intro hh
            exact (List.nodup_append.mp hnd).2.2 hh (by simp) 
        refine ⟨s, [], [], ?_, fun _ => rfl, hsp, ⟨rfl, List.Perm.refl _, List.Pairwise.nil⟩,
          List.Forall₂.nil⟩
        rw [apply_to, hrw]
        exact apply_to_inputs_none hl (hsp.right stop hmem)
      | cons seg later₂ =>
        obtain ⟨run₂, stop₂⟩ := seg
        have hassoc : pre ++ ([] ++ stop :: flatten_segments ((run₂, stop₂) :: later₂)) =
            (pre ++ [stop]) ++ (run₂ ++ stop₂ :: flatten_segments later₂) := by
          simp [flatten_segments]
        obtain ⟨u, hu⟩ : ∃ u, (run₂ ++ [stop₂]).head? = some u := by
          cases run₂ with
          | nil => exact ⟨stop₂, rfl⟩
          | cons a l => exact ⟨a, rfl⟩
        have hl : (s stop).left_input = some u := by
          rw [hsp.left stop hmem, successor_post hnd ?_ (by simp)]
          · cases run₂ with
            | nil =>
              simp only [List.nil_append, List.head?_cons, Option.some.injEq] at hu
              simp [flatten_segments, successor, hu]
            | cons a l =>
              simp only [List.cons_append, List.head?_cons, Option.some.injEq] at hu
              simp [flatten_segments, successor, hu]
          · intro hh
            exact (List.nodup_append.mp hnd).2.2 hh (by simp)
        have hsp' := hsp
        rw [hassoc] at hsp'
        obtain ⟨s₁, run₂', later₂', h1, hty, hsp₁, hsorted, hrest⟩ :=
          ih s (pre ++ [stop]) run₂ stop₂ later₂ u hsp'
            (hlater _ (List.mem_cons_self _ _))
            (fun seg hseg => hlater seg (List.mem_cons_of_mem _ hseg)) hu
            (by
              simp only [flatten_segments, List.length_append, List.length_cons,
                List.length_nil] at hfuel
              omega)
        have hassoc' : (pre ++ [stop]) ++ (run₂' ++ stop₂ :: flatten_segments later₂') =
            pre ++ ([] ++ stop :: flatten_segments ((run₂', stop₂) :: later₂')) := by
          simp [flatten_segments]
        rw [hassoc'] at hsp₁
        refine ⟨s₁, [], (run₂', stop₂) :: later₂', ?_, hty, hsp₁,
          ⟨rfl, List.Perm.refl _, List.Pairwise.nil⟩, List.Forall₂.cons hsorted hrest⟩
        rw [apply_to, hrw]
        exact apply_to_inputs_left hl h1 (hsp₁.right stop (by simp))
    | cons a rest =>
      -- the trigger is a filter, the top of the run `a :: rest`
      simp only [List.cons_append, List.head?_cons, Option.some.injEq] at ht
      subst ht
      have hfilter : is_predicate_or_validate (s a).type = true :=
        hk.1 a (List.mem_cons_self _ _)
      have hgather : gather_predicate_nodes s (d + 1) (some a) [] = some (a :: rest) :=
        hsp.gather hk rfl (by simp only [List.length_cons] at hfuel ⊢; omega)
      cases rest with
      | nil =>
        have hrw := rewrite_at_of_single sort est (d + 1) hfilter hgather
        have hl : (s a).left_input = some stop := by
          rw [hsp.left_in_run (List.mem_cons_self _ _)]
          simp [successor]
        have hassoc : pre ++ ([a] ++ stop :: flatten_segments later) =
            (pre ++ [a]) ++ ([] ++ stop :: flatten_segments later) := by
          simp
        have hsp' := hsp
        rw [hassoc] at hsp'
        obtain ⟨s₁, run', later', h1, hty, hsp₁, hsorted, hrest⟩ :=
          ih s (pre ++ [a]) [] stop later stop hsp' ⟨by simp, hk.2⟩ hlater rfl
            (by simp only [List.length_cons, List.length_nil] at hfuel ⊢; omega)
        have hrun' : run' = [] := hsorted.2.1.eq_nil
        subst hrun'
        have hassoc' : (pre ++ [a]) ++ ([] ++ stop :: flatten_segments later') =
            pre ++ ([a] ++ stop :: flatten_segments later') := by
          simp
        rw [hassoc'] at hsp₁
        refine ⟨s₁, [a], later', ?_, hty, hsp₁,
          ⟨rfl, List.Perm.refl _, List.pairwise_singleton _ _⟩, hrest⟩
        rw [apply_to, hrw]
        exact apply_to_inputs_left hl h1 (hsp₁.right a (by simp))
      | cons b rest' =>
        have hne : a :: b :: rest' ≠ [] := by simp
        obtain ⟨hc, hinp⟩ := hsp.isChain hne
        obtain ⟨s₁, hre, hty₁, hsp₁⟩ := hsp.after_reorder hsort est hne
        have hrw := rewrite_at_of_chain sort est (d + 1) hfilter hgather (by simp) hinp hre
        have hperm := reordered_perm hsort est s (a :: b :: rest')
        have hXsorted := reordered_sorted hsort hest s (a :: b :: rest')
        rw [hinp] at hXsorted
        generalize hX : reordered sort est s (a :: b :: rest') = X at hsp₁ hperm hXsorted
        have hXlen : X.length = rest'.length + 2 := by
          rw [hperm.length_eq]; simp
        -- line 49: the rule is applied to the chain's original input
        have hassoc₁ : pre ++ (X ++ stop :: flatten_segments later) =
            (pre ++ X) ++ ([] ++ stop :: flatten_segments later) := by
          simp
        have hsp₁' := hsp₁
        rw [hassoc₁] at hsp₁'
        obtain ⟨s₂, run₀, later₁, h2, hty₂, hsp₂, hsorted₀, hrest₁⟩ :=
          ih s₁ (pre ++ X) [] stop later stop hsp₁' ⟨by simp, by rw [hty₁]; exact hk.2⟩
            (fun seg hseg => segment_kinds_of_type hty₁ (hlater seg hseg)) rfl
            (by simp only [List.length_cons, List.length_nil] at hfuel ⊢; omega)
        have hrun₀ : run₀ = [] := hsorted₀.2.1.eq_nil
        subst hrun₀
        -- line 53: the rule is applied to the new left input of the trigger
        have haX : a ∈ X := hperm.mem_iff.mpr (List.mem_cons_self _ _)
        obtain ⟨X₁, X₂, hsplit⟩ := List.append_of_mem haX
        subst hsplit
        have hassoc₂ : (pre ++ (X₁ ++ a :: X₂)) ++ ([] ++ stop :: flatten_segments later₁) =
            (pre ++ (X₁ ++ [a])) ++ (X₂ ++ stop :: flatten_segments later₁) := by
          simp
        rw [hassoc₂] at hsp₂
        have hty₂₀ : ∀ n, (s₂ n).type = (s n).type := fun n => (hty₂ n).trans (hty₁ n)
        obtain ⟨u, hu⟩ : ∃ u, (X₂ ++ [stop]).head? = some u := by
          cases X₂ with
          | nil => exact ⟨stop, rfl⟩
          | cons x l => exact ⟨x, rfl⟩
        have hl : (s₂ a).left_input = some u := by
          have hapre : a ∈ pre ++ (X₁ ++ [a]) := by simp
          rw [hsp₂.left a (List.mem_append_left _ hapre),
            successor_append hsp₂.nodup, if_pos hapre]
          have hlast : (pre ++ (X₁ ++ [a])).getLast? = some a := by
            rw [← List.append_assoc, List.getLast?_append]
            simp
          rw [successor_last (List.nodup_append.mp hsp₂.nodup).1 hlast]
          cases X₂ with
          | nil =>
            simp only [List.nil_append, List.head?_cons, Option.some.injEq] at hu
            simp [hu]
          | cons x l =>
            simp only [List.cons_append, List.head?_cons, Option.some.injEq] at hu
            simp [hu]
        have hkX₂ : segment_kinds s₂ (X₂, stop) := by
          refine ⟨fun p hp => ?_, by rw [hty₂₀]; exact hk.2⟩
          rw [hty₂₀]
          exact hk.1 p (hperm.mem_iff.mp (List.mem_append_right _ (List.mem_cons_of_mem _ hp)))
        have hlen₁ := flatten_segments_length hrest₁
        obtain ⟨s₃, X₂', later₂, h3, hty₃, hsp₃, hsorted₂, hrest₂⟩ :=
          ih s₂ (pre ++ (X₁ ++ [a])) X₂ stop later₁ u hsp₂ hkX₂
            (segment_kinds_of_sorted hrest₁ hlater hty₂₀)
            hu
            (by
              simp only [List.length_cons, List.length_append] at hfuel hXlen ⊢
              omega)
        have hassoc₃ : (pre ++ (X₁ ++ [a])) ++ (X₂' ++ stop :: flatten_segments later₂) =
            pre ++ ((X₁ ++ a :: X₂') ++ stop :: flatten_segments later₂) := by
          simp
        rw [hassoc₃] at hsp₃
        refine ⟨s₃, X₁ ++ a :: X₂', later₂, ?_, fun n => (hty₃ n).trans (hty₂₀ n), hsp₃,
          ⟨rfl, ?_, ?_⟩, forall₂_segment_sorted_trans hrest₁ hrest₂⟩
        · rw [apply_to, hrw]
          show (apply_to sort est d s₁ stop).bind _ = _
          rw [h2]
          exact apply_to_inputs_left hl h3 (hsp₃.right a (by simp))
        · exact (List.Perm.append_left X₁ (List.Perm.cons a hsorted₂.2.1)).trans hperm
        · exact pairwise_replace_tail hXsorted hsorted₂.2.1 hsorted₂.2.2

end opossum


namespace opossum

/-! ## Two chains separated by a node of another kind -/

theorem pairwise_successor {R : Nat → Nat → Prop} {l : List Nat} (h : List.Pairwise R l)
    {a b : Nat} (hs : successor l a = some b) : R a b := by
  induction l with
  | nil => simp [successor] at hs
  | cons x l ih =>
    cases l with
    | nil => simp [successor] at hs
    | cons y rest =>
      rw [List.pairwise_cons] at h
      simp only [successor] at hs
      split_ifs at hs with hax
      · simp only [Option.some.injEq] at hs
        subst hs; subst hax
        exact h.1 y (List.mem_cons_self _ _)
      · exact ih h.2 hs

/-- C9: let the plan consist of a filter chain `A` (at least 2 members, top member `top`), a
node `N` of another kind with a single consumer below it, a second filter chain `B` below `N`
and the source `L` below `B`, and let the estimator answer `card p i` for a node `p` attached
to `i`. Then (1) `apply_to` on `top` reorders `A` and applies the rule to the chain's original
input `N` before it descends into the inputs of `top`, and (2) with fuel for every node the
call returns a plan of the same shape (a rearrangement `A'` of `A` on top of `N` on top of a
rearrangement `B'` of `B` on top of `L`) in which both chains satisfy the ordering property:
whenever a member of `A` (of `B`) has another member as left input, the estimate of the lower
one on top of `N` (of `L`) is at most that of the upper one. -/
theorem apply_to_reorders_both_chains (sort : StdSort) (hsort : StdSortContract sort)
    (est : LQP → Nat → Cardinality) (card : Nat → Option Nat → Cardinality)
    (hest : ∀ st p, est st p = card p (st p).left_input) (s : LQP) (A B : List Nat)
    (N L top fuel : Nat) (hsp : IsSpine s (A ++ N :: (B ++ [L])))
    (hA : ∀ p ∈ A, is_predicate_or_validate (s p).type = true)
    (hN : is_predicate_or_validate (s N).type = false)
    (hB : ∀ p ∈ B, is_predicate_or_validate (s p).type = true)
    (hL : is_predicate_or_validate (s L).type = false)
    (hlen : 2 ≤ A.length) (htop : A.head? = some top) (hfuel : A.length + B.length + 2 ≤ fuel) :
    (∃ s₁, _reorder_predicates sort est s A = some s₁ ∧
      apply_to sort est fuel s top =
        (apply_to sort est (fuel - 1) s₁ N).bind fun s₂ =>
          _apply_to_inputs (fun st n => apply_to sort est (fuel - 1) st n) s₂ top) ∧
    ∃ s' A' B', apply_to sort est fuel s top = some s' ∧
      IsSpine s' (A' ++ N :: (B' ++ [L])) ∧ List.Perm A' A ∧ List.Perm B' B ∧
      (∀ upper ∈ A, ∀ lower ∈ A, (s' upper).left_input = some lower →
        card lower (some N) ≤ card upper (some N)) ∧
      (∀ upper ∈ B, ∀ lower ∈ B, (s' upper).left_input = some lower →
        card lower (some L) ≤ card upper (some L)) := by
  have hflat : A ++ N :: (B ++ [L]) = [] ++ (A ++ N :: flatten_segments [(B, L)]) := by
    simp [flatten_segments]
  have hsp' := hsp
  rw [hflat] at hsp'
  have hkA : segment_kinds s (A, N) := ⟨hA, hN⟩
  have hne : A ≠ [] := length_pos_of_two_le hlen
  constructor
  · obtain ⟨s₁, hre, -, -⟩ := hsp'.after_reorder hsort est hne
    obtain ⟨-, hinp⟩ := hsp'.isChain hne
    obtain ⟨d, rfl⟩ : ∃ d, fuel = d + 1 := ⟨fuel - 1, by omega⟩
    have hg : gather_predicate_nodes s (d + 1) (some top) [] = some A :=
      hsp'.gather hkA htop (by omega)
    have hrw := rewrite_at_of_chain sort est (d + 1)
      (hA top (List.mem_of_mem_head? htop)) hg (by omega) hinp hre
    refine ⟨s₁, hre, ?_⟩
    rw [apply_to, hrw, Nat.add_sub_cancel]
  · have ht : (A ++ [N]).head? = some top := by
      rw [head?_append_of_ne_nil _ hne]; exact htop
    obtain ⟨s', A', later', hres, -, hsp₁, hsA, hlater⟩ :=
      apply_to_spine hsort hest fuel s [] A N [(B, L)] top hsp' hkA
        (by
          intro seg hseg
          simp only [List.mem_singleton] at hseg
          subst hseg
          exact ⟨hB, hL⟩)
        ht (by simp [flatten_segments]; omega)
    obtain ⟨-, hpA, hsortedA⟩ := hsA
    cases hlater with
    | cons hsB hnil =>
      cases hnil
      rename_i seg
      obtain ⟨B', L'⟩ := seg
      obtain ⟨hL', hpB, hsortedB⟩ := hsB
      simp only at hL' hpB hsortedB hsortedA hpA
      subst L'
      have hassoc₀ : [] ++ (A' ++ N :: flatten_segments [(B', L)]) = A' ++ N :: (B' ++ [L]) := by
        simp [flatten_segments]
      refine ⟨s', A', B', hres, hassoc₀ ▸ hsp₁, hpA, hpB, ?_, ?_⟩
      · intro upper hu lower hl hlink
        have hu' : upper ∈ A' := hpA.mem_iff.mpr hu
        have hleft := hsp₁.left upper (List.mem_append_right _ (List.mem_append_left _ hu'))
        rw [successor_mid hsp₁.nodup hu', hlink] at hleft
        cases hsucc : successor A' upper with
        | some b =>
          rw [hsucc] at hleft
          rw [Option.some.inj hleft]
          exact pairwise_successor hsortedA hsucc
        | none =>
          rw [hsucc] at hleft
          simp only [List.head?_cons, Option.some.injEq] at hleft
          exfalso
          have hnd := (List.nodup_append.mp hsp₁.nodup).2.1
          exact (List.nodup_append.mp hnd).2.2 (hpA.mem_iff.mpr hl) (hleft ▸ List.mem_cons_self _ _)
      · intro upper hu lower hl hlink
        have hu' : upper ∈ B' := hpB.mem_iff.mpr hu
        have hassoc : [] ++ (A' ++ N :: flatten_segments [(B', L)]) =
            (A' ++ [N]) ++ (B' ++ [L]) := by
          simp [flatten_segments]
        rw [hassoc] at hsp₁
        have hleft := hsp₁.left upper (List.mem_append_right _ (List.mem_append_left _ hu'))
        rw [successor_mid hsp₁.nodup hu', hlink] at hleft
        cases hsucc : successor B' upper with
        | some b =>
          rw [hsucc] at hleft
          rw [Option.some.inj hleft]
          exact pairwise_successor hsortedB hsucc
        | none =>
          rw [hsucc] at hleft
          simp only [List.head?_cons, Option.some.injEq] at hleft
          exfalso
          have hnd := (List.nodup_append.mp hsp₁.nodup).2.1
          exact (List.nodup_append.mp hnd).2.2 (hpB.mem_iff.mpr hl) (hleft ▸ List.mem_singleton_self _)

end opossum

namespace opossum

theorem apply_to_reorders_both_chains_witness :
    (∃ s₁, _reorder_predicates insertion_sort two_chain_est two_chain_plan [1, 2] = some s₁ ∧
      apply_to insertion_sort two_chain_est 6 two_chain_plan 1 =
        (apply_to insertion_sort two_chain_est (6 - 1) s₁ 3).bind fun s₂ =>
          _apply_to_inputs (fun st n => apply_to insertion_sort two_chain_est (6 - 1) st n) s₂ 1) ∧
    ∃ s' A' B', apply_to insertion_sort two_chain_est 6 two_chain_plan 1 = some s' ∧
      IsSpine s' (A' ++ 3 :: (B' ++ [6])) ∧ List.Perm A' [1, 2] ∧ List.Perm B' [4, 5] ∧
      (∀ upper ∈ [1, 2], ∀ lower ∈ [1, 2], (s' upper).left_input = some lower →
        two_chain_card lower (some 3) ≤ two_chain_card upper (some 3)) ∧
      (∀ upper ∈ [4, 5], ∀ lower ∈ [4, 5], (s' upper).left_input = some lower →
        two_chain_card lower (some 6) ≤ two_chain_card upper (some 6)) :=
  apply_to_reorders_both_chains insertion_sort insertion_sort_contract two_chain_est
    two_chain_card (fun _ _ => rfl) two_chain_plan [1, 2] [4, 5] 3 6 1 6
    ⟨check_back_refs_sound _ (by decide), by decide, by decide, by decide, by decide, by decide⟩
    (by decide) (by decide) (by decide) (by decide) (by decide) (by decide) (by decide)

end opossum


namespace opossum

/-! ## The plan cost is the sum over the reachable nodes -/

theorem reachable_of_input {s : LQP} {n q v : Nat} (side : LQPInputSide)
    (hq : input s n side = some q) (h : Reachable s q v) : Reachable s n v := by
  induction h with
  | root => exact Reachable.step side Reachable.root hq
  | step side2 _ hm ih => exact Reachable.step side2 ih hm

/-- What the traversal returns: the nodes `added` to the visited set are new and distinct, each
of them was costed once, the final visited set holds the queue and the inputs of every added
node, and every added node is reachable from a queued node. -/
theorem sum_node_costs_spec (node_cost : LQP → Nat → Cost) (s : LQP) :
    ∀ (fuel : Nat) (queue : List (Option Nat)) (visited : List Nat) (cost : Cost) (calls : Nat)
      (r : Cost × Nat),
      sum_node_costs node_cost s fuel queue visited cost calls = some r → visited.Nodup →
      ∃ added : List Nat, (added ++ visited).Nodup ∧
        r = (cost + (added.map (node_cost s)).sum, calls + added.length) ∧
        (∀ m, some m ∈ queue → m ∈ added ++ visited) ∧
        (∀ v ∈ added, ∀ side m, input s v side = some m → m ∈ added ++ visited) ∧
        (∀ v ∈ added, ∃ q, some q ∈ queue ∧ Reachable s q v) := by
  intro fuel
  induction fuel with
  | zero =>
    intro queue visited cost calls r h hnd
    cases queue with
    | nil =>
      simp only [sum_node_costs, Option.some.injEq] at h
      exact ⟨[], by simpa using hnd, by simp [← h], by simp, by simp, by simp⟩
    | cons a l => simp [sum_node_costs] at h
  | succ f ih =>
    intro queue visited cost calls r h hnd
    cases queue with
    | nil =>
      simp only [sum_node_costs, Option.some.injEq] at h
      exact ⟨[], by simpa using hnd, by simp [← h], by simp, by simp, by simp⟩
    | cons a rest =>
      cases a with
      | none =>
        simp only [sum_node_costs] at h
        obtain ⟨added, h1, h2, h3, h4, h5⟩ := ih rest visited cost calls r h hnd
        refine ⟨added, h1, h2, ?_, h4, ?_⟩
        · intro m hm
          simp only [List.mem_cons, reduceCtorEq, false_or] at hm
          exact h3 m hm
        · intro v hv
          obtain ⟨q, hq, hr⟩ := h5 v hv
          exact ⟨q, List.mem_cons_of_mem _ hq, hr⟩
      | some n =>
        simp only [sum_node_costs] at h
        by_cases hn : n ∈ visited
        · rw [if_pos hn] at h
          obtain ⟨added, h1, h2, h3, h4, h5⟩ := ih rest visited cost calls r h hnd
          refine ⟨added, h1, h2, ?_, h4, ?_⟩
          · intro m hm
            simp only [List.mem_cons, Option.some.injEq] at hm
            rcases hm with hm | hm
            · rw [hm]; exact List.mem_append_right _ hn
            · exact h3 m hm
          · intro v hv
            obtain ⟨q, hq, hr⟩ := h5 v hv
            exact ⟨q, List.mem_cons_of_mem _ hq, hr⟩
        · rw [if_neg hn] at h
          obtain ⟨added, h1, h2, h3, h4, h5⟩ :=
            ih _ (n :: visited) _ _ r h (List.nodup_cons.mpr ⟨hn, hnd⟩)
          have happ : (added ++ [n]) ++ visited = added ++ n :: visited := by simp
          refine ⟨added ++ [n], by rw [happ]; exact h1, ?_, ?_, ?_, ?_⟩
          · rw [h2]
            simp only [List.map_append, List.map_cons, List.map_nil, List.sum_append,
              List.sum_cons, List.sum_nil, List.length_append, List.length_singleton,
              Prod.mk.injEq]
            constructor
            · ring
            · omega
          · intro m hm
            rw [happ]
            simp only [List.mem_cons, Option.some.injEq] at hm
            rcases hm with hm | hm
            · rw [hm]; simp
            · exact h3 m (List.mem_append_left _ hm)
          · intro v hv side m hm
            rw [happ]
            rcases List.mem_append.mp hv with hv | hv
            · exact h4 v hv side m hm
            · simp only [List.mem_singleton] at hv
              subst hv
              apply h3
              cases side with
              | Left =>
                have : (s v).left_input = some m := hm
                simp [this]
              | Right =>
                have : (s v).right_input = some m := hm
                simp [this]
          · intro v hv
            rcases List.mem_append.mp hv with hv | hv
            · obtain ⟨q, hq, hr⟩ := h5 v hv
              rcases List.mem_append.mp hq with hq | hq
              · exact ⟨q, List.mem_cons_of_mem _ hq, hr⟩
              · refine ⟨n, List.mem_cons_self _ _, ?_⟩
                simp only [List.mem_cons, List.mem_singleton, List.not_mem_nil, or_false] at hq
                rcases hq with hq | hq
                · exact reachable_of_input LQPInputSide.Left hq.symm hr
                · exact reachable_of_input LQPInputSide.Right hq.symm hr
            · simp only [List.mem_singleton] at hv
              subst hv
              exact ⟨v, List.mem_cons_self _ _, Reachable.root⟩

/-- C11: on a plan of `size` nodes, with the cost cache disabled or empty, `estimate_plan_cost`
returns the sum of `estimate_node_cost` over a duplicate-free list `nodes` that holds exactly the
nodes reachable from `root`, and it calls `estimate_node_cost` once per such node: a node shared
by several consumers is counted once. -/
theorem estimate_plan_cost_sums_reachable (node_cost : LQP → Nat → Cost) (s : LQP) (size : Nat)
    (e : CostEstimator) (root fuel : Nat) (hclosed : inputs_below s size = true)
    (hroot : root < size) (hfuel : 2 * size + 1 ≤ fuel)
    (hcache : e.cost_estimation_cache.cost_by_lqp = none ∨
      e.cost_estimation_cache.cost_by_lqp = some []) :
    ∃ (nodes : List Nat) (e₁ : CostEstimator), estimate_plan_cost node_cost s fuel e root =
        some ((nodes.map (node_cost s)).sum, e₁) ∧
      nodes.Nodup ∧ (∀ n, n ∈ nodes ↔ Reachable s root n) ∧
      e₁.node_cost_calls = e.node_cost_calls + nodes.length := by
  obtain ⟨r, hr⟩ := sum_node_costs_terminates node_cost hclosed fuel [some root] [] 0
    e.node_cost_calls
    (by
      intro m hm
      simp only [List.mem_singleton, Option.some.injEq] at hm
      rw [hm]; exact hroot)
    List.nodup_nil (by simp) (by simpa using hfuel)
  obtain ⟨nodes, hnd, hres, hqueue, hinputs, hreach⟩ :=
    sum_node_costs_spec node_cost s fuel [some root] [] 0 e.node_cost_calls r hr List.nodup_nil
  simp only [List.append_nil] at hnd hqueue hinputs
  have hmem : ∀ n, n ∈ nodes ↔ Reachable s root n := by
    intro n
    constructor
    · intro hn
      obtain ⟨q, hq, hqn⟩ := hreach n hn
      simp only [List.mem_singleton, Option.some.injEq] at hq
      rw [← hq]; exact hqn
    · intro hn
      induction hn with
      | root => exact hqueue root (List.mem_singleton_self _)
      | step side _ hm ih => exact hinputs _ ih side _ hm
  have hr1 : r.1 = (nodes.map (node_cost s)).sum := by rw [hres]; simp
  have hr2 : r.2 = e.node_cost_calls + nodes.length := by rw [hres]
  rcases hcache with hc | hc
  · refine ⟨nodes, { e with node_cost_calls := r.2 }, ?_, hnd, hmem, hr2⟩
    simp [estimate_plan_cost, hc, hr, hr1]
  · refine ⟨nodes, { cost_estimation_cache := ⟨some [(root, r.1)]⟩, node_cost_calls := r.2 },
      ?_, hnd, hmem, hr2⟩
    simp [estimate_plan_cost, hc, hr, hr1, List.lookup]

theorem estimate_plan_cost_sums_reachable_witness :
    ∃ (nodes : List Nat) (e₁ : CostEstimator), estimate_plan_cost example_node_cost shared_plan 9 ⟨⟨none⟩, 0⟩ 0 =
        some ((nodes.map (example_node_cost shared_plan)).sum, e₁) ∧
      nodes.Nodup ∧ (∀ n, n ∈ nodes ↔ Reachable shared_plan 0 n) ∧
      e₁.node_cost_calls = 0 + nodes.length :=
  estimate_plan_cost_sums_reachable example_node_cost shared_plan 4 ⟨⟨none⟩, 0⟩ 0 9 (by decide)
    (by decide) (by decide) (Or.inl rfl)

/-- On `shared_plan` the four nodes cost 1 + 2 + 3 + 4 = 10 and four node costs are computed:
the stored table 3, consumed by both filters, is counted once. -/
theorem estimate_plan_cost_shared_plan :
    estimate_plan_cost example_node_cost shared_plan 9 ⟨⟨none⟩, 0⟩ 0 =
      some (10, ⟨⟨none⟩, 4⟩) := by
  simp [estimate_plan_cost, sum_node_costs, shared_plan, plan_of_list, example_node_cost]
  norm_num

end opossum


namespace opossum

/-! ## Greedy operator ordering: selection of the minimum -/

theorem select_min_eq_none {α : Type} {less : α → α → Bool} {l : List α} :
    select_min less l = none ↔ l = [] := by
  cases l with
  | nil => simp [select_min]
  | cons a l =>
    simp only [select_min, reduceCtorEq, iff_false]
    cases select_min less l with
    | none => simp
    | some b => by_cases h : less b a = true <;> simp [h]

theorem select_min_mem {α : Type} {less : α → α → Bool} :
    ∀ {l : List α} {m : α}, select_min less l = some m → m ∈ l := by
  intro l
  induction l with
  | nil => intro m h; simp [select_min] at h
  | cons a l ih =>
    intro m h
    simp only [select_min] at h
    cases hl : select_min less l with
    | none =>
      rw [hl] at h
      simp only [Option.some.injEq] at h
      rw [← h]; exact List.mem_cons_self _ _
    | some b =>
      rw [hl] at h
      by_cases hb : less b a = true
      · simp only [hb, if_true, Option.some.injEq] at h
        rw [← h]; exact List.mem_cons_of_mem _ (ih hl)
      · simp only [hb, Bool.false_eq_true, if_false, Option.some.injEq] at h
        rw [← h]; exact List.mem_cons_self _ _

theorem select_min_isSome {α : Type} {less : α → α → Bool} {l : List α} (h : l ≠ []) :
    ∃ m, select_min less l = some m := by
  cases hm : select_min less l with
  | none => exact absurd (select_min_eq_none.mp hm) h
  | some m => exact ⟨m, rfl⟩

/-- The selected element is a least one: no element of the list comes before it, provided
`less` is asymmetric and negatively transitive. -/
theorem select_min_least {α : Type} {less : α → α → Bool}
    (hasymm : ∀ a b, less a b = true → less b a = false)
    (hneg : ∀ a b c, less a c = true → less a b = true ∨ less b c = true) :
    ∀ {l : List α} {m : α}, select_min less l = some m → ∀ x ∈ l, less x m = false := by
  have hirrefl : ∀ a, less a a = false := by
    intro a
    cases h : less a a with
    | false => rfl
    | true => have := hasymm a a h; rw [h] at this; exact this
  intro l
  induction l with
  | nil => intro m h; simp [select_min] at h
  | cons a l ih =>
    intro m h x hx
    simp only [select_min] at h
    cases hl : select_min less l with
    | none =>
      rw [hl] at h
      simp only [Option.some.injEq] at h
      have hnil := select_min_eq_none.mp hl
      subst hnil
      simp only [List.mem_singleton] at hx
      rw [hx, h]; exact hirrefl m
    | some b =>
      rw [hl] at h
      by_cases hb : less b a = true
      · simp only [hb, if_true, Option.some.injEq] at h
        subst h
        rcases List.mem_cons.mp hx with hx | hx
        · rw [hx]; exact hasymm _ _ hb
        · exact ih hl x hx
      · simp only [hb, Bool.false_eq_true, if_false, Option.some.injEq] at h
        subst h
        rcases List.mem_cons.mp hx with hx | hx
        · rw [hx]; exact hirrefl _
        · cases hxa : less x a with
          | false => rfl
          | true =>
            rcases hneg x b a hxa with h1 | h1
            · rw [ih hl x hx] at h1; exact absurd h1 (by simp)
            · exact absurd h1 hb

/-- The selection does not depend on the order of the list when `less` is moreover total on
the elements of the list. -/
theorem select_min_perm {α : Type} {less : α → α → Bool}
    (hasymm : ∀ a b, less a b = true → less b a = false)
    (hneg : ∀ a b c, less a c = true → less a b = true ∨ less b c = true)
    {l₁ l₂ : List α} (hp : l₁.Perm l₂)
    (htotal : ∀ a ∈ l₁, ∀ b ∈ l₁, a ≠ b → less a b = true ∨ less b a = true) :
    select_min less l₁ = select_min less l₂ := by
  cases h₁ : select_min less l₁ with
  | none =>
    have := select_min_eq_none.mp h₁
    subst this
    rw [List.nil_perm.mp hp]
    simp [select_min]
  | some m₁ =>
    cases h₂ : select_min less l₂ with
    | none =>
      have := select_min_eq_none.mp h₂
      subst this
      have := List.perm_nil.mp hp
      subst this
      simp [select_min] at h₁
    | some m₂ =>
      have hm₁ := select_min_mem h₁
      have hm₂ := hp.mem_iff.mpr (select_min_mem h₂)
      have hl₁ := select_min_least hasymm hneg h₁ m₂ hm₂
      have hl₂ := select_min_least hasymm hneg h₂ m₁ (hp.mem_iff.mp hm₁)
      by_cases heq : m₁ = m₂
      · rw [heq]
      · rcases htotal m₁ hm₁ m₂ hm₂ heq with h | h
        · rw [hl₂] at h; exact absurd h (by simp)
        · rw [hl₁] at h; exact absurd h (by simp)

theorem candidate_less_asymm (cost : JoinPlan → Cost) (a b : JoinCandidate)
    (h : candidate_less cost a b = true) : candidate_less cost b a = false := by
  unfold candidate_less at h ⊢
  simp only [Bool.or_eq_true, Bool.and_eq_true, decide_eq_true_eq] at h
  simp only [Bool.or_eq_false_iff, Bool.and_eq_false_imp, decide_eq_false_iff_not,
    decide_eq_true_eq]
  rcases h with h | ⟨h1, h | ⟨h2, h3⟩⟩
  · exact ⟨by linarith, fun h' => absurd h' (by linarith)⟩
  · exact ⟨by linarith, fun _ => ⟨by omega, fun _ => by omega⟩⟩
  · exact ⟨by linarith, fun _ => ⟨by omega, fun _ => by omega⟩⟩

theorem candidate_less_neg_trans (cost : JoinPlan → Cost) (a b c : JoinCandidate)
    (h : candidate_less cost a c = true) :
    candidate_less cost a b = true ∨ candidate_less cost b c = true := by
  unfold candidate_less at h ⊢
  simp only [Bool.or_eq_true, Bool.and_eq_true, decide_eq_true_eq] at h ⊢
  rcases lt_trichotomy (cost a.plan) (cost b.plan) with hab | hab | hab
  · exact Or.inl (Or.inl hab)
  · rcases h with h | ⟨h1, h⟩
    · exact Or.inr (Or.inl (by linarith))
    · rcases lt_trichotomy (bit_pattern a.vertex_set) (bit_pattern b.vertex_set) with
        hp | hp | hp
      · exact Or.inl (Or.inr ⟨hab, Or.inl hp⟩)
      · rcases h with h | ⟨h2, h3⟩
        · exact Or.inr (Or.inr ⟨by linarith, Or.inl (by omega)⟩)
        · rcases Nat.lt_or_ge a.edge_index b.edge_index with hi | hi
          · exact Or.inl (Or.inr ⟨hab, Or.inr ⟨hp, hi⟩⟩)
          · exact Or.inr (Or.inr ⟨by linarith, Or.inr ⟨by omega, by omega⟩⟩)
      · rcases h with h | ⟨h2, h3⟩
        · exact Or.inr (Or.inr ⟨by linarith, Or.inl (by omega)⟩)
        · exact Or.inr (Or.inr ⟨by linarith, Or.inl (by omega)⟩)
  · rcases h with h | ⟨h1, h⟩
    · exact Or.inr (Or.inl (by linarith))
    · exact Or.inr (Or.inl (by linarith))

theorem cluster_less_asymm (cost : JoinPlan → Cost) (a b : Cluster)
    (h : cluster_less cost a b = true) : cluster_less cost b a = false := by
  unfold cluster_less at h ⊢
  simp only [Bool.or_eq_true, Bool.and_eq_true, decide_eq_true_eq] at h
  simp only [Bool.or_eq_false_iff, Bool.and_eq_false_imp, decide_eq_false_iff_not,
    decide_eq_true_eq]
  rcases h with h | ⟨h1, h⟩
  · exact ⟨by linarith, fun h' => absurd h' (by linarith)⟩
  · exact ⟨by linarith, fun _ => by omega⟩

theorem cluster_less_neg_trans (cost : JoinPlan → Cost) (a b c : Cluster)
    (h : cluster_less cost a c = true) :
    cluster_less cost a b = true ∨ cluster_less cost b c = true := by
  unfold cluster_less at h ⊢
  simp only [Bool.or_eq_true, Bool.and_eq_true, decide_eq_true_eq] at h ⊢
  rcases lt_trichotomy (cost a.plan) (cost b.plan) with hab | hab | hab
  · exact Or.inl (Or.inl hab)
  · rcases h with h | ⟨h1, h⟩
    · exact Or.inr (Or.inl (by linarith))
    · rcases Nat.lt_or_ge (bit_pattern a.vertex_set) (bit_pattern b.vertex_set) with hp | hp
      · exact Or.inl (Or.inr ⟨hab, hp⟩)
      · exact Or.inr (Or.inr ⟨by linarith, by omega⟩)
  · rcases h with h | ⟨h1, h⟩
    · exact Or.inr (Or.inl (by linarith))
    · exact Or.inr (Or.inl (by linarith))

end opossum


namespace opossum

/-! ## Greedy operator ordering: one merge step -/

theorem mem_erase_of_pair_sublist {l : List Cluster} {x y : Cluster}
    (h : List.Sublist [x, y] l) : x ∈ l ∧ y ∈ l ∧ y ∈ l.erase x ∧ x ∈ l.erase y := by
  have hx : x ∈ l := h.subset (by simp)
  have hy : y ∈ l := h.subset (by simp)
  refine ⟨hx, hy, ?_, ?_⟩
  · have h1 := h.erase x
    rw [List.erase_cons_head] at h1
    exact h1.subset (by simp)
  · have h1 := h.erase y
    by_cases hxy : x = y
    · subst hxy
      rw [List.erase_cons_head] at h1
      exact h1.subset (by simp)
    · rw [List.erase_cons_tail (by simpa using hxy), List.erase_cons_head] at h1
      exact h1.subset (by simp)

theorem ordered_pair_cases (x y : Cluster) :
    ordered_pair x y = (x, y) ∨ ordered_pair x y = (y, x) := by
  unfold ordered_pair
  by_cases h : bit_pattern x.vertex_set ≤ bit_pattern y.vertex_set
  · left; rw [if_pos h]
  · right; rw [if_neg h]

/-- A candidate is built from an edge that spans exactly two clusters of the container. -/
theorem build_candidate_spec {clusters : List Cluster} {i : Nat} {edge : JoinGraphEdge}
    {c : JoinCandidate} (h : build_candidate clusters i edge = some c) :
    ∃ x y, clusters.filter (spans edge) = [x, y] ∧
      c = ⟨i, (ordered_pair x y).1, (ordered_pair x y).2, edge.predicates⟩ := by
  unfold build_candidate at h
  split at h
  · rename_i a b hab
    exact ⟨a, b, hab, (Option.some.inj h).symm⟩
  · exact absurd h (by simp)

theorem build_candidate_mem {clusters : List Cluster} {i : Nat} {edge : JoinGraphEdge}
    {c : JoinCandidate} (h : build_candidate clusters i edge = some c) :
    c.left ∈ clusters ∧ c.right ∈ clusters.erase c.left ∧ c.predicates = edge.predicates ∧
      spans edge c.left = true ∧ spans edge c.right = true := by
  obtain ⟨x, y, hf, hc⟩ := build_candidate_spec h
  have hsub : List.Sublist [x, y] clusters := hf ▸ List.filter_sublist clusters
  obtain ⟨hx, hy, hyx, hxy⟩ := mem_erase_of_pair_sublist hsub
  have hsx : spans edge x = true := (List.mem_filter.mp (hf ▸ (by simp : x ∈ [x, y]))).2
  have hsy : spans edge y = true := (List.mem_filter.mp (hf ▸ (by simp : y ∈ [x, y]))).2
  rcases ordered_pair_cases x y with ho | ho
  · rw [ho] at hc
    subst hc
    exact ⟨hx, hyx, rfl, hsx, hsy⟩
  · rw [ho] at hc
    subst hc
    exact ⟨hy, hxy, rfl, hsy, hsx⟩

theorem mem_candidates {edges : List JoinGraphEdge} {clusters : List Cluster}
    {c : JoinCandidate} :
    c ∈ candidates edges clusters ↔
      ∃ ie ∈ edges.enum, build_candidate clusters ie.1 ie.2 = some c := by
  unfold candidates
  rw [List.mem_filterMap]

theorem mem_edges_of_mem_enum {edges : List JoinGraphEdge} {ie : Nat × JoinGraphEdge}
    (h : ie ∈ edges.enum) : ie.2 ∈ edges := by
  have := List.mem_enum h
  simp only [List.getElem?_eq_some_iff] at this
  obtain ⟨hlt, heq⟩ := this
  rw [heq]
  exact List.getElem_mem hlt

/-- What a merge step does: it takes two clusters `a` and `b` out of the container and builds
the cluster of their union, whose plan is a join of the two plans on the predicates of an edge
that spans `a` and `b`, or, when there is no candidate, their cross join. -/
theorem greedy_step_spec {cost : JoinPlan → Cost} {edges : List JoinGraphEdge}
    {clusters : List Cluster} {new : Cluster} {rest : List Cluster}
    (h : greedy_step cost edges clusters = some (new, rest)) :
    ∃ a b, a ∈ clusters ∧ b ∈ clusters.erase a ∧ rest = (clusters.erase a).erase b ∧
      new.vertex_set = a.vertex_set ∪ b.vertex_set ∧
      ((∃ edge ∈ edges, spans edge a = true ∧ spans edge b = true ∧
          new.plan = JoinPlan.join a.plan b.plan edge.predicates) ∨
        (candidates edges clusters = [] ∧ new.plan = JoinPlan.cross a.plan b.plan)) := by
  unfold greedy_step at h
  cases hsel : select_min (candidate_less cost) (candidates edges clusters) with
  | some c =>
    rw [hsel] at h
    simp only [Option.some.injEq, Prod.mk.injEq] at h
    obtain ⟨hnew, hrest⟩ := h
    obtain ⟨ie, hie, hb⟩ := mem_candidates.mp (select_min_mem hsel)
    obtain ⟨h1, h2, h3, h4, h5⟩ := build_candidate_mem hb
    refine ⟨c.left, c.right, h1, h2, hrest.symm, by rw [← hnew]; rfl, Or.inl ?_⟩
    refine ⟨ie.2, mem_edges_of_mem_enum hie, h4, h5, ?_⟩
    rw [← hnew, ← h3]; rfl
  | none =>
    rw [hsel] at h
    simp only at h
    unfold cross_fallback at h
    cases ha : select_min (cluster_less cost) clusters with
    | none => rw [ha] at h; simp at h
    | some a =>
      rw [ha] at h
      simp only at h
      cases hb : select_min (cluster_less cost) (clusters.erase a) with
      | none => rw [hb] at h; simp at h
      | some b =>
        rw [hb] at h
        simp only [Option.some.injEq, Prod.mk.injEq] at h
        obtain ⟨hnew, hrest⟩ := h
        refine ⟨a, b, select_min_mem ha, select_min_mem hb, hrest.symm, by rw [← hnew],
          Or.inr ⟨select_min_eq_none.mp hsel, by rw [← hnew]⟩⟩

/-- A merge step is possible whenever two clusters remain. -/
theorem greedy_step_progress (cost : JoinPlan → Cost) (edges : List JoinGraphEdge)
    (clusters : List Cluster) (h : 2 ≤ clusters.length) :
    ∃ r, greedy_step cost edges clusters = some r := by
  unfold greedy_step
  cases hsel : select_min (candidate_less cost) (candidates edges clusters) with
  | some c => exact ⟨_, rfl⟩
  | none =>
    simp only
    unfold cross_fallback
    have hne : clusters ≠ [] := by
      intro h0; rw [h0] at h; simp at h
    obtain ⟨a, ha⟩ := @select_min_isSome _ (cluster_less cost) _ hne
    have hne2 : clusters.erase a ≠ [] := by
      intro h0
      have := List.length_erase_of_mem (select_min_mem ha)
      rw [h0] at this
      simp only [List.length_nil] at this
      omega
    obtain ⟨b, hb⟩ := @select_min_isSome _ (cluster_less cost) _ hne2
    simp only [ha, hb]
    exact ⟨_, rfl⟩

theorem greedy_step_length {cost : JoinPlan → Cost} {edges : List JoinGraphEdge}
    {clusters : List Cluster} {new : Cluster} {rest : List Cluster}
    (h : greedy_step cost edges clusters = some (new, rest)) :
    rest.length + 2 = clusters.length := by
  obtain ⟨a, b, ha, hb, hrest, _⟩ := greedy_step_spec h
  have h1 := List.length_erase_of_mem ha
  have h2 := List.length_erase_of_mem hb
  have h3 : 0 < clusters.length := List.length_pos_of_mem ha
  have h4 : 0 < (clusters.erase a).length := List.length_pos_of_mem hb
  rw [hrest]
  omega

/-- The loop of the greedy ordering comes to an end with one cluster, and every property of the
cluster container that does not depend on its order and that a merge step keeps holds for that
last cluster. -/
theorem greedy_loop_invariant (order : List Cluster → List Cluster)
    (horder : ∀ l, (order l).Perm l) (cost : JoinPlan → Cost) (edges : List JoinGraphEdge)
    (I : List Cluster → Prop) (hperm : ∀ l₁ l₂, List.Perm l₁ l₂ → I l₁ → I l₂)
    (hstep : ∀ clusters new rest, I clusters →
      greedy_step cost edges clusters = some (new, rest) → I (new :: rest)) :
    ∀ (fuel : Nat) (clusters merges : List Cluster), I clusters → clusters ≠ [] →
      clusters.length ≤ fuel + 1 →
      ∃ c merges', greedy_loop order cost edges fuel clusters merges = some (c.plan, merges') ∧
        I [c] := by
  intro fuel
  induction fuel with
  | zero =>
    intro clusters merges hI hne hlen
    match clusters, hne, hlen, hI with
    | [c], _, _, hI => exact ⟨c, merges, by simp [greedy_loop], hI⟩
    | _ :: _ :: _, _, hlen, _ => simp at hlen
  | succ f ih =>
    intro clusters merges hI hne hlen
    match clusters, hne, hlen, hI with
    | [c], _, _, hI => exact ⟨c, merges, by simp [greedy_loop], hI⟩
    | c₁ :: c₂ :: l, _, hlen, hI =>
      obtain ⟨⟨new, rest⟩, hr⟩ :=
        greedy_step_progress cost edges (c₁ :: c₂ :: l) (by simp)
      have hlen2 := greedy_step_length hr
      have hI2 := hperm _ _ (horder (new :: rest)).symm (hstep _ _ _ hI hr)
      have hlen3 : (order (new :: rest)).length ≤ f + 1 := by
        rw [(horder (new :: rest)).length_eq]
        simp only [List.length_cons] at hlen hlen2 ⊢
        omega
      have hne2 : order (new :: rest) ≠ [] := by
        intro h0
        have := (horder (new :: rest)).length_eq
        rw [h0] at this
        simp at this
      obtain ⟨c, merges', hloop, hIc⟩ := ih (order (new :: rest)) (merges ++ [new]) hI2 hne2 hlen3
      refine ⟨c, merges', ?_, hIc⟩
      rw [greedy_loop]
      · rw [hr]; exact hloop
      · intro c' hc'; simp at hc'

end opossum


namespace opossum

/-! ## Greedy operator ordering: the clusters partition the vertices -/

theorem mem_initial_clusters {join_graph : JoinGraph} {c : Cluster} :
    c ∈ initial_clusters join_graph ↔
      ∃ i v, join_graph.vertices[i]? = some v ∧ c = ⟨{i}, JoinPlan.vertex v⟩ := by
  unfold initial_clusters
  rw [List.mem_map]
  constructor
  · rintro ⟨iv, hiv, hc⟩
    exact ⟨iv.1, iv.2, List.mem_enum_iff_getElem?.mp hiv, hc.symm⟩
  · rintro ⟨i, v, hiv, hc⟩
    exact ⟨(i, v), List.mk_mem_enum_iff_getElem?.mpr hiv, hc.symm⟩

theorem initial_clusters_length (join_graph : JoinGraph) :
    (initial_clusters join_graph).length = join_graph.vertices.length := by
  simp [initial_clusters, List.enum_length]

theorem initial_clusters_leaves (join_graph : JoinGraph) :
    (initial_clusters join_graph).flatMap (fun c => c.plan.leaves) = join_graph.vertices := by
  unfold initial_clusters
  have h : ∀ l : List (Nat × Nat),
      (l.map fun iv => (⟨{iv.1}, JoinPlan.vertex iv.2⟩ : Cluster)).flatMap
        (fun c => c.plan.leaves) = l.map Prod.snd := by
    intro l
    induction l with
    | nil => rfl
    | cons a l ih =>
      simp only [List.map_cons, List.flatMap_cons, JoinPlan.leaves, List.singleton_append,
        List.cons.injEq, true_and]
      exact ih
  rw [h, List.enum_map_snd]

theorem initial_clusters_nodes (join_graph : JoinGraph) :
    ((initial_clusters join_graph).map
      fun c => c.plan.join_count + c.plan.cross_count).sum = 0 := by
  unfold initial_clusters
  rw [List.map_map]
  apply List.sum_eq_zero
  intro x hx
  obtain ⟨iv, _, h⟩ := List.mem_map.mp hx
  rw [← h]
  rfl

theorem initial_clusters_partition (join_graph : JoinGraph) :
    ClusterPartition join_graph.vertices.length (initial_clusters join_graph) := by
  refine ⟨?_, ?_, ?_, ?_⟩
  · apply List.Nodup.of_map (fun c : Cluster => c.vertex_set)
    unfold initial_clusters
    rw [List.map_map]
    have : (fun c : Cluster => c.vertex_set) ∘
        (fun iv : Nat × Nat => (⟨{iv.1}, JoinPlan.vertex iv.2⟩ : Cluster)) =
        (fun i : Nat => ({i} : Finset Nat)) ∘ Prod.fst := rfl
    rw [this, ← List.map_map, List.enum_map_fst]
    exact (List.nodup_range _).map Finset.singleton_injective
  · intro a ha
    obtain ⟨i, v, _, hc⟩ := mem_initial_clusters.mp ha
    rw [hc]
    exact Finset.singleton_nonempty i
  · intro a ha b hb hab
    obtain ⟨i, v, hiv, hc⟩ := mem_initial_clusters.mp ha
    obtain ⟨j, w, hjw, hd⟩ := mem_initial_clusters.mp hb
    subst hc hd
    simp only [Finset.disjoint_singleton]
    intro hij
    subst hij
    rw [hiv] at hjw
    simp only [Option.some.injEq] at hjw
    subst hjw
    exact hab rfl
  · intro i
    constructor
    · intro hi
      refine ⟨⟨{i}, JoinPlan.vertex join_graph.vertices[i]⟩, ?_, by simp⟩
      exact mem_initial_clusters.mpr ⟨i, _, List.getElem?_eq_getElem hi, rfl⟩
    · rintro ⟨c, hc, hic⟩
      obtain ⟨j, v, hjv, hd⟩ := mem_initial_clusters.mp hc
      subst hd
      simp only [Finset.mem_singleton] at hic
      subst hic
      exact (List.getElem?_eq_some_iff.mp hjv).1

theorem ClusterPartition.perm {n : Nat} {l₁ l₂ : List Cluster} (hp : List.Perm l₁ l₂)
    (h : ClusterPartition n l₁) : ClusterPartition n l₂ := by
  obtain ⟨h1, h2, h3, h4⟩ := h
  refine ⟨hp.nodup_iff.mp h1, ?_, ?_, ?_⟩
  · intro a ha; exact h2 a (hp.mem_iff.mpr ha)
  · intro a ha b hb; exact h3 a (hp.mem_iff.mpr ha) b (hp.mem_iff.mpr hb)
  · intro i
    rw [h4 i]
    constructor
    · rintro ⟨c, hc, hi⟩; exact ⟨c, hp.mem_iff.mp hc, hi⟩
    · rintro ⟨c, hc, hi⟩; exact ⟨c, hp.mem_iff.mpr hc, hi⟩

/-- Membership in the container after two clusters were taken out of a partition. -/
theorem ClusterPartition.mem_rest {n : Nat} {clusters : List Cluster}
    (h : ClusterPartition n clusters) (a b r : Cluster) :
    r ∈ (clusters.erase a).erase b ↔ r ≠ b ∧ r ≠ a ∧ r ∈ clusters := by
  rw [(h.1.erase a).mem_erase_iff, h.1.mem_erase_iff]

/-- Merging two clusters of a partition gives a partition. -/
theorem ClusterPartition.merge {n : Nat} {clusters : List Cluster}
    (h : ClusterPartition n clusters) {a b : Cluster} (ha : a ∈ clusters)
    (hb : b ∈ clusters.erase a) (plan : JoinPlan) :
    ClusterPartition n (⟨a.vertex_set ∪ b.vertex_set, plan⟩ :: (clusters.erase a).erase b) := by
  have hrest := h.mem_rest a b
  obtain ⟨h1, h2, h3, h4⟩ := h
  obtain ⟨hba, hb'⟩ := h1.mem_erase_iff.mp hb
  have hnew : ∀ r ∈ (clusters.erase a).erase b,
      Disjoint (a.vertex_set ∪ b.vertex_set) r.vertex_set := by
    intro r hr
    obtain ⟨hrb, hra, hrc⟩ := (hrest r).mp hr
    rw [Finset.disjoint_union_left]
    exact ⟨h3 a ha r hrc (Ne.symm hra), h3 b hb' r hrc (Ne.symm hrb)⟩
  have hne : (a.vertex_set ∪ b.vertex_set).Nonempty := (h2 a ha).mono Finset.subset_union_left
  refine ⟨?_, ?_, ?_, ?_⟩
  · refine List.nodup_cons.mpr ⟨?_, (h1.erase a).erase b⟩
    intro hmem
    have hd := hnew _ hmem
    simp only [disjoint_self, Finset.bot_eq_empty] at hd
    rw [hd] at hne
    exact Finset.not_nonempty_empty hne
  · intro x hx
    rcases List.mem_cons.mp hx with hx | hx
    · rw [hx]; exact hne
    · exact h2 x ((hrest x).mp hx).2.2
  · intro x hx y hy hxy
    rcases List.mem_cons.mp hx with hx | hx
    · rcases List.mem_cons.mp hy with hy | hy
      · exact absurd (hx.trans hy.symm) hxy
      · rw [hx]; exact hnew y hy
    · rcases List.mem_cons.mp hy with hy | hy
      · rw [hy]; exact (hnew x hx).symm
      · exact h3 x ((hrest x).mp hx).2.2 y ((hrest y).mp hy).2.2 hxy
  · intro i
    rw [h4 i]
    constructor
    · rintro ⟨c, hc, hi⟩
      by_cases hca : c = a
      · exact ⟨_, List.mem_cons_self _ _, Finset.mem_union_left _ (hca ▸ hi)⟩
      · by_cases hcb : c = b
        · exact ⟨_, List.mem_cons_self _ _, Finset.mem_union_right _ (hcb ▸ hi)⟩
        · exact ⟨c, List.mem_cons_of_mem _ ((hrest c).mpr ⟨hcb, hca, hc⟩), hi⟩
    · rintro ⟨c, hc, hi⟩
      rcases List.mem_cons.mp hc with hc | hc
      · rw [hc] at hi
        rcases Finset.mem_union.mp hi with hi | hi
        · exact ⟨a, ha, hi⟩
        · exact ⟨b, hb', hi⟩
      · exact ⟨c, ((hrest c).mp hc).2.2, hi⟩

/-- A merge step keeps the partition. -/
theorem ClusterPartition.step {n : Nat} {cost : JoinPlan → Cost} {edges : List JoinGraphEdge}
    {clusters : List Cluster} {new : Cluster} {rest : List Cluster}
    (h : ClusterPartition n clusters)
    (hstep : greedy_step cost edges clusters = some (new, rest)) :
    ClusterPartition n (new :: rest) := by
  obtain ⟨a, b, ha, hb, hrest, hvs, _⟩ := greedy_step_spec hstep
  have := h.merge ha hb new.plan
  rw [← hvs, ← hrest] at this
  exact this

end opossum


namespace opossum

/-! ## Greedy operator ordering: leaves and internal nodes -/

theorem perm_cons_cons_erase {clusters : List Cluster} {a b : Cluster} (ha : a ∈ clusters)
    (hb : b ∈ clusters.erase a) :
    List.Perm clusters (a :: b :: (clusters.erase a).erase b) :=
  (List.perm_cons_erase ha).trans ((List.perm_cons_erase hb).cons a)

/-- A merge step keeps the leaves of all clusters together, and it adds one internal node while
it takes away one cluster. -/
theorem greedy_step_counts {cost : JoinPlan → Cost} {edges : List JoinGraphEdge}
    {clusters : List Cluster} {new : Cluster} {rest : List Cluster}
    (h : greedy_step cost edges clusters = some (new, rest)) :
    List.Perm ((new :: rest).flatMap fun c => c.plan.leaves)
        (clusters.flatMap fun c => c.plan.leaves) ∧
      ((new :: rest).map fun c => c.plan.join_count + c.plan.cross_count).sum +
          (new :: rest).length =
        (clusters.map fun c => c.plan.join_count + c.plan.cross_count).sum + clusters.length := by
  obtain ⟨a, b, ha, hb, hrest, _, hplan⟩ := greedy_step_spec h
  have hp := perm_cons_cons_erase ha hb
  rw [← hrest] at hp
  have hleaves : new.plan.leaves = a.plan.leaves ++ b.plan.leaves := by
    rcases hplan with ⟨e, _, _, _, hj⟩ | ⟨_, hc⟩
    · rw [hj]; rfl
    · rw [hc]; rfl
  have hnodes : new.plan.join_count + new.plan.cross_count =
      (a.plan.join_count + a.plan.cross_count) + (b.plan.join_count + b.plan.cross_count) + 1 := by
    rcases hplan with ⟨e, _, _, _, hj⟩ | ⟨_, hc⟩
    · rw [hj]; simp only [JoinPlan.join_count, JoinPlan.cross_count]; omega
    · rw [hc]; simp only [JoinPlan.join_count, JoinPlan.cross_count]; omega
  constructor
  · refine List.Perm.trans ?_ (hp.flatMap_right _).symm
    simp only [List.flatMap_cons, hleaves, List.append_assoc]
    exact List.Perm.refl _
  · rw [(hp.map _).sum_eq, hp.length_eq]
    simp only [List.map_cons, List.sum_cons, List.length_cons, hnodes]
    omega

/-- The greedy ordering returns a plan for every join graph with a vertex. Its leaves are the
vertices, each once, it has `|V| - 1` internal nodes, and every property `J` of the cluster
container that holds for the singletons, does not depend on the order of the container and is
kept by a merge step on a partition holds for the last cluster. -/
theorem greedy_operator_ordering_invariant (order : List Cluster → List Cluster)
    (horder : ∀ l, (order l).Perm l) (cost : JoinPlan → Cost) (join_graph : JoinGraph)
    (hV : join_graph.vertices ≠ []) (J : List Cluster → Prop)
    (hperm : ∀ l₁ l₂, List.Perm l₁ l₂ → J l₁ → J l₂)
    (hstep : ∀ clusters new rest, ClusterPartition join_graph.vertices.length clusters →
      J clusters → greedy_step cost join_graph.edges clusters = some (new, rest) →
      J (new :: rest))
    (hinit : J (initial_clusters join_graph)) :
    ∃ c merges, GreedyOperatorOrdering order cost join_graph = some (c.plan, merges) ∧
      List.Perm c.plan.leaves join_graph.vertices ∧
      c.plan.join_count + c.plan.cross_count + 1 = join_graph.vertices.length ∧
      ClusterPartition join_graph.vertices.length [c] ∧ J [c] := by
  let I : List Cluster → Prop := fun l =>
    (List.Perm (l.flatMap fun c => c.plan.leaves) join_graph.vertices ∧
      (l.map fun c => c.plan.join_count + c.plan.cross_count).sum + l.length =
        join_graph.vertices.length) ∧
    ClusterPartition join_graph.vertices.length l ∧ J l
  have hI0 : I (order (initial_clusters join_graph)) := by
    have hp := horder (initial_clusters join_graph)
    refine ⟨⟨?_, ?_⟩, (initial_clusters_partition join_graph).perm hp.symm,
      hperm _ _ hp.symm hinit⟩
    · rw [← initial_clusters_leaves join_graph]
      exact hp.flatMap_right _
    · rw [(hp.map _).sum_eq, hp.length_eq, initial_clusters_nodes, initial_clusters_length]
      omega
  have hlen : (order (initial_clusters join_graph)).length = join_graph.vertices.length := by
    rw [(horder _).length_eq, initial_clusters_length]
  have hpos : 0 < join_graph.vertices.length := List.length_pos.mpr hV
  obtain ⟨c, merges, hloop, hIc⟩ := greedy_loop_invariant order horder cost join_graph.edges I
    (by
      rintro l₁ l₂ hp ⟨⟨h1, h2⟩, h3, h4⟩
      refine ⟨⟨(hp.symm.flatMap_right _).trans h1, ?_⟩, h3.perm hp, hperm _ _ hp h4⟩
      rw [← (hp.map _).sum_eq, ← hp.length_eq]
      exact h2)
    (by
      rintro clusters new rest ⟨⟨h1, h2⟩, h3, h4⟩ hs
      obtain ⟨hc1, hc2⟩ := greedy_step_counts hs
      exact ⟨⟨hc1.trans h1, hc2.trans h2⟩, h3.step hs, hstep _ _ _ h3 h4 hs⟩)
    join_graph.vertices.length (order (initial_clusters join_graph)) [] hI0
    (by
      intro h0
      rw [h0] at hlen
      simp only [List.length_nil] at hlen
      omega)
    (by omega)
  obtain ⟨⟨h1, h2⟩, h3, h4⟩ := hIc
  refine ⟨c, merges, hloop, ?_, ?_, h3, h4⟩
  · simpa using h1
  · simpa using h2

end opossum


namespace opossum

/-! ## Greedy operator ordering on a connected join graph -/

theorem eq_pair_of_nodup_of_mem {l : List Cluster} {a d : Cluster} (hnd : l.Nodup)
    (hmem : ∀ x, x ∈ l ↔ x = a ∨ x = d) (had : a ≠ d) : l = [a, d] ∨ l = [d, a] := by
  match l, hnd, hmem with
  | [], _, hmem => exact absurd ((hmem a).mpr (Or.inl rfl)) (by simp)
  | [x], _, hmem =>
    have h1 := (hmem a).mpr (Or.inl rfl)
    have h2 := (hmem d).mpr (Or.inr rfl)
    simp only [List.mem_singleton] at h1 h2
    exact absurd (h1.trans h2.symm) had
  | [x, y], hnd, hmem =>
    have hx := (hmem x).mp (by simp)
    have hy := (hmem y).mp (by simp)
    have hxy : x ≠ y := by
      intro h; subst h; simp at hnd
    rcases hx with hx | hx <;> rcases hy with hy | hy
    · exact absurd (hx.trans hy.symm) hxy
    · left; rw [hx, hy]
    · right; rw [hx, hy]
    · exact absurd (hx.trans hy.symm) hxy
  | x :: y :: z :: l, hnd, hmem =>
    exfalso
    have hx := (hmem x).mp (by simp)
    have hy := (hmem y).mp (by simp)
    have hz := (hmem z).mp (by simp)
    simp only [List.nodup_cons, List.mem_cons, not_or] at hnd
    obtain ⟨⟨hxy, hxz, _⟩, ⟨hyz, _⟩, _⟩ := hnd
    rcases hx with hx | hx <;> rcases hy with hy | hy <;> rcases hz with hz | hz <;>
      first
      | exact hxy (hx.trans hy.symm)
      | exact hxz (hx.trans hz.symm)
      | exact hyz (hy.trans hz.symm)

/-- On a connected join graph a partition into two clusters or more has a candidate join. -/
theorem candidates_ne_nil_of_connected {join_graph : JoinGraph} (hconn : join_graph.Connected)
    {clusters : List Cluster} (hpart : ClusterPartition join_graph.vertices.length clusters)
    {a b : Cluster} (ha : a ∈ clusters) (hb : b ∈ clusters) (hab : a ≠ b) :
    candidates join_graph.edges clusters ≠ [] := by
  obtain ⟨h1, h2, h3, h4⟩ := hpart
  have hsub : ∀ c ∈ clusters, ∀ i ∈ c.vertex_set, i < join_graph.vertices.length :=
    fun c hc i hi => (h4 i).mpr ⟨c, hc, hi⟩
  have hS : a.vertex_set ∈ (Finset.range join_graph.vertices.length).powerset := by
    rw [Finset.mem_powerset]
    intro i hi
    exact Finset.mem_range.mpr (hsub a ha i hi)
  have hSne : a.vertex_set ≠ Finset.range join_graph.vertices.length := by
    intro heq
    obtain ⟨j, hj⟩ := h2 b hb
    have hja : j ∈ a.vertex_set := by
      rw [heq]; exact Finset.mem_range.mpr (hsub b hb j hj)
    exact Finset.disjoint_left.mp (h3 a ha b hb hab) hja hj
  obtain ⟨edge, hedge, i, hi, j, hj, hvs⟩ := hconn a.vertex_set hS (h2 a ha) hSne
  rw [Finset.mem_sdiff, Finset.mem_range] at hj
  obtain ⟨d, hd, hjd⟩ := (h4 j).mp hj.1
  have had : a ≠ d := by
    intro h; subst h; exact hj.2 hjd
  have hspans : ∀ x ∈ clusters, (spans edge x = true ↔ x = a ∨ x = d) := by
    intro x hx
    unfold spans
    rw [decide_eq_true_eq, hvs, Finset.not_disjoint_iff]
    constructor
    · rintro ⟨k, hk, hkx⟩
      simp only [Finset.mem_insert, Finset.mem_singleton] at hk
      rcases hk with hk | hk
      · left
        by_contra hxa
        exact Finset.disjoint_left.mp (h3 x hx a ha hxa) hkx (hk ▸ hi)
      · right
        by_contra hxd
        exact Finset.disjoint_left.mp (h3 x hx d hd hxd) hkx (hk ▸ hjd)
    · rintro (hx | hx)
      · exact ⟨i, by simp, hx ▸ hi⟩
      · exact ⟨j, by simp, hx ▸ hjd⟩
  have hfilter := eq_pair_of_nodup_of_mem (h1.filter (spans edge))
    (by
      intro x
      rw [List.mem_filter]
      constructor
      · rintro ⟨hx, hs⟩; exact (hspans x hx).mp hs
      · rintro (hx | hx)
        · rw [hx]; exact ⟨ha, (hspans a ha).mpr (Or.inl rfl)⟩
        · rw [hx]; exact ⟨hd, (hspans d hd).mpr (Or.inr rfl)⟩)
    had
  obtain ⟨k, hk, hke⟩ := List.getElem_of_mem hedge
  have hmem : (k, edge) ∈ join_graph.edges.enum :=
    List.mk_mem_enum_iff_getElem?.mpr (by rw [List.getElem?_eq_getElem hk, hke])
  have hsome : ∃ c, build_candidate clusters k edge = some c := by
    unfold build_candidate
    rcases hfilter with hf | hf <;> rw [hf] <;> exact ⟨_, rfl⟩
  obtain ⟨c, hc⟩ := hsome
  have : c ∈ candidates join_graph.edges clusters := mem_candidates.mpr ⟨(k, edge), hmem, hc⟩
  intro h0
  rw [h0] at this
  simp at this

/-- C12: for every connected join graph with at least one vertex, whatever the iteration order
of the cluster container and the costs, `GreedyOperatorOrdering` returns one plan whose leaves
are the vertex subplans, each once, and whose internal nodes are exactly `|V| - 1` joins on edge
predicates (no cross join is needed). -/
theorem greedy_completeness (order : List Cluster → List Cluster)
    (horder : ∀ l, (order l).Perm l) (cost : JoinPlan → Cost) (join_graph : JoinGraph)
    (hV : join_graph.vertices ≠ []) (hconn : join_graph.Connected) :
    ∃ plan merges, GreedyOperatorOrdering order cost join_graph = some (plan, merges) ∧
      List.Perm plan.leaves join_graph.vertices ∧
      plan.join_count = join_graph.vertices.length - 1 ∧ plan.cross_count = 0 := by
  obtain ⟨c, merges, hres, hleaves, hcount, _, hJ⟩ :=
    greedy_operator_ordering_invariant order horder cost join_graph hV
      (fun l => ∀ c ∈ l, c.plan.cross_count = 0)
      (fun l₁ l₂ hp h c hc => h c (hp.mem_iff.mpr hc))
      (by
        intro clusters new rest hpart hJ hs
        obtain ⟨a, b, ha, hb, hrest, _, hplan⟩ := greedy_step_spec hs
        obtain ⟨hba, hb2⟩ := hpart.1.mem_erase_iff.mp hb
        intro c hc
        rcases List.mem_cons.mp hc with hc | hc
        · rcases hplan with ⟨e, _, _, _, hj⟩ | ⟨hnil, _⟩
          · rw [hc, hj]
            simp only [JoinPlan.cross_count, hJ a ha, hJ b hb2]
          · exact absurd hnil (candidates_ne_nil_of_connected hconn hpart ha hb2 (Ne.symm hba))
        · rw [hrest] at hc
          exact hJ c ((hpart.mem_rest a b c).mp hc).2.2)
      (by
        intro c hc
        obtain ⟨i, v, _, h⟩ := mem_initial_clusters.mp hc
        rw [h]; rfl)
  have h0 := hJ c (List.mem_singleton_self c)
  exact ⟨c.plan, merges, hres, hleaves, by omega, h0⟩

theorem greedy_completeness_witness :
    ∃ plan merges, GreedyOperatorOrdering List.reverse leaf_count_cost square_graph =
        some (plan, merges) ∧
      List.Perm plan.leaves square_graph.vertices ∧
      plan.join_count = square_graph.vertices.length - 1 ∧ plan.cross_count = 0 :=
  greedy_completeness List.reverse List.reverse_perm leaf_count_cost square_graph (by decide)
    (by unfold JoinGraph.Connected; decide)

/-- On `square_graph` with the cost `leaf_count_cost` the ordering first joins the vertices 0
and 1, then 2 and 3, and last the two pairs on the predicate of the edge 1 - 2. -/
theorem greedy_operator_ordering_square_graph :
    (GreedyOperatorOrdering id leaf_count_cost square_graph).map Prod.fst =
      some (JoinPlan.join (JoinPlan.join (JoinPlan.vertex 10) (JoinPlan.vertex 11) [0])
        (JoinPlan.join (JoinPlan.vertex 12) (JoinPlan.vertex 13) [2]) [1]) := by
  decide

end opossum


namespace opossum

/-! ## Greedy operator ordering on a disconnected join graph -/

/-- C13: for every disconnected join graph, whatever the iteration order of the cluster
container and the costs, `GreedyOperatorOrdering` terminates with one plan whose leaves are all
the vertex subplans, each once (no vertex is dropped); the plan has `|V| - 1` internal nodes, at
least one of them a cross join, and a merge step builds a cross join only when no edge spans
exactly two clusters. -/
theorem greedy_disconnected_fallback (order : List Cluster → List Cluster)
    (horder : ∀ l, (order l).Perm l) (cost : JoinPlan → Cost) (join_graph : JoinGraph)
    (hdis : join_graph.Disconnected) :
    (∃ plan merges, GreedyOperatorOrdering order cost join_graph = some (plan, merges) ∧
      List.Perm plan.leaves join_graph.vertices ∧
      plan.join_count + plan.cross_count = join_graph.vertices.length - 1 ∧
      1 ≤ plan.cross_count) ∧
    ∀ clusters new rest, greedy_step cost join_graph.edges clusters = some (new, rest) →
      (∃ left right predicates, new.plan = JoinPlan.join left right predicates) ∨
      (candidates join_graph.edges clusters = [] ∧
        ∃ left right, new.plan = JoinPlan.cross left right) := by
  constructor
  · obtain ⟨S, hS, hSne, hSproper, hcut⟩ := hdis
    rw [Finset.mem_powerset] at hS
    have hV : join_graph.vertices ≠ [] := by
      intro h0
      rw [h0] at hS
      simp only [List.length_nil, Finset.range_zero, Finset.subset_empty] at hS
      rw [hS] at hSne
      exact Finset.not_nonempty_empty hSne
    obtain ⟨c, merges, hres, hleaves, hcount, hpart, hJ⟩ :=
      greedy_operator_ordering_invariant order horder cost join_graph hV
        (fun l => ∀ c ∈ l, c.vertex_set ⊆ S ∨ Disjoint c.vertex_set S ∨ 1 ≤ c.plan.cross_count)
        (fun l₁ l₂ hp h c hc => h c (hp.mem_iff.mpr hc))
        (by
          intro clusters new rest hpart hJ hs
          obtain ⟨a, b, ha, hb, hrest, hvs, hplan⟩ := greedy_step_spec hs
          obtain ⟨hba, hb2⟩ := hpart.1.mem_erase_iff.mp hb
          intro c hc
          rcases List.mem_cons.mp hc with hc | hc
          · subst hc
            rcases hplan with ⟨e, he, hsa, hsb, hj⟩ | ⟨_, hx⟩
            · have hin : ∀ x ∈ clusters, x.vertex_set ⊆
                  Finset.range join_graph.vertices.length := by
                intro x hx i hi
                exact Finset.mem_range.mpr ((hpart.2.2.2 i).mpr ⟨x, hx, hi⟩)
              unfold spans at hsa hsb
              rw [decide_eq_true_eq, Finset.not_disjoint_iff] at hsa hsb
              obtain ⟨i, hie, hia⟩ := hsa
              obtain ⟨j, hje, hjb⟩ := hsb
              rcases hJ a ha with hA | hA | hA
              · rcases hJ b hb2 with hB | hB | hB
                · left; rw [hvs]; exact Finset.union_subset hA hB
                · exfalso
                  rcases hcut e he with hd | hd
                  · exact Finset.disjoint_left.mp hd hie (hA hia)
                  · refine Finset.disjoint_left.mp hd hje ?_
                    rw [Finset.mem_sdiff]
                    exact ⟨hin b hb2 hjb, fun hjS => Finset.disjoint_left.mp hB hjb hjS⟩
                · right; right
                  rw [hj]; simp only [JoinPlan.cross_count]; omega
              · rcases hJ b hb2 with hB | hB | hB
                · exfalso
                  rcases hcut e he with hd | hd
                  · exact Finset.disjoint_left.mp hd hje (hB hjb)
                  · refine Finset.disjoint_left.mp hd hie ?_
                    rw [Finset.mem_sdiff]
                    exact ⟨hin a ha hia, fun hiS => Finset.disjoint_left.mp hA hia hiS⟩
                · right; left; rw [hvs]
                  exact Finset.disjoint_union_left.mpr ⟨hA, hB⟩
                · right; right
                  rw [hj]; simp only [JoinPlan.cross_count]; omega
              · right; right
                rw [hj]; simp only [JoinPlan.cross_count]; omega
            · right; right
              rw [hx]; simp only [JoinPlan.cross_count]; omega
          · rw [hrest] at hc
            exact hJ c ((hpart.mem_rest a b c).mp hc).2.2)
        (by
          intro c hc
          obtain ⟨i, v, _, h⟩ := mem_initial_clusters.mp hc
          rw [h]
          by_cases hi : i ∈ S
          · left; simpa using hi
          · right; left; simpa using hi)
    have hall : c.vertex_set = Finset.range join_graph.vertices.length := by
      ext i
      rw [Finset.mem_range, hpart.2.2.2 i]
      simp
    refine ⟨c.plan, merges, hres, hleaves, by omega, ?_⟩
    rcases hJ c (List.mem_singleton_self c) with h | h | h
    · exact absurd (Finset.Subset.antisymm hS (hall ▸ h)) hSproper
    · exfalso
      obtain ⟨i, hi⟩ := hSne
      exact Finset.disjoint_left.mp h (hall ▸ hS hi) hi
    · exact h
  · intro clusters new rest hs
    obtain ⟨a, b, _, _, _, _, hplan⟩ := greedy_step_spec hs
    rcases hplan with ⟨e, _, _, _, hj⟩ | ⟨hnil, hx⟩
    · exact Or.inl ⟨_, _, _, hj⟩
    · exact Or.inr ⟨hnil, _, _, hx⟩

theorem greedy_disconnected_fallback_witness :
    (∃ plan merges, GreedyOperatorOrdering id leaf_count_cost two_pairs_graph =
        some (plan, merges) ∧
      List.Perm plan.leaves two_pairs_graph.vertices ∧
      plan.join_count + plan.cross_count = two_pairs_graph.vertices.length - 1 ∧
      1 ≤ plan.cross_count) ∧
    ∀ clusters new rest,
      greedy_step leaf_count_cost two_pairs_graph.edges clusters = some (new, rest) →
      (∃ left right predicates, new.plan = JoinPlan.join left right predicates) ∨
      (candidates two_pairs_graph.edges clusters = [] ∧
        ∃ left right, new.plan = JoinPlan.cross left right) :=
  greedy_disconnected_fallback id (fun l => List.Perm.refl l) leaf_count_cost two_pairs_graph
    (by unfold JoinGraph.Disconnected; decide)

/-- On `two_pairs_graph` the ordering joins each pair on its edge and connects the two pairs by
a cross join. -/
theorem greedy_operator_ordering_two_pairs_graph :
    (GreedyOperatorOrdering id leaf_count_cost two_pairs_graph).map Prod.fst =
      some (JoinPlan.cross (JoinPlan.join (JoinPlan.vertex 10) (JoinPlan.vertex 11) [0])
        (JoinPlan.join (JoinPlan.vertex 12) (JoinPlan.vertex 13) [1])) := by
  decide

end opossum


namespace opossum

/-! ## Greedy operator ordering does not depend on the iteration order of the container -/

theorem bit_pattern_injective : Function.Injective bit_pattern :=
  Finset.geomSum_injective (le_refl 2)

theorem ClusterPartition.bit_pattern_ne {n : Nat} {clusters : List Cluster}
    (h : ClusterPartition n clusters) {x y : Cluster} (hx : x ∈ clusters) (hy : y ∈ clusters)
    (hxy : x ≠ y) : bit_pattern x.vertex_set ≠ bit_pattern y.vertex_set := by
  intro heq
  have hvs := bit_pattern_injective heq
  have hd := h.2.2.1 x hx y hy hxy
  rw [hvs, disjoint_self, Finset.bot_eq_empty] at hd
  have := h.2.1 y hy
  rw [hd] at this
  exact Finset.not_nonempty_empty this

theorem ordered_pair_comm {x y : Cluster}
    (h : bit_pattern x.vertex_set ≠ bit_pattern y.vertex_set) :
    ordered_pair x y = ordered_pair y x := by
  unfold ordered_pair
  by_cases h1 : bit_pattern x.vertex_set ≤ bit_pattern y.vertex_set
  · rw [if_pos h1, if_neg (by omega)]
  · rw [if_neg h1, if_pos (by omega)]

theorem build_candidate_perm {n : Nat} {l₁ l₂ : List Cluster} (hp : List.Perm l₁ l₂)
    (hpart : ClusterPartition n l₁) {i : Nat} {edge : JoinGraphEdge} {c : JoinCandidate}
    (h : build_candidate l₁ i edge = some c) : build_candidate l₂ i edge = some c := by
  obtain ⟨x, y, hf, hc⟩ := build_candidate_spec h
  have hnd : (l₁.filter (spans edge)).Nodup := hpart.1.filter _
  have hxy : x ≠ y := by
    intro h0
    rw [hf, h0] at hnd
    simp at hnd
  have hx : x ∈ l₁ := (List.mem_filter.mp (hf ▸ (by simp : x ∈ [x, y]))).1
  have hy : y ∈ l₁ := (List.mem_filter.mp (hf ▸ (by simp : y ∈ [x, y]))).1
  have hpf : List.Perm (l₁.filter (spans edge)) (l₂.filter (spans edge)) := hp.filter _
  have hf2 := eq_pair_of_nodup_of_mem (hpf.nodup_iff.mp hnd)
    (by
      intro z
      rw [← hpf.mem_iff, hf]
      simp)
    hxy
  unfold build_candidate
  rcases hf2 with hf2 | hf2
  · rw [hf2, hc]
  · rw [hf2, hc, ordered_pair_comm (hpart.bit_pattern_ne hx hy hxy)]

theorem candidates_perm {n : Nat} {l₁ l₂ : List Cluster} (hp : List.Perm l₁ l₂)
    (hpart : ClusterPartition n l₁) (edges : List JoinGraphEdge) :
    candidates edges l₁ = candidates edges l₂ := by
  unfold candidates
  apply List.filterMap_congr
  intro ie _
  cases h1 : build_candidate l₁ ie.1 ie.2 with
  | some c => exact (build_candidate_perm hp hpart h1).symm
  | none =>
    cases h2 : build_candidate l₂ ie.1 ie.2 with
    | none => rfl
    | some c =>
      have := build_candidate_perm hp.symm (hpart.perm hp) h2
      rw [h1] at this
      exact absurd this (by simp)

theorem ClusterPartition.cluster_less_total {n : Nat} {clusters : List Cluster}
    (h : ClusterPartition n clusters) (cost : JoinPlan → Cost) :
    ∀ a ∈ clusters, ∀ b ∈ clusters, a ≠ b →
      cluster_less cost a b = true ∨ cluster_less cost b a = true := by
  intro a ha b hb hab
  have hne := h.bit_pattern_ne ha hb hab
  unfold cluster_less
  simp only [Bool.or_eq_true, Bool.and_eq_true, decide_eq_true_eq]
  rcases lt_trichotomy (cost a.plan) (cost b.plan) with hc | hc | hc
  · exact Or.inl (Or.inl hc)
  · rcases Nat.lt_or_ge (bit_pattern a.vertex_set) (bit_pattern b.vertex_set) with hb | hb
    · exact Or.inl (Or.inr ⟨hc, hb⟩)
    · exact Or.inr (Or.inr ⟨hc.symm, by omega⟩)
  · exact Or.inr (Or.inl hc)

theorem cross_fallback_perm {n : Nat} {l₁ l₂ : List Cluster} (hp : List.Perm l₁ l₂)
    (hpart : ClusterPartition n l₁) (cost : JoinPlan → Cost) :
    cross_fallback cost l₁ = cross_fallback cost l₂ := by
  unfold cross_fallback
  rw [← select_min_perm (cluster_less_asymm cost) (cluster_less_neg_trans cost) hp
    (hpart.cluster_less_total cost)]
  cases ha : select_min (cluster_less cost) l₁ with
  | none => rfl
  | some a =>
    simp only
    rw [← select_min_perm (cluster_less_asymm cost) (cluster_less_neg_trans cost) (hp.erase a)
      (fun x hx y hy hxy => hpart.cluster_less_total cost x (List.mem_of_mem_erase hx) y
        (List.mem_of_mem_erase hy) hxy)]

/-- A merge step on two enumerations of the same partition builds the same cluster and leaves
the same clusters. -/
theorem greedy_step_perm {n : Nat} {l₁ l₂ : List Cluster} (hp : List.Perm l₁ l₂)
    (hpart : ClusterPartition n l₁) (cost : JoinPlan → Cost) (edges : List JoinGraphEdge) :
    (greedy_step cost edges l₁ = none ∧ greedy_step cost edges l₂ = none) ∨
    ∃ new rest₁ rest₂, greedy_step cost edges l₁ = some (new, rest₁) ∧
      greedy_step cost edges l₂ = some (new, rest₂) ∧ List.Perm rest₁ rest₂ := by
  unfold greedy_step
  rw [← candidates_perm hp hpart edges, ← cross_fallback_perm hp hpart cost]
  cases hsel : select_min (candidate_less cost) (candidates edges l₁) with
  | some c => exact Or.inr ⟨_, _, _, rfl, rfl, (hp.erase _).erase _⟩
  | none =>
    cases hx : cross_fallback cost l₁ with
    | none => exact Or.inl ⟨rfl, rfl⟩
    | some ab => exact Or.inr ⟨_, _, _, rfl, rfl, (hp.erase _).erase _⟩

theorem greedy_loop_zero (order : List Cluster → List Cluster) (cost : JoinPlan → Cost)
    (edges : List JoinGraphEdge) (clusters merges : List Cluster) (h : clusters.length ≠ 1) :
    greedy_loop order cost edges 0 clusters merges = none := by
  match clusters, h with
  | [], _ => simp [greedy_loop]
  | [c], h => simp at h
  | _ :: _ :: _, _ => simp [greedy_loop]

theorem greedy_loop_succ_some (order : List Cluster → List Cluster) (cost : JoinPlan → Cost)
    (edges : List JoinGraphEdge) (fuel : Nat) (clusters merges : List Cluster)
    (h : clusters.length ≠ 1) {new : Cluster} {rest : List Cluster}
    (hs : greedy_step cost edges clusters = some (new, rest)) :
    greedy_loop order cost edges (fuel + 1) clusters merges =
      greedy_loop order cost edges fuel (order (new :: rest)) (merges ++ [new]) := by
  rw [greedy_loop]
  · rw [hs]
  · intro c hc
    rw [hc] at h
    simp at h

theorem greedy_loop_succ_none (order : List Cluster → List Cluster) (cost : JoinPlan → Cost)
    (edges : List JoinGraphEdge) (fuel : Nat) (clusters merges : List Cluster)
    (h : clusters.length ≠ 1) (hs : greedy_step cost edges clusters = none) :
    greedy_loop order cost edges (fuel + 1) clusters merges = none := by
  rw [greedy_loop]
  · rw [hs]
  · intro c hc
    rw [hc] at h
    simp at h

/-- The loop of the greedy ordering gives the same plan and the same merges for two iteration
orders of the cluster container. -/
theorem greedy_loop_perm (order₁ order₂ : List Cluster → List Cluster)
    (h₁ : ∀ l, (order₁ l).Perm l) (h₂ : ∀ l, (order₂ l).Perm l) (cost : JoinPlan → Cost)
    (edges : List JoinGraphEdge) (n : Nat) :
    ∀ (fuel : Nat) (l₁ l₂ merges : List Cluster), List.Perm l₁ l₂ → ClusterPartition n l₁ →
      greedy_loop order₁ cost edges fuel l₁ merges =
        greedy_loop order₂ cost edges fuel l₂ merges := by
  intro fuel
  induction fuel with
  | zero =>
    intro l₁ l₂ merges hp _
    by_cases hlen : l₁.length = 1
    · obtain ⟨c, hc⟩ := List.length_eq_one.mp hlen
      subst hc
      have hl₂ := List.singleton_perm.mp hp
      subst hl₂
      simp [greedy_loop]
    · rw [greedy_loop_zero _ _ _ _ _ hlen, greedy_loop_zero _ _ _ _ _ (hp.length_eq ▸ hlen)]
  | succ f ih =>
    intro l₁ l₂ merges hp hpart
    by_cases hlen : l₁.length = 1
    · obtain ⟨c, hc⟩ := List.length_eq_one.mp hlen
      subst hc
      have hl₂ := List.singleton_perm.mp hp
      subst hl₂
      simp [greedy_loop]
    · have hlen₂ : l₂.length ≠ 1 := hp.length_eq ▸ hlen
      rcases greedy_step_perm hp hpart cost edges with ⟨hn1, hn2⟩ | ⟨new, r₁, r₂, hs1, hs2, hr⟩
      · rw [greedy_loop_succ_none _ _ _ _ _ _ hlen hn1,
          greedy_loop_succ_none _ _ _ _ _ _ hlen₂ hn2]
      · rw [greedy_loop_succ_some _ _ _ _ _ _ hlen hs1,
          greedy_loop_succ_some _ _ _ _ _ _ hlen₂ hs2]
        apply ih
        · exact (h₁ _).trans ((hr.cons new).trans (h₂ _).symm)
        · exact (hpart.step hs1).perm (h₁ _).symm

end opossum


namespace opossum

/-- C14: `GreedyOperatorOrdering` is deterministic. For every join graph and every assignment
of costs, two runs that enumerate the cluster container in different orders return the same
final plan and the same sequence of merges; and whenever a merge step has candidates, the
cluster it builds is a candidate of minimum cost, and among the candidates of that cost one with
the lowest combined vertex-set bit pattern. -/
theorem greedy_deterministic (order₁ order₂ : List Cluster → List Cluster)
    (h₁ : ∀ l, (order₁ l).Perm l) (h₂ : ∀ l, (order₂ l).Perm l) (cost : JoinPlan → Cost)
    (join_graph : JoinGraph) :
    GreedyOperatorOrdering order₁ cost join_graph =
        GreedyOperatorOrdering order₂ cost join_graph ∧
      ∀ clusters new rest, greedy_step cost join_graph.edges clusters = some (new, rest) →
        ∀ d ∈ candidates join_graph.edges clusters,
          (∃ c ∈ candidates join_graph.edges clusters,
            new = ⟨c.vertex_set, c.plan⟩ ∧ rest = (clusters.erase c.left).erase c.right) ∧
          cost new.plan ≤ cost d.plan ∧
          (cost d.plan = cost new.plan →
            bit_pattern new.vertex_set ≤ bit_pattern d.vertex_set) := by
  constructor
  · unfold GreedyOperatorOrdering
    exact greedy_loop_perm order₁ order₂ h₁ h₂ cost join_graph.edges
      join_graph.vertices.length _ _ _ _ ((h₁ _).trans (h₂ _).symm)
      ((initial_clusters_partition join_graph).perm (h₁ _).symm)
  · intro clusters new rest hs d hd
    unfold greedy_step at hs
    cases hsel : select_min (candidate_less cost) (candidates join_graph.edges clusters) with
    | none =>
      rw [select_min_eq_none.mp hsel] at hd
      simp at hd
    | some c =>
      rw [hsel] at hs
      simp only [Option.some.injEq, Prod.mk.injEq] at hs
      obtain ⟨hnew, hrest⟩ := hs
      have hleast := select_min_least (candidate_less_asymm cost)
        (candidate_less_neg_trans cost) hsel d hd
      unfold candidate_less at hleast
      simp only [Bool.or_eq_false_iff, Bool.and_eq_false_imp, decide_eq_false_iff_not,
        decide_eq_true_eq, not_lt] at hleast
      subst hnew
      refine ⟨⟨c, select_min_mem hsel, rfl, hrest.symm⟩, hleast.1, ?_⟩
      intro heq
      exact (hleast.2 heq).1

theorem greedy_deterministic_witness :
    GreedyOperatorOrdering id leaf_count_cost square_graph =
        GreedyOperatorOrdering List.reverse leaf_count_cost square_graph ∧
      ∀ clusters new rest,
        greedy_step leaf_count_cost square_graph.edges clusters = some (new, rest) →
        ∀ d ∈ candidates square_graph.edges clusters,
          (∃ c ∈ candidates square_graph.edges clusters,
            new = ⟨c.vertex_set, c.plan⟩ ∧ rest = (clusters.erase c.left).erase c.right) ∧
          leaf_count_cost new.plan ≤ leaf_count_cost d.plan ∧
          (leaf_count_cost d.plan = leaf_count_cost new.plan →
            bit_pattern new.vertex_set ≤ bit_pattern d.vertex_set) :=
  greedy_deterministic id List.reverse (fun l => List.Perm.refl l) List.reverse_perm
    leaf_count_cost square_graph

/-- The merges on `square_graph` with the cost `leaf_count_cost`, where candidates tie at every
step: the vertex sets of the clusters built are 0-1, then 2-3, then all four vertices. -/
theorem greedy_operator_ordering_square_graph_merges :
    (GreedyOperatorOrdering List.reverse leaf_count_cost square_graph).map
        (fun r => r.2.map fun c => c.vertex_set) =
      some [{0, 1}, {2, 3}, {0, 1, 2, 3}] := by
  decide

end opossum


namespace opossum

/-! ## `JitExpression`: result type -/

/-- C17: `_compute_result_type`, with the expression types classified as usual
(`jit_expression_is_binary` holds for the comparison and logical types and not for `Not`,
`IsNull`, `IsNotNull`). For `Equals`, `NotEquals`, `GreaterThan`, `GreaterThanEquals`, `LessThan`,
`LessThanEquals`, `Like`, `NotLike`, `And` and `Or` the result type is `Bool`, nullable iff the
result of a child is nullable; for `IsNull` and `IsNotNull` it is `Bool` and not nullable; for
`Not` it is `Bool` with the nullability of the child; every other expression type that is not
binary fails. -/
theorem compute_result_type_spec (jit_expression_is_binary : JitExpressionType → Bool)
    (jit_compute_type : JitExpressionType → DataType → DataType → Option DataType)
    (h_binary : ∀ t ∈ [JitExpressionType.Equals, .NotEquals, .GreaterThan, .GreaterThanEquals,
      .LessThan, .LessThanEquals, .Like, .NotLike, .And, .Or], jit_expression_is_binary t = true)
    (h_unary : ∀ t ∈ [JitExpressionType.Not, .IsNull, .IsNotNull],
      jit_expression_is_binary t = false)
    (left_child : JitExpression) :
    (∀ t ∈ [JitExpressionType.Equals, .NotEquals, .GreaterThan, .GreaterThanEquals,
        .LessThan, .LessThanEquals, .Like, .NotLike, .And, .Or], ∀ right_child : JitExpression,
      ∃ nullable, _compute_result_type jit_expression_is_binary jit_compute_type t left_child
          (some right_child) = some (DataType.Bool, nullable) ∧
        (nullable = true ↔
          left_child.result.is_nullable = true ∨ right_child.result.is_nullable = true)) ∧
    (∀ t ∈ [JitExpressionType.IsNull, .IsNotNull], ∀ right_child : Option JitExpression,
      _compute_result_type jit_expression_is_binary jit_compute_type t left_child right_child =
        some (DataType.Bool, false)) ∧
    (∀ right_child : Option JitExpression,
      _compute_result_type jit_expression_is_binary jit_compute_type .Not left_child
        right_child = some (DataType.Bool, left_child.result.is_nullable)) ∧
    (∀ t, jit_expression_is_binary t = false →
      t ∉ [JitExpressionType.Not, .IsNull, .IsNotNull] → ∀ right_child : Option JitExpression,
      _compute_result_type jit_expression_is_binary jit_compute_type t left_child right_child =
        none) := by
  refine ⟨?_, ?_, ?_, ?_⟩
  · intro t ht right_child
    have hb := h_binary t ht
    refine ⟨left_child.result.is_nullable || right_child.result.is_nullable, ?_,
      Bool.or_eq_true _ _ ▸ Iff.rfl⟩
    simp only [List.mem_cons, List.mem_singleton, List.not_mem_nil, or_false] at ht
    rcases ht with h | h | h | h | h | h | h | h | h | h <;> subst h <;>
      simp [_compute_result_type, hb]
  · intro t ht right_child
    have hb := h_unary t (by
      simp only [List.mem_cons, List.mem_singleton, List.not_mem_nil, or_false] at ht ⊢
      exact Or.inr ht)
    simp only [List.mem_cons, List.mem_singleton, List.not_mem_nil, or_false] at ht
    rcases ht with h | h <;> subst h <;> simp [_compute_result_type, hb]
  · intro right_child
    have hb := h_unary .Not (by simp)
    simp [_compute_result_type, hb]
  · intro t hb ht right_child
    simp only [List.mem_cons, List.mem_singleton, List.not_mem_nil, or_false, not_or] at ht
    obtain ⟨h1, h2, h3⟩ := ht
    cases t <;> simp_all [_compute_result_type]

theorem compute_result_type_spec_witness :
    (∀ t ∈ [JitExpressionType.Equals, .NotEquals, .GreaterThan, .GreaterThanEquals,
        .LessThan, .LessThanEquals, .Like, .NotLike, .And, .Or], ∀ right_child : JitExpression,
      ∃ nullable, _compute_result_type sample_is_binary (fun _ _ _ => none) t (bool_column 0)
          (some right_child) = some (DataType.Bool, nullable) ∧
        (nullable = true ↔
          (bool_column 0).result.is_nullable = true ∨ right_child.result.is_nullable = true)) ∧
    (∀ t ∈ [JitExpressionType.IsNull, .IsNotNull], ∀ right_child : Option JitExpression,
      _compute_result_type sample_is_binary (fun _ _ _ => none) t (bool_column 0) right_child =
        some (DataType.Bool, false)) ∧
    (∀ right_child : Option JitExpression,
      _compute_result_type sample_is_binary (fun _ _ _ => none) .Not (bool_column 0)
        right_child = some (DataType.Bool, (bool_column 0).result.is_nullable)) ∧
    (∀ t, sample_is_binary t = false →
      t ∉ [JitExpressionType.Not, .IsNull, .IsNotNull] → ∀ right_child : Option JitExpression,
      _compute_result_type sample_is_binary (fun _ _ _ => none) t (bool_column 0) right_child =
        none) :=
  compute_result_type_spec sample_is_binary (fun _ _ _ => none) (by decide) (by decide)
    (bool_column 0)

end opossum


namespace opossum

/-! ## `JitExpression::compute`: pruning of the right side -/

/-- Every call of `compute` that returns has recorded its expression first. -/
theorem compute_log {Context : Type} (ops : JitOperations Context) :
    ∀ (e : JitExpression) (state final : ComputeState Context),
      compute ops e state = some final → ∃ t, final.2 = state.2 ++ e :: t := by
  intro e
  induction e with
  | column result_value load_column input_column_index =>
    intro state final h
    simp only [compute, Option.some.injEq] at h
    exact ⟨[], by rw [← h]⟩
  | unary left_child expression_type result_value ih =>
    intro state final h
    simp only [compute] at h
    by_cases hc : expression_type = JitExpressionType.Column
    · rw [if_pos hc, Option.some.injEq] at h
      exact ⟨[], by rw [← h]⟩
    · rw [if_neg hc] at h
      obtain ⟨left_state, hl, h2⟩ := Option.bind_eq_some.mp h
      obtain ⟨t, ht⟩ := ih _ _ hl
      refine ⟨left_child :: t, ?_⟩
      have hfinal : final.2 = left_state.2 := by
        split at h2
        · unfold compute_non_binary at h2
          split at h2 <;> first | (rw [← Option.some.inj h2]) | exact absurd h2 (by simp)
        · exact absurd h2 (by simp)
      rw [hfinal, ht]
      simp
  | binary left_child expression_type right_child result_value ihl ihr =>
    intro state final h
    simp only [compute] at h
    by_cases hc : expression_type = JitExpressionType.Column
    · rw [if_pos hc, Option.some.injEq] at h
      exact ⟨[], by rw [← h]⟩
    · rw [if_neg hc] at h
      obtain ⟨left_state, hl, h2⟩ := Option.bind_eq_some.mp h
      obtain ⟨t, ht⟩ := ihl _ _ hl
      simp only [List.append_assoc, List.singleton_append] at ht
      split at h2
      · refine ⟨left_child :: t, ?_⟩
        have hfinal : final.2 = left_state.2 := by
          unfold compute_non_binary at h2
          split at h2 <;> first | (rw [← Option.some.inj h2]) | exact absurd h2 (by simp)
        rw [hfinal, ht]
      · split at h2
        · refine ⟨left_child :: t, ?_⟩
          rw [← Option.some.inj h2, ht]
        · split at h2
          · refine ⟨left_child :: t, ?_⟩
            rw [← Option.some.inj h2, ht]
          · obtain ⟨right_state, hr, h3⟩ := Option.bind_eq_some.mp h2
            obtain ⟨t', ht'⟩ := ihr _ _ hr
            obtain ⟨context, _, h4⟩ := Option.map_eq_some'.mp h3
            refine ⟨left_child :: t ++ right_child :: t', ?_⟩
            rw [← h4]
            simp only
            rw [ht', ht]
            simp

/-- C16: `JitExpression::compute` on an expression with two children and a binary expression
type, from the state `left_state` reached by computing the left child. For `And` with a left
result that is not null and false, and for `Or` with a left result that is not null and true,
the call returns with the record of the left computation only (the right child is not computed)
and the result is false, respectively true (`jit_and` and `jit_or` with `prune_right_side`
obeying "false and x = false", "true or x = true"). In every other case the right child is
computed in the state that the left child has left, and then the operation is applied. -/
theorem compute_prunes_right_side {Context : Type} (ops : JitOperations Context)
    (h_and : ∀ lhs rhs result context, ops.is_null lhs context = false →
      ops.get_bool lhs context = false →
      ops.is_null result (ops.jit_and lhs rhs result context true) = false ∧
        ops.get_bool result (ops.jit_and lhs rhs result context true) = false)
    (h_or : ∀ lhs rhs result context, ops.is_null lhs context = false →
      ops.get_bool lhs context = true →
      ops.is_null result (ops.jit_or lhs rhs result context true) = false ∧
        ops.get_bool result (ops.jit_or lhs rhs result context true) = true)
    (left_child right_child : JitExpression) (expression_type : JitExpressionType)
    (result_value : JitTupleValue) (state left_state : ComputeState Context)
    (hbinary : ops.jit_expression_is_binary expression_type = true)
    (hcolumn : expression_type ≠ JitExpressionType.Column)
    (hleft : compute ops left_child
      (state.1, state.2 ++ [.binary left_child expression_type right_child result_value]) =
        some left_state) :
    (∃ tl, left_state.2 = state.2 ++
      .binary left_child expression_type right_child result_value :: left_child :: tl) ∧
    (expression_type = JitExpressionType.And →
      ops.is_null left_child.result left_state.1 = false →
      ops.get_bool left_child.result left_state.1 = false →
      ∃ context, compute ops (.binary left_child expression_type right_child result_value)
          state = some (context, left_state.2) ∧
        ops.is_null result_value context = false ∧ ops.get_bool result_value context = false) ∧
    (expression_type = JitExpressionType.Or →
      ops.is_null left_child.result left_state.1 = false →
      ops.get_bool left_child.result left_state.1 = true →
      ∃ context, compute ops (.binary left_child expression_type right_child result_value)
          state = some (context, left_state.2) ∧
        ops.is_null result_value context = false ∧ ops.get_bool result_value context = true) ∧
    (¬ (expression_type = JitExpressionType.And ∧
        ops.is_null left_child.result left_state.1 = false ∧
        ops.get_bool left_child.result left_state.1 = false) →
      ¬ (expression_type = JitExpressionType.Or ∧
        ops.is_null left_child.result left_state.1 = false ∧
        ops.get_bool left_child.result left_state.1 = true) →
      compute ops (.binary left_child expression_type right_child result_value) state =
          (compute ops right_child left_state).bind (fun right_state =>
            (if result_value.data_type = DataType.Bool ∧
                left_child.result.data_type = DataType.String ∧
                right_child.result.data_type = DataType.String then
              ops.no_inline_compute_binary left_child.result expression_type
                right_child.result result_value right_state.1
            else
              compute_binary ops left_child.result expression_type right_child.result
                result_value right_state.1).map fun context => (context, right_state.2)) ∧
        ∀ final,
          compute ops (.binary left_child expression_type right_child result_value) state =
            some final →
          ∃ tr, final.2 = left_state.2 ++ right_child :: tr) := by
  have hstep : compute ops (.binary left_child expression_type right_child result_value) state =
      if expression_type = JitExpressionType.And ∧
          ops.is_null left_child.result left_state.1 = false ∧
          ops.get_bool left_child.result left_state.1 = false then
        some (ops.jit_and left_child.result right_child.result result_value left_state.1
          true, left_state.2)
      else if expression_type = JitExpressionType.Or ∧
          ops.is_null left_child.result left_state.1 = false ∧
          ops.get_bool left_child.result left_state.1 = true then
        some (ops.jit_or left_child.result right_child.result result_value left_state.1
          true, left_state.2)
      else
        (compute ops right_child left_state).bind fun right_state =>
          (if result_value.data_type = DataType.Bool ∧
              left_child.result.data_type = DataType.String ∧
              right_child.result.data_type = DataType.String then
            ops.no_inline_compute_binary left_child.result expression_type
              right_child.result result_value right_state.1
          else
            compute_binary ops left_child.result expression_type right_child.result
              result_value right_state.1).map fun context => (context, right_state.2) := by
    rw [compute, if_neg hcolumn, hleft]
    simp only [Option.some_bind, hbinary, Bool.not_true, Bool.false_eq_true, if_false]
  refine ⟨?_, ?_, ?_, ?_⟩
  · obtain ⟨t, ht⟩ := compute_log ops _ _ _ hleft
    refine ⟨t, ?_⟩
    rw [ht]
    simp
  · intro ht hnull hval
    refine ⟨_, ?_, h_and _ right_child.result result_value _ hnull hval⟩
    rw [hstep, if_pos ⟨ht, hnull, hval⟩]
  · intro ht hnull hval
    refine ⟨_, ?_, h_or _ right_child.result result_value _ hnull hval⟩
    have hne : ¬ (expression_type = JitExpressionType.And ∧
        ops.is_null left_child.result left_state.1 = false ∧
        ops.get_bool left_child.result left_state.1 = false) := by
      rintro ⟨h1, _⟩
      rw [ht] at h1
      exact absurd h1 (by decide)
    rw [hstep, if_neg hne, if_pos ⟨ht, hnull, hval⟩]
  · intro hand hor
    have heq := hstep
    rw [if_neg hand, if_neg hor] at heq
    refine ⟨heq, ?_⟩
    intro final hfinal
    rw [heq] at hfinal
    obtain ⟨right_state, hr, h3⟩ := Option.bind_eq_some.mp hfinal
    obtain ⟨t, ht⟩ := compute_log ops _ _ _ hr
    obtain ⟨context, _, h4⟩ := Option.map_eq_some'.mp h3
    refine ⟨t, ?_⟩
    rw [← h4]
    exact ht

theorem compute_prunes_right_side_witness :
    ∃ context, compute sample_operations false_and_null (sample_tuple, []) =
        some (context, [false_and_null, bool_column 0]) ∧
      sample_operations.is_null ⟨DataType.Bool, true, 3⟩ context = false ∧
      sample_operations.get_bool ⟨DataType.Bool, true, 3⟩ context = false :=
  (compute_prunes_right_side sample_operations
    (by intro lhs rhs result context _ _; simp [sample_operations, set_value])
    (by intro lhs rhs result context _ _; simp [sample_operations, set_value])
    (bool_column 0) (bool_column 2) JitExpressionType.And ⟨DataType.Bool, true, 3⟩
    (sample_tuple, []) (sample_tuple, [false_and_null, bool_column 0]) rfl (by decide)
    rfl).2.1 rfl rfl rfl

/-- On `sample_tuple`, `x0 AND x2` is false and only the left column is computed; `x1 AND x2`
is null and both columns are computed, the left one first. -/
theorem compute_sample_and :
    (compute sample_operations false_and_null (sample_tuple, [])).map (fun s => (s.1 3, s.2)) =
        some (some false, [false_and_null, bool_column 0]) ∧
      (compute sample_operations true_and_null (sample_tuple, [])).map (fun s => (s.1 3, s.2)) =
        some (none, [true_and_null, bool_column 1, bool_column 2]) := by
  constructor <;> rfl

end opossum


namespace opossum

/-! ## `generate_predicates` -/

theorem filter_column_dist_lt {size : Nat} (draw : Nat) (h0 : 0 < size) (h : size ≤ 2 ^ 64) :
    filter_column_dist size draw < size := by
  unfold filter_column_dist
  have h1 : (size + 2 ^ 64 - 1) % 2 ^ 64 + 1 = size := by
    have : size + 2 ^ 64 - 1 = (size - 1) + 2 ^ 64 := by omega
    rw [this, Nat.add_mod_right, Nat.mod_eq_of_lt (by omega)]
    omega
  rw [h1]
  exact Nat.mod_lt _ h0

theorem exists_ne_of_two_le {α : Type} {l : List α} (hnd : l.Nodup) (h : 2 ≤ l.length)
    (a : α) : ∃ b ∈ l, b ≠ a := by
  match l, hnd, h with
  | x :: y :: _, hnd, _ =>
    have hxy : x ≠ y := by
      intro h; subst h; simp at hnd
    by_cases hx : x = a
    · exact ⟨y, by simp, fun hy => hxy (hx.trans hy.symm)⟩
    · exact ⟨x, by simp, hx⟩

/-- After the column of a successful attempt is erased from a map with two columns or more, a
column is left. -/
theorem erase_column_ne_nil {column_definitions : ColumnDefinitions}
    (hkeys : (column_definitions.map Prod.fst).Nodup) (h : 2 ≤ column_definitions.length)
    (filter_column : String × CalibrationColumnSpecification) :
    0 < (column_definitions.filter fun column => column.1 != filter_column.1).length := by
  obtain ⟨b, hb, hne⟩ := exists_ne_of_two_le hkeys (by simpa using h) filter_column.1
  obtain ⟨c, hc, hcb⟩ := List.mem_map.mp hb
  apply List.length_pos_of_mem (a := c)
  rw [List.mem_filter]
  refine ⟨hc, ?_⟩
  rw [hcb]
  simpa using hne

theorem intercalate_pair (s a b : String) : String.intercalate s [a, b] = a ++ s ++ b := by
  simp [String.intercalate, String.intercalate.go]

theorem intercalate_single (s a : String) : String.intercalate s [a] = a := by
  simp [String.intercalate, String.intercalate.go]

/-- C18: `generate_predicates` never filters on the same column twice. On a map with two
columns or more the function returns; and whenever it returns, its result is described by the
two attempts, for the filter columns `c0` and `c1` that the draws select: after a first attempt
that gave a predicate, `c1` is selected from the map without `c0`, so it is another column; the
result is `nullopt` exactly when both attempts gave no predicate, the two predicates joined by
" AND " when both gave one, and the single predicate otherwise. -/
theorem generate_predicates_distinct_columns (predicate_generator : PredicateGeneratorFunctor)
    (column_definitions : ColumnDefinitions) ( column_name_prefix : String)
    (draws : Nat → Nat) :
    ((column_definitions.map Prod.fst).Nodup → 2 ≤ column_definitions.length →
      column_definitions.length ≤ 2 ^ 64 →
      ∃ r, generate_predicates predicate_generator column_definitions column_name_prefix draws =
        some r) ∧
    ∀ r, generate_predicates predicate_generator column_definitions column_name_prefix draws =
        some r →
      ∃ c0 c1 copy,
        column_definitions[filter_column_dist column_definitions.length (draws 0)]? = some c0 ∧
        copy[filter_column_dist copy.length (draws 1)]? = some c1 ∧
        (predicate_generator 0 c0 column_definitions column_name_prefix = none →
          copy = column_definitions) ∧
        (predicate_generator 0 c0 column_definitions column_name_prefix ≠ none →
          copy = (column_definitions.filter fun column => column.1 != c0.1) ∧ c1.1 ≠ c0.1) ∧
        (r = none ↔ predicate_generator 0 c0 column_definitions column_name_prefix = none ∧
          predicate_generator 1 c1 copy column_name_prefix = none) ∧
        (∀ p0 p1, predicate_generator 0 c0 column_definitions column_name_prefix = some p0 →
          predicate_generator 1 c1 copy column_name_prefix = some p1 →
          r = some (p0 ++ " AND " ++ p1)) ∧
        (∀ p0, predicate_generator 0 c0 column_definitions column_name_prefix = some p0 →
          predicate_generator 1 c1 copy column_name_prefix = none → r = some p0) ∧
        (∀ p1, predicate_generator 0 c0 column_definitions column_name_prefix = none →
          predicate_generator 1 c1 copy column_name_prefix = some p1 → r = some p1) := by
  constructor
  · intro hkeys h2 hsize
    have hlt0 := filter_column_dist_lt (draws 0) (by omega : 0 < column_definitions.length) hsize
    unfold generate_predicates
    simp only [generate_predicates_loop, List.getElem?_eq_getElem hlt0, Option.map_eq_some']
    cases predicate_generator 0 _ column_definitions column_name_prefix with
    | none =>
      have hlt1 := filter_column_dist_lt (draws 1) (by omega : 0 < column_definitions.length)
        hsize
      simp only [Nat.zero_add, List.getElem?_eq_getElem hlt1]
      cases predicate_generator 1 _ column_definitions column_name_prefix with
      | none => exact ⟨_, _, rfl, rfl⟩
      | some p1 => exact ⟨_, _, rfl, rfl⟩
    | some p0 =>
      have hpos := erase_column_ne_nil hkeys h2
        column_definitions[filter_column_dist column_definitions.length (draws 0)]
      have hle : (column_definitions.filter fun column => column.1 !=
          column_definitions[filter_column_dist column_definitions.length (draws 0)].1).length ≤
          2 ^ 64 := le_trans (List.length_filter_le _ _) hsize
      have hlt1 := filter_column_dist_lt (draws 1) hpos hle
      simp only [Nat.zero_add, List.getElem?_eq_getElem hlt1]
      cases predicate_generator 1 _ _ column_name_prefix with
      | none => exact ⟨_, _, rfl, rfl⟩
      | some p1 => exact ⟨_, _, rfl, rfl⟩
  · intro r hr
    unfold generate_predicates at hr
    simp only [generate_predicates_loop, Nat.zero_add] at hr
    cases hc0 : column_definitions[filter_column_dist column_definitions.length (draws 0)]? with
    | none => rw [hc0] at hr; simp at hr
    | some c0 =>
      rw [hc0] at hr
      simp only at hr
      cases hg0 : predicate_generator 0 c0 column_definitions column_name_prefix with
      | none =>
        rw [hg0] at hr
        simp only at hr
        cases hc1 : column_definitions[filter_column_dist column_definitions.length (draws 1)]?
          with
        | none => rw [hc1] at hr; simp at hr
        | some c1 =>
          rw [hc1] at hr
          simp only at hr
          refine ⟨c0, c1, column_definitions, rfl, hc1, fun _ => rfl, ?_, ?_⟩
          · intro h; exact absurd hg0 h
          · cases hg1 : predicate_generator 1 c1 column_definitions column_name_prefix with
            | none =>
              rw [hg1] at hr
              simp only [Option.map_some', List.isEmpty_nil, if_true, Option.some.injEq] at hr
              subst hr
              simp [hg0]
            | some p1 =>
              rw [hg1] at hr
              simp only [Option.map_some', List.nil_append, List.isEmpty_cons,
                Bool.false_eq_true, if_false, Option.some.injEq, intercalate_single] at hr
              subst hr
              simp [hg0]
      | some p0 =>
        rw [hg0] at hr
        simp only at hr
        cases hc1 : (column_definitions.filter fun column => column.1 != c0.1)[filter_column_dist
          (column_definitions.filter fun column => column.1 != c0.1).length (draws 1)]? with
        | none => rw [hc1] at hr; simp at hr
        | some c1 =>
          rw [hc1] at hr
          simp only at hr
          have hmem : c1 ∈ column_definitions.filter fun column => column.1 != c0.1 := by
            obtain ⟨hlt, heq⟩ := List.getElem?_eq_some_iff.mp hc1
            rw [← heq]
            exact List.getElem_mem hlt
          have hne : c1.1 ≠ c0.1 := by
            have := (List.mem_filter.mp hmem).2
            simpa using this
          refine ⟨c0, c1, _, rfl, hc1, ?_, fun _ => ⟨rfl, hne⟩, ?_⟩
          · intro h; rw [hg0] at h; exact absurd h (by simp)
          · cases hg1 : predicate_generator 1 c1
              (column_definitions.filter fun column => column.1 != c0.1) column_name_prefix with
            | none =>
              rw [hg1] at hr
              simp only [Option.map_some', List.nil_append, List.isEmpty_cons,
                Bool.false_eq_true, if_false, Option.some.injEq, intercalate_single] at hr
              subst hr
              simp [hg0]
            | some p1 =>
              rw [hg1] at hr
              simp only [Option.map_some', List.nil_append, List.singleton_append,
                List.isEmpty_cons, Bool.false_eq_true, if_false, Option.some.injEq,
                intercalate_pair] at hr
              subst hr
              simp [hg0]

end opossum


namespace opossum

theorem generate_predicates_distinct_columns_witness :
    (∃ r, generate_predicates sample_predicate_generator three_columns "t_" (fun _ => 0) =
        some r) ∧
    ∃ c0 c1 copy,
      three_columns[filter_column_dist three_columns.length 0]? = some c0 ∧
      copy[filter_column_dist copy.length 0]? = some c1 ∧
      (sample_predicate_generator 0 c0 three_columns "t_" = none → copy = three_columns) ∧
      (sample_predicate_generator 0 c0 three_columns "t_" ≠ none →
        copy = (three_columns.filter fun column => column.1 != c0.1) ∧ c1.1 ≠ c0.1) ∧
      (some "t_a <= 1 AND t_b <= 1" = none ↔
        sample_predicate_generator 0 c0 three_columns "t_" = none ∧
          sample_predicate_generator 1 c1 copy "t_" = none) ∧
      (∀ p0 p1, sample_predicate_generator 0 c0 three_columns "t_" = some p0 →
        sample_predicate_generator 1 c1 copy "t_" = some p1 →
        some "t_a <= 1 AND t_b <= 1" = some (p0 ++ " AND " ++ p1)) ∧
      (∀ p0, sample_predicate_generator 0 c0 three_columns "t_" = some p0 →
        sample_predicate_generator 1 c1 copy "t_" = none →
        some "t_a <= 1 AND t_b <= 1" = some p0) ∧
      (∀ p1, sample_predicate_generator 0 c0 three_columns "t_" = none →
        sample_predicate_generator 1 c1 copy "t_" = some p1 →
        some "t_a <= 1 AND t_b <= 1" = some p1) :=
  ⟨(generate_predicates_distinct_columns sample_predicate_generator three_columns "t_"
      (fun _ => 0)).1 (by decide) (by decide) (by decide),
    (generate_predicates_distinct_columns sample_predicate_generator three_columns "t_"
      (fun _ => 0)).2 (some "t_a <= 1 AND t_b <= 1") (by decide)⟩

/-- C19: `generate_predicates` on a map with a single column whose first attempt gives a
predicate. The first selection is that column; erasing it leaves the working copy empty; in the
second iteration the distribution is set up for the empty copy, where `size - 1` wraps around,
so the index drawn is any number below `2 ^ 64`, none of which is below the number 0 of columns
left: the position selected is past the end and the behaviour is undefined. -/
theorem generate_predicates_single_column (predicate_generator : PredicateGeneratorFunctor)
    (column : String × CalibrationColumnSpecification) ( column_name_prefix : String)
    (draws : Nat → Nat) (predicate : String)
    (hfirst : predicate_generator 0 column [column] column_name_prefix = some predicate) :
    [column][filter_column_dist [column].length (draws 0)]? = some column ∧
      ([column].filter fun c => c.1 != column.1) = [] ∧
      filter_column_dist 0 (draws 1) = draws 1 % 2 ^ 64 ∧
      ¬ filter_column_dist 0 (draws 1) < ([column].filter fun c => c.1 != column.1).length ∧
      generate_predicates predicate_generator [column] column_name_prefix draws = none := by
  have h0 : filter_column_dist 1 (draws 0) = 0 := by
    unfold filter_column_dist
    norm_num [Nat.mod_one]
  have hnil : ([column].filter fun c => c.1 != column.1) = [] := by simp
  refine ⟨by simp [h0], hnil, ?_, by simp, ?_⟩
  · unfold filter_column_dist
    norm_num
  · simp [generate_predicates, generate_predicates_loop, h0, hfirst]

theorem generate_predicates_single_column_witness :
    single_column[filter_column_dist single_column.length 0]? = some ("a", ⟨"int", 100⟩) ∧
      (single_column.filter fun c => c.1 != "a") = [] ∧
      filter_column_dist 0 7 = 7 % 2 ^ 64 ∧
      ¬ filter_column_dist 0 7 < (single_column.filter fun c => c.1 != "a").length ∧
      generate_predicates sample_predicate_generator single_column "t_"
        (fun i => if i = 0 then 0 else 7) = none :=
  generate_predicates_single_column sample_predicate_generator ("a", ⟨"int", 100⟩) "t_"
    (fun i => if i = 0 then 0 else 7) "t_a <= 1" rfl

/-- C20: `generate_between_predicate_value` for an `int` column when the values 9 and 10 are
generated, in either order: the values are compared as strings, "10" comes before "9", and the
predicate is "t_a BETWEEN 10 AND 9", whose lower bound 10 exceeds its upper bound 9. -/
theorem generate_between_predicate_value_unordered (rand_r : Nat → Nat) :
    generate_between_predicate_value rand_r ("a", ⟨"int", 100⟩) "t_" ⟨0, 9, ""⟩ ⟨0, 10, ""⟩ =
        some (some "t_a BETWEEN 10 AND 9") ∧
      generate_between_predicate_value rand_r ("a", ⟨"int", 100⟩) "t_" ⟨0, 10, ""⟩ ⟨0, 9, ""⟩ =
        some (some "t_a BETWEEN 10 AND 9") ∧
      ∃ a b : Nat, "t_a BETWEEN 10 AND 9" =
          "t_" ++ "a" ++ " BETWEEN " ++ Nat.repr a ++ " AND " ++ Nat.repr b ∧ b < a := by
  exact ⟨rfl, rfl, 10, 9, by decide, by decide⟩

end opossum


namespace opossum

/-! ## Pruning statistics: the filter of a segment -/

theorem sorted_head_le {T : Type} [LinearOrder T] {front : T} {rest : List T}
    (h : (front :: rest).Pairwise (· ≤ ·)) : ∀ x ∈ front :: rest, front ≤ x := by
  intro x hx
  rcases List.mem_cons.mp hx with hx | hx
  · rw [hx]
  · exact List.rel_of_pairwise_cons h hx

theorem sorted_le_getLast {T : Type} [LinearOrder T] :
    ∀ (l : List T) (hne : l ≠ []), l.Pairwise (· ≤ ·) → ∀ x ∈ l, x ≤ l.getLast hne := by
  intro l
  induction l with
  | nil => intro hne; exact absurd rfl hne
  | cons a rest ih =>
    intro hne h x hx
    cases rest with
    | nil =>
      simp only [List.mem_singleton] at hx
      rw [hx]
      simp
    | cons b rest2 =>
      rw [List.getLast_cons (List.cons_ne_nil b rest2)]
      have hrest := List.Pairwise.of_cons h
      rcases List.mem_cons.mp hx with hx | hx
      · rw [hx]
        exact le_trans (List.rel_of_pairwise_cons h (List.mem_cons_self b rest2))
          (ih (List.cons_ne_nil b rest2) hrest b (List.mem_cons_self b rest2))
      · exact ih (List.cons_ne_nil b rest2) hrest x hx

/-- For a type that is not arithmetic and fresh column statistics, nothing is stored for an
empty dictionary, and a filter of the first and the last entry for any other dictionary. -/
theorem create_pruning_filter_for_segment_min_max {T R : Type} (ops : PruningOperations T R)
    (hstore : StoresMinMaxFilter ops) (dictionary : List T) :
    (dictionary = [] →
      create_pruning_filter_for_segment false ops ⟨none, none⟩ dictionary = ⟨none, none⟩) ∧
    (∀ hne : dictionary ≠ [],
      ∃ front rest, dictionary = front :: rest ∧
        (create_pruning_filter_for_segment false ops ⟨none, none⟩ dictionary).min_max_filter =
          some ⟨front, dictionary.getLast hne⟩) := by
  constructor
  · intro h
    subst h
    simp [create_pruning_filter_for_segment]
  · intro hne
    cases dictionary with
    | nil => exact absurd rfl hne
    | cons front rest =>
      refine ⟨front, rest, rfl, ?_⟩
      simp only [create_pruning_filter_for_segment, Bool.false_eq_true, if_false,
        Option.isNone_none, if_true]
      exact hstore _ _

/-- The statistics of a segment of a string column that is not a dictionary segment: without a
non-null value nothing is stored; otherwise the min-max filter holds two non-null values of the
segment that bound all of them. -/
theorem segment_statistics_min_max {T R : Type} [LinearOrder T] (ops : PruningOperations T R)
    (hsort : SortContract ops.sort) (hset : UnorderedSetContract ops.unordered_set)
    (hstore : StoresMinMaxFilter ops) (typed_segment : TypedSegment T)
    (hgeneric : typed_segment.is_dictionary_segment = false) :
    (typed_segment.values.reduceOption = [] →
      segment_statistics false ops typed_segment = ⟨none, none⟩) ∧
    (typed_segment.values.reduceOption ≠ [] →
      ∃ filter, (segment_statistics false ops typed_segment).min_max_filter = some filter ∧
        filter.min ∈ typed_segment.values.reduceOption ∧
        filter.max ∈ typed_segment.values.reduceOption ∧
        ∀ value ∈ typed_segment.values.reduceOption,
          filter.min ≤ value ∧ value ≤ filter.max) := by
  have hmem : ∀ x, x ∈ ops.sort (ops.unordered_set typed_segment.values.reduceOption) ↔
      x ∈ typed_segment.values.reduceOption := by
    intro x
    rw [(hsort _).1.mem_iff, (hset _).2]
  have hstat : segment_statistics false ops typed_segment =
      create_pruning_filter_for_segment false ops ⟨none, none⟩
        (ops.sort (ops.unordered_set typed_segment.values.reduceOption)) := by
    unfold segment_statistics
    rw [hgeneric]
    simp
  obtain ⟨h1, h2⟩ := create_pruning_filter_for_segment_min_max ops hstore
    (ops.sort (ops.unordered_set typed_segment.values.reduceOption))
  constructor
  · intro hnil
    rw [hstat]
    apply h1
    apply List.eq_nil_iff_forall_not_mem.mpr
    intro x hx
    rw [hmem, hnil] at hx
    simp at hx
  · intro hne
    obtain ⟨v, hv⟩ := List.exists_mem_of_ne_nil _ hne
    have hne2 : ops.sort (ops.unordered_set typed_segment.values.reduceOption) ≠ [] :=
      List.ne_nil_of_mem ((hmem v).mpr hv)
    obtain ⟨front, rest, hd, hfilter⟩ := h2 hne2
    refine ⟨_, hstat ▸ hfilter, ?_, ?_, ?_⟩
    · exact (hmem front).mp (hd ▸ List.mem_cons_self front rest)
    · exact (hmem _).mp (List.getLast_mem hne2)
    · intro value hvalue
      have hvd := (hmem value).mpr hvalue
      constructor
      · have hsorted := (hsort (ops.unordered_set typed_segment.values.reduceOption)).2
        rw [hd] at hsorted hvd
        exact sorted_head_le hsorted value hvd
      · exact sorted_le_getLast _ hne2 (hsort _).2 value hvd

end opossum


namespace opossum

/-! ## Pruning statistics: the loops over the columns and over the chunks -/

/-- After the first `k` iterations of the loop over the columns the vector still has one entry
per column, and the entries of the columns below `k` are set. -/
theorem chunk_statistics_after {A R : Type} (ops_arithmetic : PruningOperations A R)
    (ops_string : PruningOperations String R) (segments : List (BaseSegment A)) :
    ∀ k, k ≤ segments.length →
      ((List.range k).foldl
        (fun (chunk_statistics : ChunkPruningStatistics A R) (column_id : Nat) =>
          match segments[column_id]? with
          | some segment =>
            chunk_statistics.set column_id
              (some (resolve_segment_statistics ops_arithmetic ops_string segment))
          | none => chunk_statistics)
        (List.replicate segments.length none)).length = segments.length ∧
      ∀ column_id segment, column_id < k → segments[column_id]? = some segment →
        ((List.range k).foldl
          (fun (chunk_statistics : ChunkPruningStatistics A R) (column_id : Nat) =>
            match segments[column_id]? with
            | some segment =>
              chunk_statistics.set column_id
                (some (resolve_segment_statistics ops_arithmetic ops_string segment))
            | none => chunk_statistics)
          (List.replicate segments.length none))[column_id]? =
          some (some (resolve_segment_statistics ops_arithmetic ops_string segment)) := by
  intro k
  induction k with
  | zero =>
    intro _
    exact ⟨by simp, fun _ _ h _ => absurd h (by omega)⟩
  | succ k ih =>
    intro hk
    obtain ⟨hlen, hset⟩ := ih (by omega)
    rw [List.range_succ, List.foldl_append]
    simp only [List.foldl_cons, List.foldl_nil]
    have hk' : k < segments.length := by omega
    rw [List.getElem?_eq_getElem hk']
    simp only
    refine ⟨by rw [List.length_set]; exact hlen, ?_⟩
    intro column_id segment hlt hseg
    by_cases hc : column_id = k
    · subst hc
      rw [List.getElem?_eq_getElem hk', Option.some.injEq] at hseg
      rw [hseg, List.getElem?_set_self (by rw [hlen]; exact hk')]
    · rw [List.getElem?_set_ne (Ne.symm hc)]
      exact hset column_id segment (by omega) hseg

/-- The statistics of a chunk have one entry per column, and the entry of a column holds the
statistics of its segment. -/
theorem chunk_pruning_statistics_spec {A R : Type} (ops_arithmetic : PruningOperations A R)
    (ops_string : PruningOperations String R) (chunk : Chunk A R) :
    (chunk_pruning_statistics ops_arithmetic ops_string chunk).length = chunk.segments.length ∧
      ∀ (column_id : Nat) (segment : BaseSegment A), chunk.segments[column_id]? = some segment →
        (chunk_pruning_statistics ops_arithmetic ops_string chunk)[column_id]? =
          some (some (resolve_segment_statistics ops_arithmetic ops_string segment)) := by
  obtain ⟨hlen, hset⟩ := chunk_statistics_after ops_arithmetic ops_string chunk.segments
    chunk.segments.length (le_refl _)
  refine ⟨hlen, ?_⟩
  intro column_id segment hseg
  exact hset column_id segment (List.getElem?_eq_some_iff.mp hseg).1 hseg

/-- The chunk that an iteration of the loop over the chunks leaves in the table. -/
theorem generate_chunk_pruning_statistics_after {A R : Type}
    (ops_arithmetic : PruningOperations A R) (ops_string : PruningOperations String R)
    (table : Table A R) (hpresent : ∀ chunk ∈ table, chunk ≠ none) :
    ∀ k, k ≤ table.length →
      ∃ current, (List.range k).foldl
          (fun (state : Option (Table A R)) (chunk_id : Nat) =>
            state.bind fun current =>
              generate_chunk_pruning_statistics_step ops_arithmetic ops_string current chunk_id)
          (some table) = some current ∧
        current.length = table.length ∧
        (∀ chunk_id, k ≤ chunk_id → current[chunk_id]? = table[chunk_id]?) ∧
        ∀ chunk_id chunk, chunk_id < k → table[chunk_id]? = some (some chunk) →
          current[chunk_id]? = some (some
            (if chunk.is_mutable then chunk
            else { chunk with
              pruning_statistics :=
                some (chunk_pruning_statistics ops_arithmetic ops_string chunk) })) := by
  intro k
  induction k with
  | zero =>
    intro _
    exact ⟨table, by simp, rfl, fun _ _ => rfl, fun _ _ h _ => absurd h (by omega)⟩
  | succ k ih =>
    intro hk
    obtain ⟨current, hfold, hlen, hrest, hdone⟩ := ih (by omega)
    have hk' : k < table.length := by omega
    have hsome : ∃ chunk, table[k]? = some (some chunk) := by
      have hmem : table[k] ∈ table := List.getElem_mem hk'
      cases hc : table[k] with
      | none => exact absurd hc (hpresent _ hmem)
      | some chunk => exact ⟨chunk, by rw [List.getElem?_eq_getElem hk', hc]⟩
    obtain ⟨chunk, hchunk⟩ := hsome
    have hcur : current[k]? = some (some chunk) := by rw [hrest k (le_refl k), hchunk]
    rw [List.range_succ, List.foldl_append]
    simp only [List.foldl_cons, List.foldl_nil, hfold, Option.some_bind]
    unfold generate_chunk_pruning_statistics_step
    rw [hcur]
    simp only
    by_cases hm : chunk.is_mutable = true
    · rw [if_pos hm]
      refine ⟨current, rfl, hlen, fun i hi => hrest i (by omega), ?_⟩
      intro chunk_id chunk' hlt hc
      by_cases hck : chunk_id = k
      · subst hck
        rw [hchunk] at hc
        simp only [Option.some.injEq] at hc
        subst hc
        rw [hcur, if_pos hm]
      · exact hdone chunk_id chunk' (by omega) hc
    · rw [if_neg hm]
      refine ⟨_, rfl, by rw [List.length_set]; exact hlen, ?_, ?_⟩
      · intro i hi
        rw [List.getElem?_set_ne (by omega)]
        exact hrest i (by omega)
      · intro chunk_id chunk' hlt hc
        by_cases hck : chunk_id = k
        · subst hck
          rw [hchunk] at hc
          simp only [Option.some.injEq] at hc
          subst hc
          rw [List.getElem?_set_self (by rw [hlen]; exact hk'), if_neg hm]
        · rw [List.getElem?_set_ne (Ne.symm hck)]
          exact hdone chunk_id chunk' (by omega) hc

end opossum


namespace opossum

/-- C21: `generate_chunk_pruning_statistics` on a table whose chunks are all present, with
`std::sort`, `std::unordered_set` and `set_statistics_object` doing what they promise. The call
returns; a mutable chunk is left as it was; an immutable chunk gets pruning statistics with one
entry per column, none of them null; and the entry of a string column whose segment is not a
dictionary segment holds no filter when the segment has no non-null value, and otherwise a
min-max filter whose minimum and maximum are non-null values of the segment, the smallest and
the largest of them. -/
theorem generate_chunk_pruning_statistics_spec {A R : Type}
    (ops_arithmetic : PruningOperations A R) (ops_string : PruningOperations String R)
    (hsort : SortContract ops_string.sort)
    (hset : UnorderedSetContract ops_string.unordered_set)
    (hstore : StoresMinMaxFilter ops_string) (table : Table A R)
    (hpresent : ∀ chunk ∈ table, chunk ≠ none) :
    ∃ result, generate_chunk_pruning_statistics ops_arithmetic ops_string table = some result ∧
      result.length = table.length ∧
      ∀ (chunk_id : Nat) (chunk : Chunk A R), table[chunk_id]? = some (some chunk) →
        (chunk.is_mutable = true → result[chunk_id]? = some (some chunk)) ∧
        (chunk.is_mutable = false →
          ∃ statistics : ChunkPruningStatistics A R,
            result[chunk_id]? =
              some (some { chunk with pruning_statistics := some statistics }) ∧
            statistics.length = chunk.segments.length ∧
            ∀ (column_id : Nat) (segment : BaseSegment A),
              chunk.segments[column_id]? = some segment →
              ∃ entry, statistics[column_id]? = some (some entry) ∧
                ∀ typed_segment : TypedSegment String,
                  segment = BaseSegment.non_arithmetic typed_segment →
                  typed_segment.is_dictionary_segment = false →
                  ∃ column_statistics,
                    entry = BaseColumnStatistics.non_arithmetic column_statistics ∧
                    (typed_segment.values.reduceOption = [] →
                      column_statistics = ⟨none, none⟩) ∧
                    (typed_segment.values.reduceOption ≠ [] →
                      ∃ filter, column_statistics.min_max_filter = some filter ∧
                        filter.min ∈ typed_segment.values.reduceOption ∧
                        filter.max ∈ typed_segment.values.reduceOption ∧
                        ∀ value ∈ typed_segment.values.reduceOption,
                          filter.min ≤ value ∧ value ≤ filter.max)) := by
  obtain ⟨result, hfold, hlen, _, hdone⟩ :=
    generate_chunk_pruning_statistics_after ops_arithmetic ops_string table hpresent
      table.length (le_refl _)
  refine ⟨result, hfold, hlen, ?_⟩
  intro chunk_id chunk hchunk
  have hres := hdone chunk_id chunk (List.getElem?_eq_some_iff.mp hchunk).1 hchunk
  constructor
  · intro hm
    rw [hres, if_pos hm]
  · intro hm
    have hne : ¬ chunk.is_mutable = true := by rw [hm]; simp
    rw [if_neg hne] at hres
    obtain ⟨hslen, hsset⟩ := chunk_pruning_statistics_spec ops_arithmetic ops_string chunk
    refine ⟨_, hres, hslen, ?_⟩
    intro column_id segment hseg
    refine ⟨_, hsset column_id segment hseg, ?_⟩
    intro typed_segment htyped hgeneric
    subst htyped
    obtain ⟨h1, h2⟩ := segment_statistics_min_max ops_string hsort hset hstore typed_segment
      hgeneric
    exact ⟨_, rfl, h1, h2⟩

end opossum


namespace opossum

/-! ## Pruning statistics: a sample table -/

theorem sample_sort_contract (T : Type) [LinearOrder T] :
    SortContract (sample_pruning_operations T).sort := by
  intro l
  exact ⟨List.perm_insertionSort _ l, List.sorted_insertionSort _ l⟩

theorem sample_unordered_set_contract (T : Type) [LinearOrder T] :
    UnorderedSetContract (sample_pruning_operations T).unordered_set := by
  intro l
  exact ⟨List.nodup_dedup l, fun _ => List.mem_dedup⟩

theorem sample_stores_min_max_filter (T : Type) [LinearOrder T] :
    StoresMinMaxFilter (sample_pruning_operations T) := by
  intro column_statistics filter
  rfl

theorem generate_chunk_pruning_statistics_spec_witness :
    ∃ result, generate_chunk_pruning_statistics (sample_pruning_operations Int)
        (sample_pruning_operations String) fruit_table = some result ∧
      result.length = fruit_table.length ∧
      ∀ (chunk_id : Nat) (chunk : Chunk Int Nat), fruit_table[chunk_id]? = some (some chunk) →
        (chunk.is_mutable = true → result[chunk_id]? = some (some chunk)) ∧
        (chunk.is_mutable = false →
          ∃ statistics : ChunkPruningStatistics Int Nat,
            result[chunk_id]? =
              some (some { chunk with pruning_statistics := some statistics }) ∧
            statistics.length = chunk.segments.length ∧
            ∀ (column_id : Nat) (segment : BaseSegment Int),
              chunk.segments[column_id]? = some segment →
              ∃ entry, statistics[column_id]? = some (some entry) ∧
                ∀ typed_segment : TypedSegment String,
                  segment = BaseSegment.non_arithmetic typed_segment →
                  typed_segment.is_dictionary_segment = false →
                  ∃ column_statistics,
                    entry = BaseColumnStatistics.non_arithmetic column_statistics ∧
                    (typed_segment.values.reduceOption = [] →
                      column_statistics = ⟨none, none⟩) ∧
                    (typed_segment.values.reduceOption ≠ [] →
                      ∃ filter, column_statistics.min_max_filter = some filter ∧
                        filter.min ∈ typed_segment.values.reduceOption ∧
                        filter.max ∈ typed_segment.values.reduceOption ∧
                        ∀ value ∈ typed_segment.values.reduceOption,
                          filter.min ≤ value ∧ value ≤ filter.max)) :=
  generate_chunk_pruning_statistics_spec (sample_pruning_operations Int)
    (sample_pruning_operations String) (sample_sort_contract String)
    (sample_unordered_set_contract String) (sample_stores_min_max_filter String) fruit_table
    (by decide)

/-- On the sample segments: of the values "pear", NULL, "apple", "pear", "fig" the filter
keeps "apple" and "pear"; a segment of NULLs gets no filter. -/
theorem segment_statistics_fruit :
    segment_statistics false (sample_pruning_operations String) fruit_segment =
        ⟨none, some ⟨"apple", "pear"⟩⟩ ∧
      segment_statistics false (sample_pruning_operations String) null_segment =
        ⟨none, none⟩ := by
  constructor
  · simp [segment_statistics, fruit_segment, create_pruning_filter_for_segment,
      sample_pruning_operations, List.reduceOption, List.insertionSort, List.orderedInsert,
      String.le_iff_toList_le]
    decide
  · simp [segment_statistics, null_segment, create_pruning_filter_for_segment,
      sample_pruning_operations, List.reduceOption]

end opossum
